import Mathlib

/-!
# Liberty gate-library parser

A shallow embedding of `gate_library_liberty_parser.cpp` (namespace
`gate_library_liberty_parser`) and the properties established about it.

* `std::string` is the list of its characters, positions are natural numbers,
  `std::string::npos` is `2^64 - 1` and `size_t` addition wraps modulo `2^64`.
* The statement tree is a store of nodes; a `shared_ptr`/`weak_ptr` to a
  statement is an index into the store and `nullptr` is `none`.
* A run that dereferences a null pointer, throws `std::out_of_range`, or does
  not finish its `while (repeat)` loop within the given number of iterations
  ends in a `Fault`.
-/

namespace Liberty

/-! ## Strings -/

/-- A `std::string`, as the list of its characters. -/
abbrev Str := List Char

/-- The constant `std::string::npos`, the largest `size_t`. -/
def npos : Nat := 18446744073709551615

/-- Addition of two `size_t` values, which wraps modulo `2^64`. -/
def size_add (a b : Nat) : Nat := (a + b) % 18446744073709551616

/-- The ways a run of the parser can end without returning. -/
inductive Fault where
  /-- A member of a null `shared_ptr` is accessed. -/
  | null_dereference
  /-- The exception `std::out_of_range`, thrown by `substr`. -/
  | out_of_range
  /-- The `while (repeat)` loop is still running when the iteration budget is used up. -/
  | out_of_fuel
  deriving DecidableEq, Repr

deriving instance DecidableEq for Except

/-- Position of the first occurrence of `pat` in a string, if there is one. -/
def first_occurrence (pat : Str) : Str → Option Nat
  | [] => if pat = [] then some 0 else none
  | x :: xs =>
    if pat.isPrefixOf (x :: xs) then some 0
    else (first_occurrence pat xs).map (· + 1)

/-- Position of the last occurrence of `pat` in a string, if there is one. -/
def last_occurrence (pat : Str) : Str → Option Nat
  | [] => if pat = [] then some 0 else none
  | x :: xs =>
    match last_occurrence pat xs with
    | some i => some (i + 1)
    | none => if pat.isPrefixOf (x :: xs) then some 0 else none

/-- The call `s.find(pat)`: the first position of `pat`, or `npos`. -/
def find (s pat : Str) : Nat :=
  match first_occurrence pat s with
  | some i => i
  | none => npos

/-- The call `s.rfind(pat)`: the last position of `pat`, or `npos`. -/
def rfind (s pat : Str) : Nat :=
  match last_occurrence pat s with
  | some i => i
  | none => npos

/-- The call `s.substr(pos, count)`; `s.substr(pos)` is `substr s pos npos`.
It throws when `pos` is past the end of the string. -/
def substr (s : Str) (pos count : Nat) : Except Fault Str :=
  if s.length < pos then .error .out_of_range
  else .ok ((s.drop pos).take count)

/-- The characters removed by `core_utils::trim`. -/
def is_space (c : Char) : Bool :=
  c = ' ' || c = '\t' || c = '\r' || c = '\n'

/-- Modelled from the spec: `core_utils::trim` (declared in `core/utils.h`,
which is not among the sources): leading and trailing whitespace is removed. -/
def trim (s : Str) : Str :=
  (s.dropWhile is_space).rdropWhile is_space

/-! ## Comment scrubber -/

/-- The function `remove_comments(line, multi_line_comment)`. The first argument
bounds the number of iterations of the `while (repeat)` loop; the result is the
final value of the two reference parameters. -/
def remove_comments : Nat → Str → Bool → Except Fault (Str × Bool)
  | 0, _, _ => .error .out_of_fuel
  | fuel + 1, line, multi_line_comment =>
    -- skip empty lines
    if line = [] then .ok (line, multi_line_comment)
    else
      let single_line_comment_begin := find line ['/', '/']
      let multi_line_comment_begin := find line ['/', '*']
      let multi_line_comment_end := find line ['*', '/']
      if multi_line_comment = true then
        if multi_line_comment_end ≠ npos then
          -- multi-line comment ends in current line
          (substr line (size_add multi_line_comment_end 2) npos).bind fun l =>
            remove_comments fuel l false
        else
          -- current line entirely within multi-line comment
          .ok ([], multi_line_comment)
      else
        if single_line_comment_begin ≠ npos then
          if multi_line_comment_begin = npos
              ∨ (multi_line_comment_begin ≠ npos
                  ∧ multi_line_comment_begin > single_line_comment_begin) then
            -- single-line comment
            (substr line 0 single_line_comment_begin).bind fun l =>
              remove_comments fuel l multi_line_comment
          else .ok (line, multi_line_comment)
        else if multi_line_comment_begin ≠ npos then
          if multi_line_comment_end ≠ npos then
            -- multi-line comment entirely in current line
            (substr line 0 multi_line_comment_begin).bind fun a =>
              (substr line (size_add multi_line_comment_end 2) npos).bind fun b =>
                remove_comments fuel (a ++ b) multi_line_comment
          else
            -- multi-line comment starts in current line
            (substr line 0 multi_line_comment_begin).bind fun a => .ok (a, true)
        else .ok (line, multi_line_comment)

/-! ## Statement tree -/

/-- Modelled from the spec: the `statement` node (declared in
`gate_library_liberty_parser.h`, which is not among the sources), built by
`statement(parent, is_group, name, value)` with no children. -/
structure statement where
  /-- The `weak_ptr` to the parent; `none` is the null pointer. -/
  parent : Option Nat
  is_group : Bool
  name : Str
  value : Str
  /-- The children, in order, as pointers into the store. -/
  statements : List Nat
  deriving DecidableEq, Repr

/-- The local variables `current_group`, `root` and `ignore_depth` of `get_statements`,
together with the store holding every statement allocated and attached so far. The
counter `ignore_depth` is an `i32`; it stays within range as long as no line has `2^31`
braces, and is kept as an integer. -/
structure tokenizer_state where
  heap : List statement
  current_group : Option Nat
  root : Option Nat
  ignore_depth : Int
  deriving DecidableEq, Repr

/-- The set literal `groups_of_interest`. -/
def groups_of_interest : List Str :=
  ["library".toList, "cell".toList, "pin".toList]

/-- The set literal `attributes_of_interest`. -/
def attributes_of_interest : List Str :=
  ["direction".toList, "function".toList, "three_state".toList, "x_function".toList]

/-- Reading through a pointer: a fault when it is null. -/
def deref (heap : List statement) : Option Nat → Except Fault statement
  | none => .error .null_dereference
  | some i =>
    match heap[i]? with
    | some s => .ok s
    | none => .error .null_dereference

/-- The statement `current_group = current_group->parent.lock()`, run `n` times. -/
def move_back (heap : List statement) : Nat → Option Nat → Except Fault (Option Nat)
  | 0, current_group => .ok current_group
  | n + 1, current_group =>
    (deref heap current_group).bind fun s => move_back heap n s.parent

/-- The call `current_group->statements.push_back(child)`. -/
def push_back_child (heap : List statement) (current_group : Option Nat) (child : Nat) :
    Except Fault (List statement) :=
  (deref heap current_group).bind fun _ =>
    .ok (heap.modify (fun s => { s with statements := s.statements ++ [child] })
      (current_group.getD 0))

/-- The initial values of the local variables of `get_statements`. -/
def initial_state : tokenizer_state :=
  { heap := [], current_group := none, root := none, ignore_depth := 0 }

/-- The block under `if (ignore_depth > 0)`: the brackets of a line inside an ignored
group are counted, and the closing brackets in excess move `current_group` back. -/
def ignored_line (st : tokenizer_state) (line : Str) : Except Fault tokenizer_state :=
  let closing_brackets : Int := line.count '}'
  let ignore_brackets : Int := st.ignore_depth
  let ignore_depth : Int := st.ignore_depth + (line.count '{' - closing_brackets)
  -- more closing brackets than should be ignored?
  if ignore_depth ≤ 0 then
    (move_back st.heap (closing_brackets - ignore_brackets).toNat st.current_group).bind
      fun cg => .ok { st with ignore_depth := 0, current_group := cg }
  else .ok { st with ignore_depth := ignore_depth }

/-- The block under `if (statement_curly != std::string::npos)`: a group statement. -/
def group_statement (st : tokenizer_state) (line : Str) : Except Fault tokenizer_state :=
  let group_bracket := find line ['(']
  (substr line 0 group_bracket).bind fun s1 =>
  (substr line 0 (find line [')'])).bind fun s2 =>
  (substr s2 (size_add group_bracket 1) npos).bind fun s3 =>
    let group_name := trim s1
    let name := trim s3
    if group_name ∈ groups_of_interest then
      let group : statement := ⟨st.current_group, true, group_name, name, []⟩
      let p := st.heap.length
      if st.root ≠ none then
        (push_back_child st.heap st.current_group p).bind fun heap =>
          .ok { st with heap := heap ++ [group], current_group := some p }
      else
        .ok { st with heap := st.heap ++ [group], root := some p, current_group := some p }
    else
      .ok { st with ignore_depth := st.ignore_depth + 1 }

/-- The block under `else if (statement_semicolon != std::string::npos)`: an attribute
statement. An attribute made while `current_group` is null is attached nowhere. -/
def attribute_statement (st : tokenizer_state) (line : Str) : Except Fault tokenizer_state :=
  let statement_semicolon := find line [';']
  let attribute_colon := find line [':']
  -- simple attribute
  if attribute_colon ≠ npos then
    (substr line 0 attribute_colon).bind fun s1 =>
    (substr line 0 statement_semicolon).bind fun s2 =>
    (substr s2 (size_add attribute_colon 1) npos).bind fun s3 =>
      let name := trim s1
      let value := trim s3
      if name ∈ attributes_of_interest then
        let attr : statement := ⟨st.current_group, false, name, value, []⟩
        if st.current_group ≠ none then
          (push_back_child st.heap st.current_group st.heap.length).bind fun heap =>
            .ok { st with heap := heap ++ [attr] }
        else .ok st
      else .ok st
  else .ok st

/-- The last loop of the body: `current_group` moves back once for every closing bracket
of the line. -/
def close_brackets (st : tokenizer_state) (line : Str) : Except Fault tokenizer_state :=
  (move_back st.heap (line.count '}') st.current_group).bind fun cg =>
    .ok { st with current_group := cg }

/-- The body of the loop `while (std::getline(ss, line))` of `get_statements`, for
a scrubbed, trimmed and non-empty line. -/
def process_statement (st : tokenizer_state) (line : Str) : Except Fault tokenizer_state :=
  -- currently in ignored group?
  if st.ignore_depth > 0 then ignored_line st line
  else
    let statement_curly := find line ['{']
    let statement_semicolon := find line [';']
    -- detect and handle group statement
    if statement_curly ≠ npos then
      (group_statement st line).bind fun st1 => close_brackets st1 line
    -- detect and handle attribute statement
    else if statement_semicolon ≠ npos then
      (attribute_statement st line).bind fun st1 => close_brackets st1 line
    else close_brackets st line

/-- One iteration of the loop `while (std::getline(ss, line))` of `get_statements`:
the line is scrubbed and trimmed, and skipped when it is empty. The flag
`multi_line_comment` is carried next to the other local variables. -/
def process_line (fuel : Nat) (st : tokenizer_state) (multi_line_comment : Bool) (raw : Str) :
    Except Fault (tokenizer_state × Bool) :=
  (remove_comments fuel raw multi_line_comment).bind fun r =>
    let line := trim r.1
    -- skip empty lines
    if line = [] then .ok (st, r.2)
    else (process_statement st line).bind fun st1 => .ok (st1, r.2)

/-- The loop of `get_statements` over the lines of the stream, from given values of the
local variables. -/
def run_lines (fuel : Nat) :
    tokenizer_state → Bool → List Str → Except Fault (tokenizer_state × Bool)
  | st, multi_line_comment, [] => .ok (st, multi_line_comment)
  | st, multi_line_comment, raw :: rest =>
    (process_line fuel st multi_line_comment raw).bind fun r => run_lines fuel r.1 r.2 rest

/-- The function `get_statements(ss)`; the stream is given as the list of lines
that `std::getline` reads from it. The result is the returned `root` pointer with
the store it points into. -/
def get_statements (fuel : Nat) (ss : List Str) : Except Fault (List statement × Option Nat) :=
  (run_lines fuel initial_state false ss).bind fun r => .ok (r.1.heap, r.1.root)

/-! ## Intermediate lifter -/

/-- The double-quote character. -/
def dquote : Char := Char.ofNat 34

/-- The function `prepare_string(str)`. -/
def prepare_string (str : Str) : Except Fault Str :=
  (substr str 0 (rfind str [dquote])).bind fun s =>
    substr s (size_add (find str [dquote]) 1) npos

/-- Modelled from the spec: the intermediate `pin` (declared in
`gate_library_liberty_parser.h`, which is not among the sources). -/
structure pin where
  name : Str
  direction : Str
  function : Str
  three_state : Str
  x_function : Str
  deriving DecidableEq, Repr

/-- Modelled from the spec: the intermediate `cell` (declared in
`gate_library_liberty_parser.h`, which is not among the sources). -/
structure cell where
  name : Str
  pins : List pin
  is_ff : Bool
  is_latch : Bool
  clocked_on : Str
  next_state : Str
  clear : Str
  preset : Str
  clear_preset_var1 : Str
  clear_preset_var2 : Str
  enable : Str
  data_in : Str
  deriving DecidableEq, Repr

/-- Modelled from the spec: the `intermediate_library` (declared in
`gate_library_liberty_parser.h`, which is not among the sources). -/
structure intermediate_library where
  name : Str
  cells : List cell
  deriving DecidableEq, Repr

/-- The construction `pin p(name)`: every other field is unset. -/
def new_pin (name : Str) : pin := ⟨name, [], [], [], []⟩

/-- The construction `cell c(name)`: no pins, both flags false, every other field unset. -/
def new_cell (name : Str) : cell := ⟨name, [], false, false, [], [], [], [], [], [], [], []⟩

/-- The loop `for (const auto& s : x->statements)` with body `body`, threading the
variables the body updates. -/
def for_each {α : Type} (heap : List statement) (body : α → statement → Except Fault α) :
    List Nat → α → Except Fault α
  | [], a => .ok a
  | i :: rest, a =>
    (deref heap (some i)).bind fun s => (body a s).bind fun a1 => for_each heap body rest a1

/-- The depth-3 dispatch inside a `pin` group. -/
def lift_pin_statement (p : pin) (s3 : statement) : Except Fault pin :=
  if s3.name = "direction".toList then .ok { p with direction := s3.value }
  else if s3.name = "function".toList then
    (prepare_string s3.value).bind fun v => .ok { p with function := v }
  else if s3.name = "three_state".toList then
    (prepare_string s3.value).bind fun v => .ok { p with three_state := v }
  else if s3.name = "x_function".toList then
    (prepare_string s3.value).bind fun v => .ok { p with x_function := v }
  else .ok p

/-- The depth-3 dispatch inside an `ff` group. -/
def lift_ff_statement (c : cell) (s3 : statement) : Except Fault cell :=
  if s3.name = "clocked_on".toList then
    (prepare_string s3.value).bind fun v => .ok { c with clocked_on := v }
  else if s3.name = "next_state".toList then
    (prepare_string s3.value).bind fun v => .ok { c with next_state := v }
  else if s3.name = "clear".toList then
    (prepare_string s3.value).bind fun v => .ok { c with clear := v }
  else if s3.name = "preset".toList then
    (prepare_string s3.value).bind fun v => .ok { c with preset := v }
  else if s3.name = "clear_preset_var1".toList then
    (prepare_string s3.value).bind fun v => .ok { c with clear_preset_var1 := v }
  else if s3.name = "clear_preset_var2".toList then
    (prepare_string s3.value).bind fun v => .ok { c with clear_preset_var2 := v }
  else .ok c

/-- The depth-3 dispatch inside a `latch` group. -/
def lift_latch_statement (c : cell) (s3 : statement) : Except Fault cell :=
  if s3.name = "enable".toList then .ok { c with enable := s3.value }
  else if s3.name = "data_in".toList then .ok { c with data_in := s3.value }
  else if s3.name = "clear".toList then .ok { c with clear := s3.value }
  else if s3.name = "preset".toList then .ok { c with preset := s3.value }
  else if s3.name = "clear_preset_var1".toList then .ok { c with clear_preset_var1 := s3.value }
  else if s3.name = "clear_preset_var2".toList then .ok { c with clear_preset_var2 := s3.value }
  else .ok c

/-- The depth-2 dispatch inside a `cell` group. -/
def lift_cell_statement (heap : List statement) (c : cell) (s2 : statement) :
    Except Fault cell :=
  if s2.name = "pin".toList then
    (for_each heap lift_pin_statement s2.statements (new_pin s2.value)).bind fun p =>
      .ok { c with pins := c.pins ++ [p] }
  else if s2.name = "ff".toList then
    for_each heap lift_ff_statement s2.statements { c with is_ff := true }
  else if s2.name = "latch".toList then
    for_each heap lift_latch_statement s2.statements { c with is_latch := true }
  else .ok c

/-- The depth-1 dispatch inside the `library` group. -/
def lift_library_statement (heap : List statement) (inter_lib : intermediate_library)
    (s1 : statement) : Except Fault intermediate_library :=
  if s1.name = "cell".toList then
    (for_each heap (lift_cell_statement heap) s1.statements (new_cell s1.value)).bind fun c =>
      .ok { inter_lib with cells := inter_lib.cells ++ [c] }
  else .ok inter_lib

/-- The function `get_intermediate_library(root)`; `none` is the returned `nullptr`. -/
def get_intermediate_library (heap : List statement) (root : Option Nat) :
    Except Fault (Option intermediate_library) :=
  (deref heap root).bind fun r =>
    -- depth: 0
    if r.name = "library".toList then
      (for_each heap (lift_library_statement heap) r.statements ⟨r.value, []⟩).bind
        fun inter_lib => .ok (some inter_lib)
    else
      .ok none

/-! ## Library lowerer -/

/-- A `std::map<std::string, std::vector<std::string>>`: `none` at a key that is absent. -/
abbrev pin_map := Str → Option (List Str)

/-- The statement `m[key].push_back(value)`. -/
def map_push_back (m : pin_map) (key value : Str) : pin_map :=
  fun k => if k = key then some ((m key).getD [] ++ [value]) else m k

/-- Modelled from the spec: the `gate_library` catalog (declared in
`gate_library.h`, which is not among the sources), whose getters hand out its
sets and maps for modification. -/
structure gate_library where
  name : Str
  gate_types : Finset Str
  input_pin_types : Finset Str
  inout_pin_types : Finset Str
  output_pin_types : Finset Str
  gate_to_input_map : pin_map
  gate_to_inout_map : pin_map
  gate_to_output_map : pin_map
  global_gnd_gate_types : Finset Str
  global_vcc_gate_types : Finset Str

/-- The construction `gate_library(name)`: every set and map is empty. -/
def new_gate_library (name : Str) : gate_library :=
  ⟨name, ∅, ∅, ∅, ∅, fun _ => none, fun _ => none, fun _ => none, ∅, ∅⟩

/-- The body of the loop `for (const auto& pin : cell.pins)` of `get_gate_library`. -/
def lower_pin (cell_name : Str) (lib : gate_library) (p : pin) : gate_library :=
  if p.direction = "input".toList then
    { lib with
      input_pin_types := insert p.name lib.input_pin_types
      gate_to_input_map := map_push_back lib.gate_to_input_map cell_name p.name }
  else if p.direction = "inout".toList then
    { lib with
      inout_pin_types := insert p.name lib.inout_pin_types
      gate_to_inout_map := map_push_back lib.gate_to_inout_map cell_name p.name }
  else if p.direction = "output".toList then
    let lib1 : gate_library :=
      { lib with
        output_pin_types := insert p.name lib.output_pin_types
        gate_to_output_map := map_push_back lib.gate_to_output_map cell_name p.name }
    if p.function = "0".toList then
      { lib1 with global_gnd_gate_types := insert cell_name lib1.global_gnd_gate_types }
    else if p.function = "1".toList then
      { lib1 with global_vcc_gate_types := insert cell_name lib1.global_vcc_gate_types }
    else lib1
  else lib

/-- The body of the loop `for (const auto& cell : inter_lib->cells)` of `get_gate_library`. -/
def lower_cell (lib : gate_library) (c : cell) : gate_library :=
  c.pins.foldl (lower_pin c.name) { lib with gate_types := insert c.name lib.gate_types }

/-- The default synthesis at the end of `get_gate_library`. -/
def synthesize_defaults (lib : gate_library) : gate_library :=
  if lib.global_gnd_gate_types = ∅ then
    { lib with
      global_gnd_gate_types := insert "GLOBAL_GND".toList lib.global_gnd_gate_types
      gate_types := insert "GLOBAL_GND".toList lib.gate_types
      output_pin_types := insert "O".toList lib.output_pin_types
      gate_to_output_map := map_push_back lib.gate_to_output_map "GLOBAL_GND".toList "O".toList }
  else if lib.global_vcc_gate_types = ∅ then
    { lib with
      global_vcc_gate_types := insert "GLOBAL_VCC".toList lib.global_vcc_gate_types
      gate_types := insert "GLOBAL_VCC".toList lib.gate_types
      output_pin_types := insert "O".toList lib.output_pin_types
      gate_to_output_map := map_push_back lib.gate_to_output_map "GLOBAL_VCC".toList "O".toList }
  else lib

/-- The function `get_gate_library(inter_lib)`; reading `inter_lib->name` through a
null pointer is a fault. -/
def get_gate_library (inter_lib : Option intermediate_library) : Except Fault gate_library :=
  match inter_lib with
  | none => .error .null_dereference
  | some il => .ok (synthesize_defaults (il.cells.foldl lower_cell (new_gate_library il.name)))

/-! ## Entry point -/

/-- The function `parse(ss)`; `none` is the returned `nullptr`. -/
def parse (fuel : Nat) (ss : List Str) : Except Fault (Option gate_library) :=
  (get_statements fuel ss).bind fun tree =>
    let root := tree.2
    if root = none then .ok none
    else
      (get_intermediate_library tree.1 root).bind fun inter_lib =>
        if root = none then .ok none
        else
          (get_gate_library inter_lib).bind fun lib => .ok (some lib)


/-! ## Vocabulary of the catalog properties -/

/-- The three pin directions the lowerer dispatches on. -/
def directions : List Str := ["input".toList, "inout".toList, "output".toList]

/-- The per-cell map of a catalog for a direction. -/
def map_of_direction (d : Str) (lib : gate_library) : pin_map :=
  if d = "input".toList then lib.gate_to_input_map
  else if d = "inout".toList then lib.gate_to_inout_map
  else lib.gate_to_output_map

/-- The global pin-name set of a catalog for a direction. -/
def pin_types_of_direction (d : Str) (lib : gate_library) : Finset Str :=
  if d = "input".toList then lib.input_pin_types
  else if d = "inout".toList then lib.inout_pin_types
  else lib.output_pin_types

/-- The names of the pins of a cell whose direction is exactly `d`, in the order of `c.pins`. -/
def pins_of_direction (d : Str) (c : cell) : List Str :=
  (c.pins.filter fun p => p.direction = d).map pin.name

/-- The pins of direction `d` of all cells named `n`, in the order of the cells. -/
def pins_collected (d n : Str) (cells : List cell) : List Str :=
  (cells.filter fun c => c.name = n).flatMap (pins_of_direction d)

/-- Whether a cell has a pin with direction `output` and function `f`. -/
def has_output_function (f : Str) (c : cell) : Bool :=
  c.pins.any fun p => p.direction = "output".toList && p.function = f

/-- The names of the cells of a library that have an output pin with function `f`. -/
def tie_cells (f : Str) (il : intermediate_library) : Finset Str :=
  ((il.cells.filter (has_output_function f)).map cell.name).toFinset

/-- The two universal invariants of the catalog: a key of a per-direction map is a gate
type, and a pin listed under a key is in the global pin set of that direction. -/
def catalog_invariant (lib : gate_library) : Prop :=
  ∀ c : Str,
    (lib.gate_to_input_map c ≠ none → c ∈ lib.gate_types) ∧
    (lib.gate_to_inout_map c ≠ none → c ∈ lib.gate_types) ∧
    (lib.gate_to_output_map c ≠ none → c ∈ lib.gate_types) ∧
    (∀ p ∈ (lib.gate_to_input_map c).getD [], p ∈ lib.input_pin_types) ∧
    (∀ p ∈ (lib.gate_to_inout_map c).getD [], p ∈ lib.inout_pin_types) ∧
    (∀ p ∈ (lib.gate_to_output_map c).getD [], p ∈ lib.output_pin_types)

/-- A library with a cell that is itself named `GLOBAL_GND` and has an output pin. -/
def clash_library : intermediate_library :=
  ⟨"lib".toList,
    [{ new_cell "GLOBAL_GND".toList with
        pins := [{ new_pin "X".toList with direction := "output".toList }] }]⟩

/-- The intermediate library of scenario S1: a buffer with input `A` and output `Y`. -/
def buffer_library : intermediate_library :=
  ⟨"demo".toList,
    [{ new_cell "BUF".toList with
        pins := [{ new_pin "A".toList with direction := "input".toList },
                 { new_pin "Y".toList with
                    direction := "output".toList, function := "A".toList }] }]⟩

/-- Whether a statement carries a name of interest for its kind. -/
def well_named (s : statement) : Bool :=
  if s.is_group then decide (s.name ∈ groups_of_interest)
  else decide (s.name ∈ attributes_of_interest)

/-- The fields of a cell that only an `ff` or `latch` group sets. -/
def sequential_part (c : cell) : Bool × Bool × Str × Str × Str × Str × Str × Str × Str × Str :=
  (c.is_ff, c.is_latch, c.clocked_on, c.next_state, c.clear, c.preset,
    c.clear_preset_var1, c.clear_preset_var2, c.enable, c.data_in)

/-! ## Scenario texts -/

/-- Whether a line has no comment marker. -/
def clean (line : Str) : Bool :=
  find line ['/', '/'] = npos && find line ['/', '*'] = npos

/-- The six-line minimal library text of scenario S1. -/
def s1_text : List Str :=
  ["library (demo) \x7b".toList,
   "  cell (BUF) \x7b".toList,
   "    pin (A) \x7b direction : input ; \x7d".toList,
   "    pin (Y) \x7b direction : output ; function : \"A\" ; \x7d".toList,
   "  \x7d".toList,
   "\x7d".toList]

/-- A stream whose first group of interest is a `cell`, not a `library`. -/
def wrong_root_text : List Str := ["cell (X) \x7b".toList]

/-- A line with a block comment followed by a line comment. -/
def block_then_line_comment : Str := "a /* b */ // c".toList

/-- A library whose cell holds a `timing` block that opens and closes on one line,
followed by a pin. -/
def timing_text : List Str :=
  ["library (demo) \x7b".toList,
   "cell (BUF) \x7b".toList,
   "timing () \x7b \x7d".toList,
   "pin (A) \x7b".toList,
   "direction : input ;".toList,
   "\x7d".toList,
   "\x7d".toList,
   "\x7d".toList]

/-- The text `timing_text` without its `timing` block. -/
def timing_removed_text : List Str :=
  ["library (demo) \x7b".toList,
   "cell (BUF) \x7b".toList,
   "pin (A) \x7b".toList,
   "direction : input ;".toList,
   "\x7d".toList,
   "\x7d".toList,
   "\x7d".toList]

/-- A library with the flip-flop cell of scenario S3. -/
def s3_text : List Str :=
  ["library (demo) \x7b".toList,
   "cell (DFF) \x7b".toList,
   "ff (IQ, IQN) \x7b clocked_on : \"CLK\" ; next_state : \"D\" ; \x7d".toList,
   "\x7d".toList,
   "\x7d".toList]

/-- The library of scenario S3 with the `ff` group laid out one statement per line. -/
def s3_lines_text : List Str :=
  ["library (demo) \x7b".toList,
   "cell (DFF) \x7b".toList,
   "ff (IQ, IQN) \x7b".toList,
   "clocked_on : \"CLK\" ;".toList,
   "next_state : \"D\" ;".toList,
   "\x7d".toList,
   "\x7d".toList,
   "\x7d".toList]

/-- The library of scenario S1 written one statement per line. -/
def s1_lines_text : List Str :=
  ["library (demo) \x7b".toList,
   "cell (BUF) \x7b".toList,
   "pin (A) \x7b".toList,
   "direction : input ;".toList,
   "\x7d".toList,
   "pin (Y) \x7b".toList,
   "direction : output ;".toList,
   "function : \"A\" ;".toList,
   "\x7d".toList,
   "\x7d".toList,
   "\x7d".toList]

/-! ## A library written one statement per line -/

/-- The characters that carry meaning for the tokenizer, the scrubber or the lifter. -/
def special (c : Char) : Bool :=
  decide (c ∈ ['{', '}', '(', ')', ';', ':', '/', dquote, ' ', '\t', '\r', '\n'])

/-- Whether a name is free of special characters. -/
def plain (s : Str) : Bool := s.all fun c => !special c

/-- The line `g (v) {` that opens the group `g` with value `v`. -/
def group_line (g v : Str) : Str := g ++ ' ' :: '(' :: (v ++ [')', ' ', '{'])

/-- The line `a : v ;` that gives the attribute `a` the value `v`. -/
def attribute_line (a v : Str) : Str := a ++ ' ' :: ':' :: ' ' :: (v ++ [' ', ';'])

/-- The line `}` that closes a group. -/
def closing_line : Str := ['}']

/-- A string between double quotes. -/
def quoted (s : Str) : Str := dquote :: (s ++ [dquote])

/-- The lines of a pin: its opening line, its direction, its function when it has
one, and its closing line. -/
def render_pin (p : pin) : List Str :=
  [group_line "pin".toList p.name, attribute_line "direction".toList p.direction] ++
    (if p.function = [] then []
     else [attribute_line "function".toList (quoted p.function)]) ++
    [closing_line]

/-- The lines of a cell: its opening line, its pins, and its closing line. -/
def render_cell (c : cell) : List Str :=
  group_line "cell".toList c.name :: (c.pins.flatMap render_pin ++ [closing_line])

/-- The text of a library, one statement per line. -/
def render_library (il : intermediate_library) : List Str :=
  group_line "library".toList il.name :: (il.cells.flatMap render_cell ++ [closing_line])

/-- Whether a pin carries nothing but a plain name, a plain direction and a plain function. -/
def renderable_pin (p : pin) : Bool :=
  plain p.name && plain p.direction && plain p.function &&
    decide (p.three_state = []) && decide (p.x_function = [])

/-- Whether a cell is neither a flip-flop nor a latch and has no sequential field set. -/
def combinational (c : cell) : Bool :=
  !c.is_ff && !c.is_latch && decide (c.clocked_on = []) && decide (c.next_state = []) &&
    decide (c.clear = []) && decide (c.preset = []) && decide (c.clear_preset_var1 = []) &&
    decide (c.clear_preset_var2 = []) && decide (c.enable = []) && decide (c.data_in = [])

/-- Whether a cell carries nothing but a plain name and renderable pins. -/
def renderable_cell (c : cell) : Bool :=
  plain c.name && combinational c && c.pins.all renderable_pin

/-- Whether `render_library` writes all of an intermediate library, in lines that a
`std::string` can hold. -/
def renderable (il : intermediate_library) : Bool :=
  plain il.name && il.cells.all renderable_cell &&
    (render_library il).all fun l => decide (l.length < npos)

/-- Whether a string can stand as the value of an attribute line: its characters are
plain or double quotes. -/
def value_safe (v : Str) : Bool := v.all fun c => !special c || c == dquote

/-- The change `statements.push_back(child)` to a statement. -/
def with_child (child : Nat) (s : statement) : statement :=
  { s with statements := s.statements ++ [child] }

/-- The statements that the lines of a pin put in the store, for a pin allocated at
index `n` under the group at index `ci`. -/
def pin_nodes (n ci : Nat) (p : pin) : List statement :=
  if p.function = [] then
    [⟨some ci, true, "pin".toList, p.name, [n + 1]⟩,
     ⟨some n, false, "direction".toList, p.direction, []⟩]
  else
    [⟨some ci, true, "pin".toList, p.name, [n + 1, n + 2]⟩,
     ⟨some n, false, "direction".toList, p.direction, []⟩,
     ⟨some n, false, "function".toList, quoted p.function, []⟩]

/-- The store `h1` is the store `h0` after a child was opened under `parent`: the child
sits at the end of `h0`, `parent` has it as its last child, and nothing else below the
end of `h0` has changed. -/
def child_added (h0 h1 : List statement) (parent : Nat) : Prop :=
  h0.length < h1.length ∧
  (∀ j, j < h0.length → j ≠ parent → h1[j]? = h0[j]?) ∧
  (∀ s, h0[parent]? = some s → h1[parent]? = some (with_child h0.length s))

/-- In every store that agrees with `h1` from index `n` on, running the loop body
`body` on the statement at `n` applies `update` to the value under construction. -/
def closed_child {α : Type} (body : List statement → α → statement → Except Fault α)
    (update : α → α) (h1 : List statement) (n : Nat) : Prop :=
  ∀ heap : List statement, (∀ j, n ≤ j → j < h1.length → heap[j]? = h1[j]?) →
    ∀ a, (deref heap (some n)).bind (body heap a) = .ok (update a)

/-- The group at index `pi` is open, and in every store that agrees with `heap` above
`pi` the loop over its children so far, started at `a0`, ends in `a`. -/
def open_group_inv {α : Type} (body : List statement → α → statement → Except Fault α)
    (heap : List statement) (pi : Nat) (a0 a : α) : Prop :=
  ∃ s, heap[pi]? = some s ∧
    ∀ heap1 : List statement, (∀ j, pi < j → j < heap.length → heap1[j]? = heap[j]?) →
      for_each heap1 (body heap1) s.statements a0 = .ok a

/-! ## Vocabulary of the scrubber and tokenizer properties -/

/-- The value `"A"` of a function attribute, with its quotes. -/
def quoted_a : Str := [dquote, 'A', dquote]

/-- A value with a single double quote. -/
def one_quote : Str := ['A', dquote, 'B']

/-- The stream of scrubbed lines: every line as `remove_comments` leaves it, with the
block-comment flag carried from line to line. -/
def scrub_lines (fuel : Nat) : Bool → List Str → Except Fault (List Str)
  | _, [] => .ok []
  | multi_line_comment, line :: rest =>
    (remove_comments fuel line multi_line_comment).bind fun r =>
      (scrub_lines fuel r.2 rest).bind fun scrubbed => .ok (r.1 :: scrubbed)

/-- A stream with a line comment, a block comment on one line, and a block comment over
two lines, around the opening and closing lines of a library. -/
def commented_text : List Str :=
  ["library (demo) \x7b // the library".toList,
   "/* cell (HIDDEN) \x7b */".toList,
   "/* a block comment".toList,
   "   that ends here */ \x7d".toList]

/-- The stream `commented_text` as the scrubber leaves it. -/
def commented_text_scrubbed : List Str :=
  ["library (demo) \x7b ".toList, [], [], " \x7d".toList]

/-- A line inside a block comment that ends on it. -/
def comment_end_line : Str := "hidden */ shown // gone".toList

/-- The line `*/ /*`, and what the loop of `remove_comments` makes of it: a line with
`*/`, then `m` blanks, then `/*`. -/
def star_line (m : Nat) : Str := '*' :: '/' :: (List.replicate m ' ' ++ ['/', '*'])

/-- A stream made only of blank lines and comments. -/
def blank_text : List Str :=
  [[], "   ".toList, "// only a comment".toList, "/* a block".toList,
   "   comment */".toList]

/-- A stream whose only line is a closing bracket. -/
def stray_close_text : List Str := ["\x7d".toList]

/-- A stream with a second group of interest after the root group has been closed. -/
def reopened_text : List Str :=
  ["library (a) \x7b".toList, "\x7d".toList, "cell (b) \x7b".toList]

/-- Whether a line is a scrubbed line: `remove_comments`, outside a block comment, returns
it unchanged and leaves the flag cleared. The lines that `remove_comments` returns are
exactly these. -/
def scrubbed (l : Str) : Bool := decide (remove_comments 1 l false = .ok (l, false))

/-- A stream whose only line is one block comment, opened by `/*/`. -/
def comment_library_text : List Str := ["/*/ library (x) \x7b */".toList]

/-- A stream whose only line is a block comment followed by a line comment. -/
def comment_close_text : List Str := ["/* \x7d */ // c".toList]

/-- The shape of the store of nodes that the tokenizer maintains over the lines. -/
structure tree_inv (st : tokenizer_state) : Prop where
  /-- An attribute node has no children. -/
  leaf : ∀ s ∈ st.heap, s.is_group = false → s.statements = []
  /-- A parent pointer that is not null points to a group node. -/
  up : ∀ (i : Nat) (s : statement) (p : Nat), st.heap[i]? = some s → s.parent = some p →
    ∃ ps : statement, st.heap[p]? = some ps ∧ ps.is_group = true
  /-- Every node other than the root has a parent. -/
  inner : ∀ (i : Nat) (s : statement), st.heap[i]? = some s → some i ≠ st.root → s.parent ≠ none
  /-- The node `current_group`, when not null, is a group node. -/
  cur : ∀ (g : Nat), st.current_group = some g → ∃ gs : statement, st.heap[g]? = some gs ∧ gs.is_group = true
  /-- Before the root is made there is no node at all. -/
  fresh : st.root = none → st.current_group = none ∧ st.heap = []

/-- A library with one cell and one input pin, one statement per line. -/
def pin_text : List Str :=
  ["library (demo) \x7b".toList, "cell (BUF) \x7b".toList, "pin (A) \x7b".toList,
   "direction : input ;".toList, "\x7d".toList, "\x7d".toList, "\x7d".toList]

/-- The store of nodes that the tokenizer builds from `pin_text`. -/
def pin_text_tree : List statement :=
  [⟨none, true, "library".toList, "demo".toList, [1]⟩,
   ⟨some 0, true, "cell".toList, "BUF".toList, [2]⟩,
   ⟨some 1, true, "pin".toList, "A".toList, [3]⟩,
   ⟨some 2, false, "direction".toList, "input".toList, []⟩]

theorem remove_comments_of_clean (fuel : Nat) (line : Str) (h : clean line = true) :
    remove_comments (fuel + 1) line false = .ok (line, false) := by
  simp only [clean, Bool.and_eq_true, decide_eq_true_eq] at h
  unfold remove_comments
  by_cases e : line = []
  · simp [e]
  · simp [e, h.1, h.2]

theorem process_line_of_clean (fuel : Nat) (st : tokenizer_state) (line : Str)
    (h : clean line = true) :
    process_line (fuel + 1) st false line =
      if trim line = [] then .ok (st, false)
      else (process_statement st (trim line)).bind fun st1 => .ok (st1, false) := by
  unfold process_line
  rw [remove_comments_of_clean fuel line h]
  rfl

theorem run_lines_of_clean (fuel : Nat) (lines : List Str) (h : ∀ l ∈ lines, clean l = true)
    (st : tokenizer_state) :
    run_lines (fuel + 1) st false lines = run_lines 1 st false lines := by
  induction lines generalizing st with
  | nil => rfl
  | cons l ls ih =>
    have hl := h l (List.mem_cons_self _ _)
    have hls : ∀ x ∈ ls, clean x = true := fun x hx => h x (List.mem_cons_of_mem _ hx)
    simp only [run_lines]
    rw [process_line_of_clean fuel st l hl, process_line_of_clean 0 st l hl]
    by_cases e : trim l = []
    · simp only [e, if_true]
      exact ih hls st
    · simp only [e, if_false]
      cases process_statement st (trim l) with
      | error f => rfl
      | ok st1 => exact ih hls st1

theorem get_statements_of_clean (fuel : Nat) (lines : List Str)
    (h : ∀ l ∈ lines, clean l = true) :
    get_statements (fuel + 1) lines = get_statements 1 lines := by
  unfold get_statements
  rw [run_lines_of_clean fuel lines h]

theorem parse_of_clean (fuel : Nat) (lines : List Str) (h : ∀ l ∈ lines, clean l = true) :
    parse (fuel + 1) lines = parse 1 lines := by
  unfold parse
  rw [get_statements_of_clean fuel lines h]

/-- Outside a block comment, a line in which `/*` comes before a `//` leaves the scrubber
as it entered: neither branch of the loop body applies to it. -/
theorem remove_comments_block_before_line (fuel : Nat) (line : Str)
    (h1 : find line ['/', '/'] ≠ npos) (h3 : find line ['/', '*'] ≠ npos)
    (h2 : find line ['/', '*'] < find line ['/', '/']) :
    remove_comments (fuel + 1) line false = .ok (line, false) := by
  unfold remove_comments
  have h4 : ¬ find line ['/', '*'] > find line ['/', '/'] := by omega
  by_cases e : line = []
  · simp [e]
  · simp [e, h1, h3, h4]

/-- Whenever the tokenizer returns a root that is not named `library`, `parse` ends in
a read through the null intermediate library. -/
theorem parse_of_wrong_root (fuel : Nat) (ss : List Str) (heap : List statement) (r : Nat)
    (node : statement) (h : get_statements fuel ss = .ok (heap, some r))
    (hr : heap[r]? = some node) (hn : node.name ≠ "library".toList) :
    parse fuel ss = .error .null_dereference := by
  unfold parse
  rw [h]
  simp only [Except.bind]
  rw [if_neg (by simp)]
  unfold get_intermediate_library
  simp only [deref, hr, Except.bind, if_neg hn]
  rw [if_neg (by simp)]
  rfl

/-! ## Every statement in the store carries a name of interest -/

theorem bind_eq_ok {ε α β : Type} (x : Except ε α) (f : α → Except ε β) (b : β) :
    x.bind f = .ok b ↔ ∃ a, x = .ok a ∧ f a = .ok b := by
  cases x with
  | error e => simp [Except.bind]
  | ok a => simp [Except.bind]

theorem ignored_line_heap (st st1 : tokenizer_state) (line : Str)
    (h : ignored_line st line = .ok st1) : st1.heap = st.heap := by
  unfold ignored_line at h
  simp only at h
  split_ifs at h
  · rw [bind_eq_ok] at h
    obtain ⟨cg, _, h⟩ := h
    cases h
    rfl
  · cases h
    rfl

theorem close_brackets_heap (st st1 : tokenizer_state) (line : Str)
    (h : close_brackets st line = .ok st1) : st1.heap = st.heap := by
  unfold close_brackets at h
  rw [bind_eq_ok] at h
  obtain ⟨cg, _, h⟩ := h
  cases h
  rfl

theorem mem_modify {α : Type} (f : α → α) (l : List α) (n : Nat) (x : α)
    (h : x ∈ l.modify f n) : x ∈ l ∨ ∃ a ∈ l, x = f a := by
  induction l generalizing n with
  | nil => simp at h
  | cons a l ih =>
    cases n with
    | zero =>
      rw [List.modify_zero_cons, List.mem_cons] at h
      rcases h with h | h
      · exact Or.inr ⟨a, List.mem_cons_self _ _, h⟩
      · exact Or.inl (List.mem_cons_of_mem _ h)
    | succ n =>
      rw [List.modify_succ_cons, List.mem_cons] at h
      rcases h with h | h
      · exact Or.inl (h ▸ List.mem_cons_self _ _)
      · rcases ih n h with h2 | ⟨b, hb, h2⟩
        · exact Or.inl (List.mem_cons_of_mem _ h2)
        · exact Or.inr ⟨b, List.mem_cons_of_mem _ hb, h2⟩

theorem push_back_child_well_named (heap heap1 : List statement) (cg : Option Nat) (c : Nat)
    (h : push_back_child heap cg c = .ok heap1) (hw : ∀ s ∈ heap, well_named s = true) :
    ∀ s ∈ heap1, well_named s = true := by
  unfold push_back_child at h
  rw [bind_eq_ok] at h
  obtain ⟨_, _, h⟩ := h
  cases h
  intro s hs
  rcases mem_modify _ _ _ _ hs with h1 | ⟨a, ha, h1⟩
  · exact hw s h1
  · rw [h1]
    exact hw a ha

theorem group_statement_well_named (st st1 : tokenizer_state) (line : Str)
    (h : group_statement st line = .ok st1) (hw : ∀ s ∈ st.heap, well_named s = true) :
    ∀ s ∈ st1.heap, well_named s = true := by
  unfold group_statement at h
  simp only [bind_eq_ok] at h
  obtain ⟨s1, _, s2, _, s3, _, h⟩ := h
  split_ifs at h with hg hr
  · rw [bind_eq_ok] at h
    obtain ⟨heap1, hp, h⟩ := h
    cases h
    intro s hs
    rcases List.mem_append.1 hs with h1 | h1
    · exact push_back_child_well_named _ _ _ _ hp hw s h1
    · rw [List.mem_singleton.1 h1]
      simp [well_named, hg]
  · cases h
    intro s hs
    rcases List.mem_append.1 hs with h1 | h1
    · exact hw s h1
    · rw [List.mem_singleton.1 h1]
      simp [well_named, hg]
  · cases h
    exact hw

theorem attribute_statement_well_named (st st1 : tokenizer_state) (line : Str)
    (h : attribute_statement st line = .ok st1) (hw : ∀ s ∈ st.heap, well_named s = true) :
    ∀ s ∈ st1.heap, well_named s = true := by
  unfold attribute_statement at h
  simp only at h
  by_cases hc : find line [':'] ≠ npos
  · rw [if_pos hc] at h
    simp only [bind_eq_ok] at h
    obtain ⟨s1, _, s2, _, s3, _, h⟩ := h
    by_cases ha : trim s1 ∈ attributes_of_interest
    · rw [if_pos ha] at h
      by_cases hn : st.current_group ≠ none
      · rw [if_pos hn, bind_eq_ok] at h
        obtain ⟨heap1, hp, h⟩ := h
        cases h
        intro s hs
        rcases List.mem_append.1 hs with h1 | h1
        · exact push_back_child_well_named _ _ _ _ hp hw s h1
        · rw [List.mem_singleton.1 h1]
          simp [well_named, ha]
      · rw [if_neg hn] at h
        cases h; exact hw
    · rw [if_neg ha] at h
      cases h; exact hw
  · rw [if_neg hc] at h
    cases h; exact hw

theorem process_statement_well_named (st st1 : tokenizer_state) (line : Str)
    (h : process_statement st line = .ok st1) (hw : ∀ s ∈ st.heap, well_named s = true) :
    ∀ s ∈ st1.heap, well_named s = true := by
  unfold process_statement at h
  simp only at h
  split_ifs at h
  · rw [ignored_line_heap _ _ _ h]; exact hw
  · rw [bind_eq_ok] at h
    obtain ⟨st2, h2, h⟩ := h
    rw [close_brackets_heap _ _ _ h]
    exact group_statement_well_named _ _ _ h2 hw
  · rw [bind_eq_ok] at h
    obtain ⟨st2, h2, h⟩ := h
    rw [close_brackets_heap _ _ _ h]
    exact attribute_statement_well_named _ _ _ h2 hw
  · rw [close_brackets_heap _ _ _ h]; exact hw

theorem process_line_well_named (fuel : Nat) (st : tokenizer_state) (mlc : Bool) (raw : Str)
    (r : tokenizer_state × Bool) (h : process_line fuel st mlc raw = .ok r)
    (hw : ∀ s ∈ st.heap, well_named s = true) : ∀ s ∈ r.1.heap, well_named s = true := by
  unfold process_line at h
  rw [bind_eq_ok] at h
  obtain ⟨x, _, h⟩ := h
  simp only at h
  split_ifs at h
  · cases h; exact hw
  · rw [bind_eq_ok] at h
    obtain ⟨st2, h2, h⟩ := h
    cases h
    exact process_statement_well_named _ _ _ h2 hw

theorem run_lines_well_named (fuel : Nat) (lines : List Str) (st : tokenizer_state)
    (mlc : Bool) (r : tokenizer_state × Bool) (h : run_lines fuel st mlc lines = .ok r)
    (hw : ∀ s ∈ st.heap, well_named s = true) : ∀ s ∈ r.1.heap, well_named s = true := by
  induction lines generalizing st mlc with
  | nil =>
    simp only [run_lines] at h
    cases h
    exact hw
  | cons l ls ih =>
    simp only [run_lines] at h
    rw [bind_eq_ok] at h
    obtain ⟨x, h1, h⟩ := h
    exact ih x.1 x.2 h (process_line_well_named _ _ _ _ _ h1 hw)

theorem get_statements_well_named (fuel : Nat) (ss : List Str) (heap : List statement)
    (root : Option Nat) (h : get_statements fuel ss = .ok (heap, root)) :
    ∀ s ∈ heap, well_named s = true := by
  unfold get_statements at h
  rw [bind_eq_ok] at h
  obtain ⟨r, h1, h⟩ := h
  cases h
  exact run_lines_well_named _ _ _ _ _ h1 (by simp [initial_state])

/-! ## The lifter on a tree of statements of interest -/

theorem deref_mem (heap : List statement) (p : Option Nat) (s : statement)
    (h : deref heap p = .ok s) : s ∈ heap := by
  cases p with
  | none => simp [deref] at h
  | some i =>
    simp only [deref] at h
    split at h
    · rename_i x hx
      cases h
      exact List.getElem?_mem hx
    · cases h

theorem for_each_preserves {α : Type} (heap : List statement)
    (body : α → statement → Except Fault α) (P : α → Prop)
    (hb : ∀ a s a1, s ∈ heap → P a → body a s = .ok a1 → P a1) :
    ∀ (kids : List Nat) (a a1 : α), P a → for_each heap body kids a = .ok a1 → P a1 := by
  intro kids
  induction kids with
  | nil =>
    intro a a1 ha h
    simp only [for_each] at h
    cases h
    exact ha
  | cons i rest ih =>
    intro a a1 ha h
    simp only [for_each, bind_eq_ok] at h
    obtain ⟨s, hs, a2, h2, h3⟩ := h
    exact ih a2 a1 (hb a s a2 (deref_mem _ _ _ hs) ha h2) h3

theorem well_named_ne_ff (s : statement) (h : well_named s = true) :
    s.name ≠ "ff".toList ∧ s.name ≠ "latch".toList := by
  unfold well_named at h
  constructor
  · intro e
    rw [e] at h
    revert h
    cases s.is_group <;> decide
  · intro e
    rw [e] at h
    revert h
    cases s.is_group <;> decide

theorem lift_cell_statement_sequential (heap : List statement) (c c1 : cell) (s2 : statement)
    (hs : well_named s2 = true) (h : lift_cell_statement heap c s2 = .ok c1) :
    sequential_part c1 = sequential_part c := by
  obtain ⟨h1, h2⟩ := well_named_ne_ff s2 hs
  unfold lift_cell_statement at h
  by_cases hp : s2.name = "pin".toList
  · rw [if_pos hp, bind_eq_ok] at h
    obtain ⟨p, _, h⟩ := h
    cases h
    rfl
  · rw [if_neg hp, if_neg h1, if_neg h2] at h
    cases h
    rfl

theorem lift_library_statement_sequential (heap : List statement)
    (hw : ∀ s ∈ heap, well_named s = true) (lib lib1 : intermediate_library) (s1 : statement)
    (hl : ∀ c ∈ lib.cells, sequential_part c = sequential_part (new_cell []))
    (h : lift_library_statement heap lib s1 = .ok lib1) :
    ∀ c ∈ lib1.cells, sequential_part c = sequential_part (new_cell []) := by
  unfold lift_library_statement at h
  by_cases hc : s1.name = "cell".toList
  · rw [if_pos hc, bind_eq_ok] at h
    obtain ⟨c, hfe, h⟩ := h
    cases h
    intro x hx
    rcases List.mem_append.1 hx with h1 | h1
    · exact hl x h1
    · rw [List.mem_singleton.1 h1]
      exact for_each_preserves heap (lift_cell_statement heap)
        (fun c => sequential_part c = sequential_part (new_cell []))
        (fun a s a1 hs ha hb =>
          (lift_cell_statement_sequential heap a a1 s (hw s hs) hb).trans ha)
        s1.statements (new_cell s1.value) c rfl hfe
  · rw [if_neg hc] at h
    cases h
    exact hl

theorem get_intermediate_library_sequential (heap : List statement)
    (hw : ∀ s ∈ heap, well_named s = true) (root : Option Nat) (il : intermediate_library)
    (h : get_intermediate_library heap root = .ok (some il)) :
    ∀ c ∈ il.cells, sequential_part c = sequential_part (new_cell []) := by
  unfold get_intermediate_library at h
  rw [bind_eq_ok] at h
  obtain ⟨r, _, h⟩ := h
  by_cases hn : r.name = "library".toList
  · rw [if_pos hn, bind_eq_ok] at h
    obtain ⟨lib, hfe, h⟩ := h
    cases h
    exact for_each_preserves heap (lift_library_statement heap)
      (fun lib => ∀ c ∈ lib.cells, sequential_part c = sequential_part (new_cell []))
      (fun a s a1 _ ha hb => lift_library_statement_sequential heap hw a a1 s ha hb)
      _ _ _ (by simp) hfe
  · rw [if_neg hn] at h
    cases h

/-! ## Searching and trimming -/

theorem first_occurrence_single_of_not_mem (c : Char) (xs : Str) (h : c ∉ xs) :
    first_occurrence [c] xs = none := by
  induction xs with
  | nil => simp [first_occurrence]
  | cons x xs ih =>
    rw [List.mem_cons, not_or] at h
    simp [first_occurrence, List.isPrefixOf, h.1, ih h.2]

theorem first_occurrence_single_append (c : Char) (xs ys : Str) (h : c ∉ xs) :
    first_occurrence [c] (xs ++ c :: ys) = some xs.length := by
  induction xs with
  | nil => simp [first_occurrence, List.isPrefixOf]
  | cons x xs ih =>
    rw [List.mem_cons, not_or] at h
    simp [first_occurrence, List.isPrefixOf, h.1, ih h.2]

theorem first_occurrence_pair_of_not_mem (a b : Char) (xs : Str) (h : a ∉ xs) :
    first_occurrence [a, b] xs = none := by
  induction xs with
  | nil => simp [first_occurrence]
  | cons x xs ih =>
    rw [List.mem_cons, not_or] at h
    simp [first_occurrence, List.isPrefixOf, h.1, ih h.2]

theorem find_single_of_not_mem (c : Char) (xs : Str) (h : c ∉ xs) : find xs [c] = npos := by
  simp [find, first_occurrence_single_of_not_mem c xs h]

theorem find_single_append (c : Char) (xs ys : Str) (h : c ∉ xs) :
    find (xs ++ c :: ys) [c] = xs.length := by
  simp [find, first_occurrence_single_append c xs ys h]

theorem find_pair_of_not_mem (a b : Char) (xs : Str) (h : a ∉ xs) :
    find xs [a, b] = npos := by
  simp [find, first_occurrence_pair_of_not_mem a b xs h]

theorem clean_of_no_slash (line : Str) (h : '/' ∉ line) : clean line = true := by
  simp [clean, find_pair_of_not_mem '/' _ line h]

theorem plain_not_mem (s : Str) (h : plain s = true) (c : Char) (hc : special c = true) :
    c ∉ s := by
  intro hm
  simp only [plain, List.all_eq_true] at h
  have := h c hm
  simp [hc] at this

theorem substr_zero (s : Str) (n : Nat) : substr s 0 n = .ok (s.take n) := by
  simp [substr]

theorem substr_npos (s : Str) (pos : Nat) (hp : pos ≤ s.length) (hl : s.length ≤ npos) :
    substr s pos npos = .ok (s.drop pos) := by
  unfold substr
  rw [if_neg (by omega)]
  congr 1
  apply List.take_of_length_le
  rw [List.length_drop]
  omega

theorem trim_of_no_space (s : Str) (h : ∀ c ∈ s, is_space c = false) : trim s = s := by
  unfold trim
  have h1 : s.dropWhile is_space = s := by
    cases s with
    | nil => rfl
    | cons x xs => simp [List.dropWhile, h x (List.mem_cons_self _ _)]
  rw [h1, List.rdropWhile_eq_self_iff]
  intro hl
  simp [h _ (List.getLast_mem hl)]

theorem trim_append_space (s : Str) (h : ∀ c ∈ s, is_space c = false) :
    trim (s ++ [' ']) = s := by
  unfold trim
  have h1 : (s ++ [' ']).dropWhile is_space = s.dropWhile is_space ++ [' '] ∨ s = [] := by
    cases s with
    | nil => exact Or.inr rfl
    | cons x xs => left; simp [List.dropWhile, h x (List.mem_cons_self _ _)]
  rcases h1 with h1 | h1
  · rw [h1]
    have h2 : s.dropWhile is_space = s := by
      cases s with
      | nil => rfl
      | cons x xs => simp [List.dropWhile, h x (List.mem_cons_self _ _)]
    rw [h2, List.rdropWhile_concat_pos _ _ _ (by decide), List.rdropWhile_eq_self_iff]
    intro hl
    simp [h _ (List.getLast_mem hl)]
  · subst h1
    decide

theorem trim_space_cons (s : Str) : trim (' ' :: s) = trim s := by
  unfold trim
  rw [List.dropWhile_cons_of_pos (by decide)]

/-! ## The three kinds of line -/

theorem trim_eq_self (s : Str) (h1 : ∀ hl : 0 < s.length, ¬ is_space (s.get ⟨0, hl⟩) = true)
    (h2 : ∀ hl : s ≠ [], ¬ is_space (s.getLast hl) = true) : trim s = s := by
  unfold trim
  rw [List.dropWhile_eq_self_iff.2 h1, List.rdropWhile_eq_self_iff]
  exact h2

theorem special_of_space (c : Char) (h : is_space c = true) : special c = true := by
  simp only [is_space, Bool.or_eq_true, decide_eq_true_eq] at h
  rcases h with ((h | h) | h) | h <;> subst h <;> decide

theorem plain_no_space (s : Str) (h : plain s = true) : ∀ c ∈ s, is_space c = false := by
  intro c hc
  by_contra hs
  rw [Bool.not_eq_false] at hs
  exact plain_not_mem s h c (special_of_space c hs) hc

/-! ### The opening line of a group -/

theorem group_line_no_slash (g v : Str) (hg : plain g = true) (hv : plain v = true) :
    '/' ∉ group_line g v := by
  have h1 := plain_not_mem g hg '/' (by decide)
  have h2 := plain_not_mem v hv '/' (by decide)
  simp [group_line, h1, h2]

theorem group_line_count (g v : Str) (hg : plain g = true) (hv : plain v = true) :
    (group_line g v).count '}' = 0 := by
  have h1 := plain_not_mem g hg '}' (by decide)
  have h2 := plain_not_mem v hv '}' (by decide)
  rw [List.count_eq_zero]
  simp [group_line, h1, h2]

theorem group_line_length (g v : Str) :
    (group_line g v).length = g.length + v.length + 5 := by
  simp [group_line]
  omega

theorem group_line_find_curly (g v : Str) (hg : plain g = true) (hv : plain v = true) :
    find (group_line g v) ['{'] = g.length + v.length + 4 := by
  have h1 := plain_not_mem g hg '{' (by decide)
  have h2 := plain_not_mem v hv '{' (by decide)
  have e : group_line g v = (g ++ ' ' :: '(' :: (v ++ [')', ' '])) ++ '{' :: [] := by
    simp [group_line]
  rw [e, find_single_append _ _ _ (by simp [h1, h2])]
  simp
  omega

theorem group_line_find_open (g v : Str) (hg : plain g = true) :
    find (group_line g v) ['('] = g.length + 1 := by
  have h1 := plain_not_mem g hg '(' (by decide)
  have e : group_line g v = (g ++ [' ']) ++ '(' :: (v ++ [')', ' ', '{']) := by
    simp [group_line]
  rw [e, find_single_append _ _ _ (by simp [h1])]
  simp

theorem group_line_find_close (g v : Str) (hg : plain g = true) (hv : plain v = true) :
    find (group_line g v) [')'] = g.length + v.length + 2 := by
  have h1 := plain_not_mem g hg ')' (by decide)
  have h2 := plain_not_mem v hv ')' (by decide)
  have e : group_line g v = (g ++ ' ' :: '(' :: v) ++ ')' :: [' ', '{'] := by
    simp [group_line]
  rw [e, find_single_append _ _ _ (by simp [h1, h2])]
  simp
  omega

theorem group_line_trim (g v : Str) (hg : plain g = true) (hn : g ≠ []) :
    trim (group_line g v) = group_line g v := by
  apply trim_eq_self
  · intro hl
    cases g with
    | nil => exact absurd rfl hn
    | cons x xs =>
      have := plain_no_space _ hg x (List.mem_cons_self _ _)
      simp [group_line, this]
  · intro hl
    have e : (group_line g v).getLast hl = '{' := by
      simp [group_line, List.getLast_append]
    rw [e]
    decide

theorem size_add_small (a b : Nat) (h : a + b < npos) : size_add a b = a + b := by
  unfold size_add
  unfold npos at h
  omega

theorem group_statement_group_line (st : tokenizer_state) (g v : Str) (hg : plain g = true)
    (hv : plain v = true) (hl : (group_line g v).length < npos)
    (hi : g ∈ groups_of_interest) :
    group_statement st (group_line g v) =
      if st.root ≠ none then
        (push_back_child st.heap st.current_group st.heap.length).bind fun heap =>
          .ok { st with
                heap := heap ++ [⟨st.current_group, true, g, v, []⟩]
                current_group := some st.heap.length }
      else
        .ok { st with
              heap := st.heap ++ [⟨st.current_group, true, g, v, []⟩]
              root := some st.heap.length
              current_group := some st.heap.length } := by
  rw [group_line_length] at hl
  have e1 : (group_line g v).take (g.length + 1) = g ++ [' '] := by
    have e : group_line g v = (g ++ [' ']) ++ '(' :: (v ++ [')', ' ', '{']) := by
      simp [group_line]
    rw [e]
    exact List.take_left' (by simp)
  have e2 : (group_line g v).take (g.length + v.length + 2) = g ++ ' ' :: '(' :: v := by
    have e : group_line g v = (g ++ ' ' :: '(' :: v) ++ ')' :: [' ', '{'] := by
      simp [group_line]
    rw [e]
    exact List.take_left' (by simp; omega)
  have e3 : substr (g ++ ' ' :: '(' :: v) (size_add (g.length + 1) 1) npos = .ok v := by
    rw [size_add_small _ _ (by omega), substr_npos _ _ (by simp; omega) (by simp; omega)]
    have e : g ++ ' ' :: '(' :: v = (g ++ [' ', '(']) ++ v := by simp
    rw [e]
    congr 1
    exact List.drop_left' (by simp)
  have t1 : trim (g ++ [' ']) = g := trim_append_space g (plain_no_space g hg)
  have t2 : trim v = v := trim_of_no_space v (plain_no_space v hv)
  unfold group_statement
  simp only [group_line_find_open g v hg, group_line_find_close g v hg hv, substr_zero,
    e1, e2, Except.bind, e3, t1, t2, if_pos hi]

theorem close_brackets_zero (st : tokenizer_state) (line : Str) (h : line.count '}' = 0) :
    close_brackets st line = .ok st := by
  unfold close_brackets
  rw [h]
  rfl

theorem process_line_group_line (fuel : Nat) (st : tokenizer_state) (g v : Str)
    (hg : plain g = true) (hv : plain v = true) (hl : (group_line g v).length < npos)
    (hi : g ∈ groups_of_interest) (hd : st.ignore_depth = 0) :
    process_line (fuel + 1) st false (group_line g v) =
      (group_statement st (group_line g v)).bind fun st1 => .ok (st1, false) := by
  have hn : g ≠ [] := by
    intro e
    rw [e] at hi
    revert hi
    decide
  have hne : group_line g v ≠ [] := by simp [group_line]
  rw [process_line_of_clean fuel st _ (clean_of_no_slash _ (group_line_no_slash g v hg hv)),
    group_line_trim g v hg hn, if_neg hne]
  unfold process_statement
  have hc : find (group_line g v) ['{'] ≠ npos := by
    rw [group_line_find_curly g v hg hv]
    rw [group_line_length] at hl
    omega
  simp only [hd, gt_iff_lt, lt_self_iff_false, if_false, hc, ne_eq, not_false_eq_true, if_true]
  cases hgs : group_statement st (group_line g v) with
  | error f => rfl
  | ok st1 =>
    simp only [Except.bind]
    rw [close_brackets_zero st1 _ (group_line_count g v hg hv)]

/-! ### The line of an attribute -/

theorem value_safe_not_mem (v : Str) (h : value_safe v = true) (c : Char)
    (hc : special c = true) (hq : c ≠ dquote) : c ∉ v := by
  intro hm
  simp only [value_safe, List.all_eq_true] at h
  have := h c hm
  simp [hc, hq] at this

theorem value_safe_of_plain (v : Str) (h : plain v = true) : value_safe v = true := by
  simp only [plain, List.all_eq_true] at h
  simp only [value_safe, List.all_eq_true]
  intro c hc
  simp [h c hc]

theorem value_safe_quoted (v : Str) (h : plain v = true) : value_safe (quoted v) = true := by
  simp only [plain, List.all_eq_true] at h
  simp only [value_safe, List.all_eq_true, quoted]
  intro c hc
  simp only [List.mem_cons, List.mem_append, List.mem_singleton, List.not_mem_nil,
    or_false] at hc
  rcases hc with hc | hc | hc
  · simp [hc]
  · simp [h c hc]
  · simp [hc]

theorem value_safe_no_space (v : Str) (h : value_safe v = true) :
    ∀ c ∈ v, is_space c = false := by
  intro c hc
  by_contra hs
  rw [Bool.not_eq_false] at hs
  have hq : c ≠ dquote := by
    intro e
    rw [e] at hs
    revert hs
    decide
  exact value_safe_not_mem v h c (special_of_space c hs) hq hc

theorem attribute_line_length (a v : Str) :
    (attribute_line a v).length = a.length + v.length + 5 := by
  simp [attribute_line]
  omega

theorem attribute_line_not_mem (a v : Str) (ha : plain a = true) (hv : value_safe v = true)
    (c : Char) (hc : special c = true) (hq : c ≠ dquote) (h1 : c ≠ ' ') (h2 : c ≠ ':')
    (h3 : c ≠ ';') : c ∉ attribute_line a v := by
  have m1 := plain_not_mem a ha c hc
  have m2 := value_safe_not_mem v hv c hc hq
  simp [attribute_line, m1, m2, h1, h2, h3]

theorem attribute_line_count (a v : Str) (ha : plain a = true) (hv : value_safe v = true) :
    (attribute_line a v).count '}' = 0 := by
  rw [List.count_eq_zero]
  exact attribute_line_not_mem a v ha hv '}' (by decide) (by decide) (by decide) (by decide)
    (by decide)

theorem attribute_line_find_semicolon (a v : Str) (ha : plain a = true)
    (hv : value_safe v = true) :
    find (attribute_line a v) [';'] = a.length + v.length + 4 := by
  have h1 := plain_not_mem a ha ';' (by decide)
  have h2 := value_safe_not_mem v hv ';' (by decide) (by decide)
  have e : attribute_line a v = (a ++ ' ' :: ':' :: ' ' :: (v ++ [' '])) ++ ';' :: [] := by
    simp [attribute_line]
  rw [e, find_single_append _ _ _ (by simp [h1, h2])]
  simp
  omega

theorem attribute_line_find_colon (a v : Str) (ha : plain a = true) :
    find (attribute_line a v) [':'] = a.length + 1 := by
  have h1 := plain_not_mem a ha ':' (by decide)
  have e : attribute_line a v = (a ++ [' ']) ++ ':' :: ' ' :: (v ++ [' ', ';']) := by
    simp [attribute_line]
  rw [e, find_single_append _ _ _ (by simp [h1])]
  simp

theorem attribute_line_trim (a v : Str) (ha : plain a = true) (hn : a ≠ []) :
    trim (attribute_line a v) = attribute_line a v := by
  apply trim_eq_self
  · intro hl
    cases a with
    | nil => exact absurd rfl hn
    | cons x xs =>
      have := plain_no_space _ ha x (List.mem_cons_self _ _)
      simp [attribute_line, this]
  · intro hl
    have e : (attribute_line a v).getLast hl = ';' := by
      simp [attribute_line, List.getLast_append]
    rw [e]
    decide

theorem attribute_statement_attribute_line (st : tokenizer_state) (a v : Str)
    (ha : plain a = true) (hv : value_safe v = true)
    (hl : (attribute_line a v).length < npos) (hi : a ∈ attributes_of_interest) :
    attribute_statement st (attribute_line a v) =
      if st.current_group ≠ none then
        (push_back_child st.heap st.current_group st.heap.length).bind fun heap =>
          .ok { st with heap := heap ++ [⟨st.current_group, false, a, v, []⟩] }
      else .ok st := by
  rw [attribute_line_length] at hl
  have hnp : npos = 18446744073709551615 := rfl
  have e1 : (attribute_line a v).take (a.length + 1) = a ++ [' '] := by
    have e : attribute_line a v = (a ++ [' ']) ++ ':' :: ' ' :: (v ++ [' ', ';']) := by
      simp [attribute_line]
    rw [e]
    exact List.take_left' (by simp)
  have e2 : (attribute_line a v).take (a.length + v.length + 4) =
      a ++ ' ' :: ':' :: ' ' :: (v ++ [' ']) := by
    have e : attribute_line a v = (a ++ ' ' :: ':' :: ' ' :: (v ++ [' '])) ++ ';' :: [] := by
      simp [attribute_line]
    rw [e]
    exact List.take_left' (by simp; omega)
  have e3 : substr (a ++ ' ' :: ':' :: ' ' :: (v ++ [' '])) (size_add (a.length + 1) 1) npos =
      .ok (' ' :: (v ++ [' '])) := by
    rw [size_add_small _ _ (by omega), substr_npos _ _ (by simp; omega) (by simp; omega)]
    have e : a ++ ' ' :: ':' :: ' ' :: (v ++ [' ']) = (a ++ [' ', ':']) ++ ' ' :: (v ++ [' ']) := by
      simp
    rw [e]
    congr 1
    exact List.drop_left' (by simp)
  have t1 : trim (a ++ [' ']) = a := trim_append_space a (plain_no_space a ha)
  have t2 : trim (' ' :: (v ++ [' '])) = v := by
    rw [trim_space_cons, trim_append_space v (value_safe_no_space v hv)]
  have hc : find (attribute_line a v) [':'] ≠ npos := by
    rw [attribute_line_find_colon a v ha]
    omega
  unfold attribute_statement
  simp only [if_pos hc]
  simp only [attribute_line_find_colon a v ha, attribute_line_find_semicolon a v ha hv,
    substr_zero, e1, e2, Except.bind, e3, t1, t2, if_pos hi]

theorem process_line_attribute_line (fuel : Nat) (st : tokenizer_state) (a v : Str)
    (ha : plain a = true) (hv : value_safe v = true)
    (hl : (attribute_line a v).length < npos) (hi : a ∈ attributes_of_interest)
    (hd : st.ignore_depth = 0) :
    process_line (fuel + 1) st false (attribute_line a v) =
      (attribute_statement st (attribute_line a v)).bind fun st1 => .ok (st1, false) := by
  have hn : a ≠ [] := by
    intro e
    rw [e] at hi
    revert hi
    decide
  have hne : attribute_line a v ≠ [] := by simp [attribute_line]
  have hslash : '/' ∉ attribute_line a v :=
    attribute_line_not_mem a v ha hv '/' (by decide) (by decide) (by decide) (by decide)
      (by decide)
  have hcurly : '{' ∉ attribute_line a v :=
    attribute_line_not_mem a v ha hv '{' (by decide) (by decide) (by decide) (by decide)
      (by decide)
  rw [process_line_of_clean fuel st _ (clean_of_no_slash _ hslash),
    attribute_line_trim a v ha hn, if_neg hne]
  unfold process_statement
  have hc : find (attribute_line a v) ['{'] = npos := find_single_of_not_mem _ _ hcurly
  have hs : find (attribute_line a v) [';'] ≠ npos := by
    rw [attribute_line_find_semicolon a v ha hv]
    rw [attribute_line_length] at hl
    omega
  simp only [hd, gt_iff_lt, lt_self_iff_false, if_false, hc, ne_eq, not_true_eq_false, hs,
    not_false_eq_true, if_true]
  cases hgs : attribute_statement st (attribute_line a v) with
  | error f => rfl
  | ok st1 =>
    simp only [Except.bind]
    rw [close_brackets_zero st1 _ (attribute_line_count a v ha hv)]

/-! ### The closing line -/

theorem process_line_closing_line (fuel : Nat) (st : tokenizer_state)
    (hd : st.ignore_depth = 0) :
    process_line (fuel + 1) st false closing_line =
      (deref st.heap st.current_group).bind fun s =>
        .ok ({ st with current_group := s.parent }, false) := by
  rw [process_line_of_clean fuel st _ (by decide)]
  have e1 : trim closing_line = closing_line := by decide
  have e2 : closing_line ≠ [] := by decide
  have e3 : find closing_line ['{'] = npos := by decide
  have e4 : find closing_line [';'] = npos := by decide
  have e5 : closing_line.count '}' = 1 := by decide
  rw [e1, if_neg e2]
  unfold process_statement
  simp only [hd, gt_iff_lt, lt_self_iff_false, if_false, e3, e4, ne_eq, not_true_eq_false]
  unfold close_brackets
  rw [e5]
  simp only [move_back]
  cases deref st.heap st.current_group with
  | error f => rfl
  | ok s => simp [Except.bind, hd]

/-! ## One line from a state inside a group -/

theorem deref_some (heap : List statement) (i : Nat) (s : statement) (h : heap[i]? = some s) :
    deref heap (some i) = .ok s := by
  simp [deref, h]

theorem push_back_child_some (heap : List statement) (g c : Nat) (s : statement)
    (h : heap[g]? = some s) :
    push_back_child heap (some g) c = .ok (heap.modify (with_child c) g) := by
  unfold push_back_child
  rw [deref_some heap g s h]
  rfl

theorem group_line_step (fuel : Nat) (st : tokenizer_state) (g v : Str) (hg : plain g = true)
    (hv : plain v = true) (hl : (group_line g v).length < npos)
    (hi : g ∈ groups_of_interest) (hd : st.ignore_depth = 0) (p r : Nat) (s : statement)
    (hcur : st.current_group = some p) (hp : st.heap[p]? = some s) (hroot : st.root = some r) :
    process_line (fuel + 1) st false (group_line g v) =
      .ok ({ heap := st.heap.modify (with_child st.heap.length) p ++ [⟨some p, true, g, v, []⟩]
             current_group := some st.heap.length
             root := some r
             ignore_depth := 0 }, false) := by
  rw [process_line_group_line fuel st g v hg hv hl hi hd,
    group_statement_group_line st g v hg hv hl hi, if_pos (by simp [hroot]), hcur,
    push_back_child_some _ _ _ s hp]
  simp [Except.bind, hroot, hd]

theorem attribute_line_step (fuel : Nat) (st : tokenizer_state) (a v : Str)
    (ha : plain a = true) (hv : value_safe v = true)
    (hl : (attribute_line a v).length < npos) (hi : a ∈ attributes_of_interest)
    (hd : st.ignore_depth = 0) (p : Nat) (s : statement)
    (hcur : st.current_group = some p) (hp : st.heap[p]? = some s) :
    process_line (fuel + 1) st false (attribute_line a v) =
      .ok ({ heap := st.heap.modify (with_child st.heap.length) p ++ [⟨some p, false, a, v, []⟩]
             current_group := some p
             root := st.root
             ignore_depth := 0 }, false) := by
  rw [process_line_attribute_line fuel st a v ha hv hl hi hd,
    attribute_statement_attribute_line st a v ha hv hl hi, if_pos (by simp [hcur]), hcur,
    push_back_child_some _ _ _ s hp]
  simp [Except.bind, hd]

theorem closing_line_step (fuel : Nat) (st : tokenizer_state) (hd : st.ignore_depth = 0)
    (p : Nat) (s : statement) (hcur : st.current_group = some p)
    (hp : st.heap[p]? = some s) :
    process_line (fuel + 1) st false closing_line =
      .ok ({ heap := st.heap, current_group := s.parent, root := st.root,
             ignore_depth := 0 }, false) := by
  rw [process_line_closing_line fuel st hd, hcur, deref_some _ _ s hp]
  simp [Except.bind, hd]

theorem run_lines_cons_ok (fuel : Nat) (st st1 : tokenizer_state) (mlc mlc1 : Bool)
    (l : Str) (rest : List Str) (h : process_line fuel st mlc l = .ok (st1, mlc1)) :
    run_lines fuel st mlc (l :: rest) = run_lines fuel st1 mlc1 rest := by
  simp [run_lines, h, Except.bind]

/-! ### The store under `push_back` and allocation -/

theorem modify_length_append {α : Type} (f : α → α) (l : List α) (x : α) (r : List α) :
    (l ++ x :: r).modify f l.length = l ++ f x :: r := by
  induction l with
  | nil => simp
  | cons a l ih => simp [ih]

theorem getElem?_modify_append_of_ne {α : Type} (f : α → α) (l r : List α) (p j : Nat)
    (hj : j < l.length) (hne : j ≠ p) : (l.modify f p ++ r)[j]? = l[j]? := by
  rw [List.getElem?_append_left (by simpa using hj), List.getElem?_modify_ne _ _ (Ne.symm hne)]

theorem getElem?_modify_append_self {α : Type} (f : α → α) (l r : List α) (p : Nat) (s : α)
    (hp : l[p]? = some s) : (l.modify f p ++ r)[p]? = some (f s) := by
  have hlt : p < l.length := by
    by_contra h
    rw [List.getElem?_eq_none (by omega)] at hp
    cases hp
  rw [List.getElem?_append_left (by simpa using hlt), List.getElem?_modify_eq, hp]
  rfl

/-! ## The lines of a pin -/

theorem renderable_pin_iff (p : pin) :
    renderable_pin p = true ↔
      plain p.name = true ∧ plain p.direction = true ∧ plain p.function = true ∧
        p.three_state = [] ∧ p.x_function = [] := by
  simp [renderable_pin, and_assoc]

theorem open_group_run (fuel : Nat) (heap : List statement) (ci r : Nat) (sc : statement)
    (hci : heap[ci]? = some sc) (g v : Str) (hg : plain g = true) (hv : plain v = true)
    (hl : (group_line g v).length < npos) (hi : g ∈ groups_of_interest) (rest : List Str) :
    run_lines (fuel + 1) ⟨heap, some ci, some r, 0⟩ false (group_line g v :: rest) =
      run_lines (fuel + 1)
        ⟨heap.modify (with_child heap.length) ci ++ [⟨some ci, true, g, v, []⟩],
          some heap.length, some r, 0⟩ false rest :=
  run_lines_cons_ok _ _ _ _ _ _ _
    (group_line_step fuel ⟨heap, some ci, some r, 0⟩ g v hg hv hl hi rfl ci r sc rfl hci rfl)

theorem attribute_run (fuel : Nat) (base done : List statement) (g : statement) (n r : Nat)
    (hn : base.length = n) (a v : Str) (ha : plain a = true) (hv : value_safe v = true)
    (hl : (attribute_line a v).length < npos) (hi : a ∈ attributes_of_interest)
    (rest : List Str) :
    run_lines (fuel + 1) ⟨base ++ g :: done, some n, some r, 0⟩ false
        (attribute_line a v :: rest) =
      run_lines (fuel + 1)
        ⟨base ++ with_child (n + 1 + done.length) g :: (done ++ [⟨some n, false, a, v, []⟩]),
          some n, some r, 0⟩ false rest := by
  subst hn
  have e : (base ++ g :: done)[base.length]? = some g := by
    rw [List.getElem?_append_right (by simp)]
    simp
  have s := attribute_line_step fuel ⟨base ++ g :: done, some base.length, some r, 0⟩ a v ha hv
    hl hi rfl base.length g rfl e
  rw [run_lines_cons_ok _ _ _ _ _ _ _ s]
  have e2 : (base ++ g :: done).modify (with_child (base ++ g :: done).length) base.length ++
      [(⟨some base.length, false, a, v, []⟩ : statement)] =
      base ++ with_child (base.length + 1 + done.length) g ::
        (done ++ [⟨some base.length, false, a, v, []⟩]) := by
    rw [modify_length_append]
    have e3 : (base ++ g :: done).length = base.length + 1 + done.length := by
      simp
      omega
    rw [e3]
    simp
  rw [e2]

theorem closing_run (fuel : Nat) (base done : List statement) (g : statement) (n r : Nat)
    (hn : base.length = n) (rest : List Str) :
    run_lines (fuel + 1) ⟨base ++ g :: done, some n, some r, 0⟩ false (closing_line :: rest) =
      run_lines (fuel + 1) ⟨base ++ g :: done, g.parent, some r, 0⟩ false rest := by
  subst hn
  have e : (base ++ g :: done)[base.length]? = some g := by
    rw [List.getElem?_append_right (by simp)]
    simp
  exact run_lines_cons_ok _ _ _ _ _ _ _
    (closing_line_step fuel ⟨base ++ g :: done, some base.length, some r, 0⟩ rfl base.length g
      rfl e)

theorem render_pin_run (fuel : Nat) (heap : List statement) (ci r : Nat) (sc : statement)
    (hci : heap[ci]? = some sc) (p : pin) (hp : renderable_pin p = true)
    (hfit : ∀ l ∈ render_pin p, l.length < npos) (rest : List Str) :
    run_lines (fuel + 1) ⟨heap, some ci, some r, 0⟩ false (render_pin p ++ rest) =
      run_lines (fuel + 1)
        ⟨heap.modify (with_child heap.length) ci ++ pin_nodes heap.length ci p,
          some ci, some r, 0⟩ false rest := by
  obtain ⟨h1, h2, h3, _, _⟩ := (renderable_pin_iff p).1 hp
  have hpin : plain "pin".toList = true := by decide
  have hdir : plain "direction".toList = true := by decide
  have hfun : plain "function".toList = true := by decide
  have hlen : (heap.modify (with_child heap.length) ci).length = heap.length :=
    List.length_modify _ _ _
  by_cases hf : p.function = []
  · simp only [render_pin, hf, if_true, List.append_nil, List.cons_append, List.nil_append,
      List.singleton_append]
    rw [open_group_run fuel heap ci r sc hci _ _ hpin h1 (hfit _ (by simp [render_pin]))
        (by decide),
      attribute_run fuel _ [] _ heap.length r hlen _ _ hdir (value_safe_of_plain _ h2)
        (hfit _ (by simp [render_pin])) (by decide),
      closing_run fuel _ _ _ heap.length r hlen]
    simp [pin_nodes, hf, with_child]
  · simp only [render_pin, hf, if_false, List.cons_append, List.nil_append,
      List.singleton_append]
    rw [open_group_run fuel heap ci r sc hci _ _ hpin h1 (hfit _ (by simp [render_pin]))
        (by decide),
      attribute_run fuel _ [] _ heap.length r hlen _ _ hdir (value_safe_of_plain _ h2)
        (hfit _ (by simp [render_pin])) (by decide),
      attribute_run fuel _ _ _ heap.length r hlen _ _ hfun (value_safe_quoted _ h3)
        (hfit _ (by simp [render_pin, hf])) (by decide),
      closing_run fuel _ _ _ heap.length r hlen]
    simp [pin_nodes, hf, with_child]

/-! ### Lifting the statements of a pin -/

theorem last_occurrence_single_of_not_mem (c : Char) (xs : Str) (h : c ∉ xs) :
    last_occurrence [c] xs = none := by
  induction xs with
  | nil => simp [last_occurrence]
  | cons x xs ih =>
    rw [List.mem_cons, not_or] at h
    simp [last_occurrence, List.isPrefixOf, h.1, ih h.2]

theorem last_occurrence_single_append (c : Char) (xs ys : Str) (h : c ∉ ys) :
    last_occurrence [c] (xs ++ c :: ys) = some xs.length := by
  induction xs with
  | nil =>
    simp [last_occurrence, List.isPrefixOf, last_occurrence_single_of_not_mem c ys h]
  | cons x xs ih => simp [last_occurrence, ih]

theorem prepare_string_quoted (f : Str) (hf : plain f = true) (hl : f.length + 2 < npos) :
    prepare_string (quoted f) = .ok f := by
  have hq : dquote ∉ f := plain_not_mem f hf dquote (by decide)
  have e1 : rfind (quoted f) [dquote] = f.length + 1 := by
    have e : quoted f = (dquote :: f) ++ dquote :: [] := by simp [quoted]
    rw [rfind, e, last_occurrence_single_append dquote _ [] (by simp)]
    simp
  have e2 : find (quoted f) [dquote] = 0 := by
    simp [find, quoted, first_occurrence, List.isPrefixOf]
  have e3 : (quoted f).take (f.length + 1) = dquote :: f := by
    have e : quoted f = (dquote :: f) ++ dquote :: [] := by simp [quoted]
    rw [e]
    exact List.take_left' (by simp)
  unfold prepare_string
  rw [e1, e2, substr_zero, e3]
  simp only [Except.bind]
  rw [size_add_small _ _ (by omega), substr_npos _ _ (by simp) (by simp; omega)]
  simp

theorem pin_nodes_length_pos (n ci : Nat) (p : pin) : 0 < (pin_nodes n ci p).length := by
  unfold pin_nodes
  split_ifs <;> simp

theorem child_added_of_append (heap nodes : List statement) (ci : Nat)
    (hn : 0 < nodes.length) :
    child_added heap (heap.modify (with_child heap.length) ci ++ nodes) ci := by
  refine ⟨by simp; omega, ?_, ?_⟩
  · intro j hj hne
    exact getElem?_modify_append_of_ne _ _ _ _ _ hj hne
  · intro s hs
    exact getElem?_modify_append_self _ _ _ _ _ hs

theorem getElem?_of_agree (heap h1 base nodes : List statement) (n : Nat)
    (hb : base.length = n) (e : h1 = base ++ nodes)
    (hag : ∀ j, n ≤ j → j < h1.length → heap[j]? = h1[j]?) (k : Nat) (hk : k < nodes.length) :
    heap[n + k]? = nodes[k]? := by
  rw [hag (n + k) (by omega) (by rw [e]; simp; omega), e,
    List.getElem?_append_right (by omega)]
  congr 1
  omega

theorem pin_nodes_closed (heap : List statement) (ci : Nat) (p : pin)
    (hp : renderable_pin p = true) (hfit : ∀ l ∈ render_pin p, l.length < npos) :
    closed_child lift_cell_statement (fun c => { c with pins := c.pins ++ [p] })
      (heap.modify (with_child heap.length) ci ++ pin_nodes heap.length ci p) heap.length := by
  obtain ⟨h1, h2, h3, h4, h5⟩ := (renderable_pin_iff p).1 hp
  intro heap1 hag c
  have hlen : (heap.modify (with_child heap.length) ci).length = heap.length :=
    List.length_modify _ _ _
  have look := getElem?_of_agree heap1 _ _ (pin_nodes heap.length ci p) heap.length hlen rfl hag
  by_cases hf : p.function = []
  · have k0 := look 0 (by simp [pin_nodes, hf])
    have k1 := look 1 (by simp [pin_nodes, hf])
    simp only [pin_nodes, hf, if_true, List.getElem?_cons_zero, List.getElem?_cons_succ,
      Nat.add_zero] at k0 k1
    rw [deref_some _ _ _ k0]
    simp only [Except.bind, lift_cell_statement, if_true, for_each, deref_some _ _ _ k1,
      lift_pin_statement, new_pin]
    congr 3
    cases p
    simp_all
  · have k0 := look 0 (by simp [pin_nodes, hf])
    have k1 := look 1 (by simp [pin_nodes, hf])
    have k2 := look 2 (by simp [pin_nodes, hf])
    simp only [pin_nodes, hf, if_false, List.getElem?_cons_zero, List.getElem?_cons_succ,
      Nat.add_zero] at k0 k1 k2
    have hq : prepare_string (quoted p.function) = .ok p.function := by
      apply prepare_string_quoted _ h3
      have := hfit (attribute_line "function".toList (quoted p.function))
        (by simp [render_pin, hf])
      rw [attribute_line_length] at this
      simp only [quoted, List.length_cons, List.length_append, List.length_nil] at this
      omega
    have n1 : ¬ "function".toList = "direction".toList := by decide
    rw [deref_some _ _ _ k0]
    simp only [Except.bind, lift_cell_statement, if_true, for_each, deref_some _ _ _ k1,
      deref_some _ _ _ k2, lift_pin_statement, new_pin, n1, if_false, hq]
    congr 3
    cases p
    simp_all

/-! ## The children of an open group -/

theorem for_each_append {α : Type} (heap : List statement)
    (body : α → statement → Except Fault α) (ks : List Nat) (k : Nat) (a : α) :
    for_each heap body (ks ++ [k]) a =
      (for_each heap body ks a).bind fun a1 => (deref heap (some k)).bind (body a1) := by
  induction ks generalizing a with
  | nil =>
    simp only [List.nil_append, for_each, Except.bind]
    cases deref heap (some k) with
    | error e => rfl
    | ok s =>
      simp only
      cases body a s with
      | error e => rfl
      | ok a1 => rfl
  | cons i rest ih =>
    simp only [List.cons_append, for_each]
    cases deref heap (some i) with
    | error e => rfl
    | ok s =>
      simp only [Except.bind]
      cases body a s with
      | error e => rfl
      | ok a1 => exact ih a1

theorem lt_length_of_getElem? {α : Type} (l : List α) (i : Nat) (x : α) (h : l[i]? = some x) :
    i < l.length := by
  by_contra hn
  rw [List.getElem?_eq_none (by omega)] at h
  cases h

theorem open_group_inv_step {α : Type}
    (body : List statement → α → statement → Except Fault α) (update : α → α)
    (heap h1 : List statement) (pi : Nat) (a0 a : α)
    (hinv : open_group_inv body heap pi a0 a) (hadd : child_added heap h1 pi)
    (hclosed : closed_child body update h1 heap.length) :
    open_group_inv body h1 pi a0 (update a) := by
  obtain ⟨s, hs, hfe⟩ := hinv
  obtain ⟨hlen, hsame, hpar⟩ := hadd
  have hpi : pi < heap.length := lt_length_of_getElem? _ _ _ hs
  refine ⟨with_child heap.length s, hpar s hs, ?_⟩
  intro heap1 hag
  have hag0 : ∀ j, pi < j → j < heap.length → heap1[j]? = heap[j]? := by
    intro j h1j h2j
    rw [hag j h1j (by omega), hsame j h2j (by omega)]
  have hag1 : ∀ j, heap.length ≤ j → j < h1.length → heap1[j]? = h1[j]? :=
    fun j h1j h2j => hag j (by omega) h2j
  show for_each heap1 (body heap1) (s.statements ++ [heap.length]) a0 = _
  rw [for_each_append, hfe heap1 hag0]
  exact hclosed heap1 hag1 a

theorem children_run {α β : Type} (fuel : Nat)
    (body : List statement → α → statement → Except Fault α) (render : β → List Str)
    (update : β → α → α) (good : β → Prop)
    (hstep : ∀ b, good b → ∀ (heap : List statement) (pi r : Nat) (s : statement)
      (rest : List Str), heap[pi]? = some s →
      ∃ h1, run_lines (fuel + 1) ⟨heap, some pi, some r, 0⟩ false (render b ++ rest) =
          run_lines (fuel + 1) ⟨h1, some pi, some r, 0⟩ false rest ∧
        child_added heap h1 pi ∧ closed_child body (update b) h1 heap.length)
    (bs : List β) (hall : ∀ b ∈ bs, good b) (heap : List statement) (pi r : Nat)
    (s : statement) (rest : List Str) (a0 a : α) (hs : heap[pi]? = some s)
    (hinv : open_group_inv body heap pi a0 a) :
    ∃ h1 ks, run_lines (fuel + 1) ⟨heap, some pi, some r, 0⟩ false
          (bs.flatMap render ++ rest) =
        run_lines (fuel + 1) ⟨h1, some pi, some r, 0⟩ false rest ∧
      heap.length ≤ h1.length ∧
      (∀ j, j < heap.length → j ≠ pi → h1[j]? = heap[j]?) ∧
      h1[pi]? = some { s with statements := ks } ∧
      open_group_inv body h1 pi a0 (bs.foldl (fun x b => update b x) a) := by
  induction bs generalizing heap s a with
  | nil =>
    exact ⟨heap, s.statements, rfl, le_refl _, fun _ _ _ => rfl, hs, hinv⟩
  | cons b bs ih =>
    obtain ⟨h1, hrun, hadd, hclosed⟩ :=
      hstep b (hall b (List.mem_cons_self _ _)) heap pi r s (bs.flatMap render ++ rest) hs
    have hinv1 := open_group_inv_step body (update b) heap h1 pi a0 a hinv hadd hclosed
    obtain ⟨hlen, hsame, hpar⟩ := hadd
    obtain ⟨h2, ks, hrun2, hlen2, hsame2, hpi2, hinv2⟩ :=
      ih (fun x hx => hall x (List.mem_cons_of_mem _ hx)) h1 (with_child heap.length s)
        (update b a) (hpar s hs) hinv1
    refine ⟨h2, ks, ?_, by omega, ?_, hpi2, hinv2⟩
    · rw [List.flatMap_cons, List.append_assoc, hrun, hrun2]
    · intro j hj hne
      rw [hsame2 j (by omega) hne, hsame j hj hne]

/-! ## The lines of a cell and of a library -/

theorem renderable_cell_iff (c : cell) :
    renderable_cell c = true ↔
      plain c.name = true ∧ combinational c = true ∧ ∀ p ∈ c.pins, renderable_pin p = true := by
  simp [renderable_cell, and_assoc]

theorem foldl_add_pin (ps : List pin) (c : cell) :
    ps.foldl (fun x p => { x with pins := x.pins ++ [p] }) c =
      { c with pins := c.pins ++ ps } := by
  induction ps generalizing c with
  | nil => simp
  | cons p ps ih => simp [ih]

theorem foldl_add_cell (cs : List cell) (lib : intermediate_library) :
    cs.foldl (fun x c => { x with cells := x.cells ++ [c] }) lib =
      { lib with cells := lib.cells ++ cs } := by
  induction cs generalizing lib with
  | nil => simp
  | cons c cs ih => simp [ih]

theorem new_cell_of_combinational (c : cell) (h : combinational c = true) :
    { new_cell c.name with pins := c.pins } = c := by
  cases c
  simp only [combinational, Bool.and_eq_true, Bool.not_eq_true', decide_eq_true_eq] at h
  simp only [new_cell, List.nil_append, cell.mk.injEq, true_and]
  obtain ⟨⟨⟨⟨⟨⟨⟨⟨⟨h1, h2⟩, h3⟩, h4⟩, h5⟩, h6⟩, h7⟩, h8⟩, h9⟩, h10⟩ := h
  simp [h1, h2, h3, h4, h5, h6, h7, h8, h9, h10]

theorem render_pin_step (fuel : Nat) (p : pin)
    (hp : renderable_pin p = true ∧ ∀ l ∈ render_pin p, l.length < npos)
    (heap : List statement) (ci r : Nat) (sc : statement) (rest : List Str)
    (hci : heap[ci]? = some sc) :
    ∃ h1, run_lines (fuel + 1) ⟨heap, some ci, some r, 0⟩ false (render_pin p ++ rest) =
        run_lines (fuel + 1) ⟨h1, some ci, some r, 0⟩ false rest ∧
      child_added heap h1 ci ∧
      closed_child lift_cell_statement (fun c => { c with pins := c.pins ++ [p] }) h1
        heap.length :=
  ⟨_, render_pin_run fuel heap ci r sc hci p hp.1 hp.2 rest,
    child_added_of_append heap _ ci (pin_nodes_length_pos _ _ _),
    pin_nodes_closed heap ci p hp.1 hp.2⟩

theorem render_cell_step (fuel : Nat) (c : cell)
    (hc : renderable_cell c = true ∧ ∀ l ∈ render_cell c, l.length < npos)
    (heap : List statement) (li r : Nat) (sl : statement) (rest : List Str)
    (hli : heap[li]? = some sl) :
    ∃ h1, run_lines (fuel + 1) ⟨heap, some li, some r, 0⟩ false (render_cell c ++ rest) =
        run_lines (fuel + 1) ⟨h1, some li, some r, 0⟩ false rest ∧
      child_added heap h1 li ∧
      closed_child lift_library_statement (fun lib => { lib with cells := lib.cells ++ [c] })
        h1 heap.length := by
  obtain ⟨⟨hname, hcomb, hpins⟩, hfit⟩ := (renderable_cell_iff c).1 hc.1, hc.2
  have hlt : li < heap.length := lt_length_of_getElem? _ _ _ hli
  have hcell : plain "cell".toList = true := by decide
  -- the opening line
  have run1 := open_group_run fuel heap li r sl hli "cell".toList c.name hcell hname
    (hfit _ (by simp [render_cell])) (by decide)
    (c.pins.flatMap render_pin ++ closing_line :: rest)
  have hlen : (heap.modify (with_child heap.length) li).length = heap.length :=
    List.length_modify _ _ _
  have hnode : (heap.modify (with_child heap.length) li ++
      [(⟨some li, true, "cell".toList, c.name, []⟩ : statement)])[heap.length]? =
      some ⟨some li, true, "cell".toList, c.name, []⟩ := by
    rw [List.getElem?_append_right (by omega)]
    simp [hlen]
  have hinv0 : open_group_inv lift_cell_statement
      (heap.modify (with_child heap.length) li ++
        [(⟨some li, true, "cell".toList, c.name, []⟩ : statement)]) heap.length
      (new_cell c.name) (new_cell c.name) := ⟨_, hnode, fun _ _ => rfl⟩
  -- the pins
  obtain ⟨h1, ks, run2, hlen2, hsame2, hpi2, hinv2⟩ :=
    children_run fuel lift_cell_statement render_pin
      (fun p x => { x with pins := x.pins ++ [p] })
      (fun p => renderable_pin p = true ∧ ∀ l ∈ render_pin p, l.length < npos)
      (render_pin_step fuel) c.pins
      (fun p hp => ⟨hpins p hp, fun l hl =>
        hfit l (by
          simp only [render_cell, List.mem_cons, List.mem_append, List.mem_flatMap]
          exact Or.inr (Or.inl ⟨p, hp, hl⟩))⟩)
      _ heap.length r _ (closing_line :: rest) (new_cell c.name) (new_cell c.name) hnode hinv0
  -- the closing line
  have run3 := run_lines_cons_ok _ _ _ _ _ _ rest
    (closing_line_step fuel ⟨h1, some heap.length, some r, 0⟩ rfl heap.length _ rfl hpi2)
  refine ⟨h1, ?_, ⟨?_, ?_, ?_⟩, ?_⟩
  · have e : render_cell c ++ rest =
        group_line "cell".toList c.name ::
          (c.pins.flatMap render_pin ++ closing_line :: rest) := by
      simp [render_cell]
    rw [e, run1, run2, run3]
  · simp only [List.length_append, List.length_singleton, hlen] at hlen2
    omega
  · intro j hj hne
    rw [hsame2 j (by simp [hlen]; omega) (by omega),
      getElem?_modify_append_of_ne _ _ _ _ _ hj hne]
  · intro s hs
    rw [hsame2 li (by simp [hlen]; omega) (by omega)]
    exact getElem?_modify_append_self _ _ _ _ _ hs
  · intro heap1 hag lib
    obtain ⟨s, hs, hfe⟩ := hinv2
    rw [hpi2] at hs
    cases hs
    rw [deref_some heap1 heap.length _ ((hag heap.length (le_refl _)
      (lt_length_of_getElem? _ _ _ hpi2)).trans hpi2)]
    simp only [Except.bind, lift_library_statement, if_true]
    rw [hfe heap1 (fun j h1j h2j => hag j (by omega) h2j), foldl_add_pin]
    simp only [new_cell, List.nil_append]
    have := new_cell_of_combinational c hcomb
    simp only [new_cell] at this
    rw [this]

theorem renderable_iff (il : intermediate_library) :
    renderable il = true ↔
      plain il.name = true ∧ (∀ c ∈ il.cells, renderable_cell c = true) ∧
        ∀ l ∈ render_library il, l.length < npos := by
  simp [renderable, and_assoc]

theorem open_root_run (fuel : Nat) (g v : Str) (hg : plain g = true) (hv : plain v = true)
    (hl : (group_line g v).length < npos) (hi : g ∈ groups_of_interest) (rest : List Str) :
    run_lines (fuel + 1) initial_state false (group_line g v :: rest) =
      run_lines (fuel + 1) ⟨[⟨none, true, g, v, []⟩], some 0, some 0, 0⟩ false rest := by
  apply run_lines_cons_ok
  rw [process_line_group_line fuel initial_state g v hg hv hl hi rfl,
    group_statement_group_line initial_state g v hg hv hl hi]
  rfl

theorem get_statements_render_library (fuel : Nat) (il : intermediate_library)
    (h : renderable il = true) :
    ∃ heap, get_statements (fuel + 1) (render_library il) = .ok (heap, some 0) ∧
      get_intermediate_library heap (some 0) = .ok (some il) := by
  obtain ⟨hname, hcells, hfit⟩ := (renderable_iff il).1 h
  have hlib : plain "library".toList = true := by decide
  have run1 := open_root_run fuel "library".toList il.name hlib hname
    (hfit _ (by simp [render_library])) (by decide)
    (il.cells.flatMap render_cell ++ [closing_line])
  have hnode : ([⟨none, true, "library".toList, il.name, []⟩] : List statement)[0]? =
      some ⟨none, true, "library".toList, il.name, []⟩ := rfl
  have hinv0 : open_group_inv lift_library_statement
      [⟨none, true, "library".toList, il.name, []⟩] 0
      (⟨il.name, []⟩ : intermediate_library) ⟨il.name, []⟩ := ⟨_, hnode, fun _ _ => rfl⟩
  obtain ⟨h1, ks, run2, _, _, hpi2, hinv2⟩ :=
    children_run fuel lift_library_statement render_cell
      (fun c x => { x with cells := x.cells ++ [c] })
      (fun c => renderable_cell c = true ∧ ∀ l ∈ render_cell c, l.length < npos)
      (render_cell_step fuel) il.cells
      (fun c hc => ⟨hcells c hc, fun l hl =>
        hfit l (by
          simp only [render_library, List.mem_cons, List.mem_append, List.mem_flatMap]
          exact Or.inr (Or.inl ⟨c, hc, hl⟩))⟩)
      _ 0 0 _ [closing_line] (⟨il.name, []⟩ : intermediate_library) ⟨il.name, []⟩ hnode hinv0
  have run3 := run_lines_cons_ok _ _ _ _ _ _ []
    (closing_line_step fuel ⟨h1, some 0, some 0, 0⟩ rfl 0 _ rfl hpi2)
  refine ⟨h1, ?_, ?_⟩
  · unfold get_statements
    have e : render_library il =
        group_line "library".toList il.name ::
          (il.cells.flatMap render_cell ++ [closing_line]) := rfl
    rw [e, run1, run2, run3]
    rfl
  · obtain ⟨s, hs, hfe⟩ := hinv2
    rw [hpi2] at hs
    cases hs
    unfold get_intermediate_library
    rw [deref_some h1 0 _ hpi2]
    simp only [Except.bind, if_true]
    rw [hfe h1 (fun _ _ _ => rfl), foldl_add_cell]
    rfl

theorem parse_render_library (fuel : Nat) (il : intermediate_library)
    (h : renderable il = true) :
    parse (fuel + 1) (render_library il) =
      (get_gate_library (some il)).bind fun lib => .ok (some lib) := by
  obtain ⟨heap, h1, h2⟩ := get_statements_render_library fuel il h
  unfold parse
  rw [h1]
  simp only [Except.bind]
  rw [if_neg (by simp), h2]
  simp


/-! ## Facts about the lowerer -/

theorem map_of_direction_input (lib : gate_library) :
    map_of_direction "input".toList lib = lib.gate_to_input_map := by
  simp [map_of_direction]

theorem map_of_direction_inout (lib : gate_library) :
    map_of_direction "inout".toList lib = lib.gate_to_inout_map := by
  simp [map_of_direction]

theorem map_of_direction_output (lib : gate_library) :
    map_of_direction "output".toList lib = lib.gate_to_output_map := by
  simp [map_of_direction]

theorem pin_types_of_direction_input (lib : gate_library) :
    pin_types_of_direction "input".toList lib = lib.input_pin_types := by
  simp [pin_types_of_direction]

theorem pin_types_of_direction_inout (lib : gate_library) :
    pin_types_of_direction "inout".toList lib = lib.inout_pin_types := by
  simp [pin_types_of_direction]

theorem pin_types_of_direction_output (lib : gate_library) :
    pin_types_of_direction "output".toList lib = lib.output_pin_types := by
  simp [pin_types_of_direction]

theorem mem_directions (d : Str) :
    d ∈ directions ↔ d = "input".toList ∨ d = "inout".toList ∨ d = "output".toList := by
  simp [directions]

theorem lower_pin_gnd (cn : Str) (lib : gate_library) (p : pin) (n : Str) :
    n ∈ (lower_pin cn lib p).global_gnd_gate_types ↔
      n ∈ lib.global_gnd_gate_types ∨
        (n = cn ∧ p.direction = "output".toList ∧ p.function = "0".toList) := by
  simp only [String.toList]
  by_cases a : p.direction = "input".data
  · simp [lower_pin, a]
  by_cases b : p.direction = "inout".data
  · simp [lower_pin, b]
  by_cases c : p.direction = "output".data
  · by_cases d : p.function = "0".data
    · simp [lower_pin, c, d]; tauto
    · by_cases e : p.function = "1".data
      · simp [lower_pin, c, e]
      · simp [lower_pin, c, d, e]
  · simp [lower_pin, a, b, c]

theorem lower_pin_vcc (cn : Str) (lib : gate_library) (p : pin) (n : Str) :
    n ∈ (lower_pin cn lib p).global_vcc_gate_types ↔
      n ∈ lib.global_vcc_gate_types ∨
        (n = cn ∧ p.direction = "output".toList ∧ p.function = "1".toList) := by
  simp only [String.toList]
  by_cases a : p.direction = "input".data
  · simp [lower_pin, a]
  by_cases b : p.direction = "inout".data
  · simp [lower_pin, b]
  by_cases c : p.direction = "output".data
  · by_cases d : p.function = "0".data
    · simp [lower_pin, c, d]
    · by_cases e : p.function = "1".data
      · simp [lower_pin, c, e]; tauto
      · simp [lower_pin, c, d, e]
  · simp [lower_pin, a, b, c]

theorem lower_pin_gate_types (cn : Str) (lib : gate_library) (p : pin) :
    (lower_pin cn lib p).gate_types = lib.gate_types := by
  unfold lower_pin
  split_ifs <;> rfl

theorem lower_pin_name (cn : Str) (lib : gate_library) (p : pin) :
    (lower_pin cn lib p).name = lib.name := by
  unfold lower_pin
  split_ifs <;> rfl

theorem lower_pin_map (d : Str) (hd : d ∈ directions) (cn : Str) (lib : gate_library)
    (p : pin) (n : Str) :
    map_of_direction d (lower_pin cn lib p) n =
      if n = cn ∧ p.direction = d then some ((map_of_direction d lib n).getD [] ++ [p.name])
      else map_of_direction d lib n := by
  rw [mem_directions] at hd
  simp only [String.toList] at hd
  by_cases a : p.direction = "input".data
  · rcases hd with rfl | rfl | rfl <;>
      by_cases b : n = cn <;> simp [lower_pin, map_of_direction, map_push_back, a, b]
  by_cases b : p.direction = "inout".data
  · rcases hd with rfl | rfl | rfl <;>
      by_cases c : n = cn <;> simp [lower_pin, map_of_direction, map_push_back, b, c]
  by_cases c : p.direction = "output".data
  · rcases hd with rfl | rfl | rfl <;>
      by_cases e : n = cn <;> by_cases f0 : p.function = "0".data <;>
      by_cases f1 : p.function = "1".data <;>
      simp [lower_pin, map_of_direction, map_push_back, c, e, f0, f1]
  · rcases hd with rfl | rfl | rfl <;>
      simp [lower_pin, map_of_direction, a, b, c]

theorem lower_pin_pin_types (d : Str) (hd : d ∈ directions) (cn : Str) (lib : gate_library)
    (p : pin) :
    pin_types_of_direction d (lower_pin cn lib p) =
      if p.direction = d then insert p.name (pin_types_of_direction d lib)
      else pin_types_of_direction d lib := by
  rw [mem_directions] at hd
  simp only [String.toList] at hd
  by_cases a : p.direction = "input".data
  · rcases hd with rfl | rfl | rfl <;> simp [lower_pin, pin_types_of_direction, a]
  by_cases b : p.direction = "inout".data
  · rcases hd with rfl | rfl | rfl <;> simp [lower_pin, pin_types_of_direction, b]
  by_cases c : p.direction = "output".data
  · rcases hd with rfl | rfl | rfl <;> by_cases f0 : p.function = "0".data <;>
      by_cases f1 : p.function = "1".data <;>
      simp [lower_pin, pin_types_of_direction, c, f0, f1]
  · rcases hd with rfl | rfl | rfl <;> simp [lower_pin, pin_types_of_direction, a, b, c]

theorem fold_lower_pin_gnd (cn : Str) (pins : List pin) (lib : gate_library) (n : Str) :
    n ∈ (pins.foldl (lower_pin cn) lib).global_gnd_gate_types ↔
      n ∈ lib.global_gnd_gate_types ∨
        (n = cn ∧ ∃ p ∈ pins, p.direction = "output".toList ∧ p.function = "0".toList) := by
  induction pins generalizing lib with
  | nil => simp
  | cons p ps ih =>
    rw [List.foldl_cons, ih, lower_pin_gnd]
    simp only [List.mem_cons, exists_eq_or_imp]
    tauto

theorem fold_lower_pin_vcc (cn : Str) (pins : List pin) (lib : gate_library) (n : Str) :
    n ∈ (pins.foldl (lower_pin cn) lib).global_vcc_gate_types ↔
      n ∈ lib.global_vcc_gate_types ∨
        (n = cn ∧ ∃ p ∈ pins, p.direction = "output".toList ∧ p.function = "1".toList) := by
  induction pins generalizing lib with
  | nil => simp
  | cons p ps ih =>
    rw [List.foldl_cons, ih, lower_pin_vcc]
    simp only [List.mem_cons, exists_eq_or_imp]
    tauto

theorem fold_lower_pin_gate_types (cn : Str) (pins : List pin) (lib : gate_library) :
    (pins.foldl (lower_pin cn) lib).gate_types = lib.gate_types := by
  induction pins generalizing lib with
  | nil => rfl
  | cons p ps ih => rw [List.foldl_cons, ih, lower_pin_gate_types]

theorem fold_lower_pin_name (cn : Str) (pins : List pin) (lib : gate_library) :
    (pins.foldl (lower_pin cn) lib).name = lib.name := by
  induction pins generalizing lib with
  | nil => rfl
  | cons p ps ih => rw [List.foldl_cons, ih, lower_pin_name]

theorem fold_lower_pin_map_other (d : Str) (hd : d ∈ directions) (cn : Str) (pins : List pin)
    (lib : gate_library) (n : Str) (hn : n ≠ cn) :
    map_of_direction d (pins.foldl (lower_pin cn) lib) n = map_of_direction d lib n := by
  induction pins generalizing lib with
  | nil => rfl
  | cons p ps ih => rw [List.foldl_cons, ih, lower_pin_map d hd]; simp [hn]

theorem fold_lower_pin_map_self (d : Str) (hd : d ∈ directions) (cn : Str) (pins : List pin)
    (lib : gate_library) :
    map_of_direction d (pins.foldl (lower_pin cn) lib) cn =
      if (pins.filter fun p => p.direction = d) = [] then map_of_direction d lib cn
      else some ((map_of_direction d lib cn).getD [] ++
        (pins.filter fun p => p.direction = d).map pin.name) := by
  induction pins generalizing lib with
  | nil => simp
  | cons p ps ih =>
    rw [List.foldl_cons, ih, lower_pin_map d hd]
    by_cases a : p.direction = d
    · by_cases b : (ps.filter fun p => p.direction = d) = []
      · simp [a, b]
      · simp [a, b]
    · simp [a]

theorem fold_lower_pin_pin_types (d : Str) (hd : d ∈ directions) (cn : Str) (pins : List pin)
    (lib : gate_library) (x : Str) :
    x ∈ pin_types_of_direction d (pins.foldl (lower_pin cn) lib) ↔
      x ∈ pin_types_of_direction d lib ∨ ∃ p ∈ pins, p.direction = d ∧ p.name = x := by
  induction pins generalizing lib with
  | nil => simp
  | cons p ps ih =>
    rw [List.foldl_cons, ih, lower_pin_pin_types d hd]
    by_cases a : p.direction = d
    · simp only [a, if_true, Finset.mem_insert, List.mem_cons, exists_eq_or_imp, true_and]
      constructor
      · rintro ((h | h) | h)
        · exact Or.inr (Or.inl h.symm)
        · exact Or.inl h
        · exact Or.inr (Or.inr h)
      · rintro (h | h | h)
        · exact Or.inl (Or.inr h)
        · exact Or.inl (Or.inl h.symm)
        · exact Or.inr h
    · simp [a]

/-! ### One cell -/

theorem lower_cell_gnd (lib : gate_library) (c : cell) (n : Str) :
    n ∈ (lower_cell lib c).global_gnd_gate_types ↔
      n ∈ lib.global_gnd_gate_types ∨ (n = c.name ∧ has_output_function "0".toList c = true) := by
  unfold lower_cell
  rw [fold_lower_pin_gnd]
  simp [has_output_function]

theorem lower_cell_vcc (lib : gate_library) (c : cell) (n : Str) :
    n ∈ (lower_cell lib c).global_vcc_gate_types ↔
      n ∈ lib.global_vcc_gate_types ∨ (n = c.name ∧ has_output_function "1".toList c = true) := by
  unfold lower_cell
  rw [fold_lower_pin_vcc]
  simp [has_output_function]

theorem lower_cell_gate_types (lib : gate_library) (c : cell) :
    (lower_cell lib c).gate_types = insert c.name lib.gate_types := by
  unfold lower_cell
  rw [fold_lower_pin_gate_types]

theorem lower_cell_name (lib : gate_library) (c : cell) :
    (lower_cell lib c).name = lib.name := by
  unfold lower_cell
  rw [fold_lower_pin_name]

theorem map_of_direction_with_gate_types (d : Str) (lib : gate_library) (s : Finset Str) :
    map_of_direction d { lib with gate_types := s } = map_of_direction d lib := rfl

theorem pin_types_with_gate_types (d : Str) (lib : gate_library) (s : Finset Str) :
    pin_types_of_direction d { lib with gate_types := s } = pin_types_of_direction d lib := rfl

theorem lower_cell_map (d : Str) (hd : d ∈ directions) (lib : gate_library) (c : cell)
    (n : Str) :
    map_of_direction d (lower_cell lib c) n =
      if n = c.name ∧ pins_of_direction d c ≠ [] then
        some ((map_of_direction d lib n).getD [] ++ pins_of_direction d c)
      else map_of_direction d lib n := by
  unfold lower_cell
  by_cases a : n = c.name
  · subst a
    rw [fold_lower_pin_map_self d hd, map_of_direction_with_gate_types]
    by_cases b : (c.pins.filter fun p => p.direction = d) = []
    · simp [pins_of_direction, b]
    · simp [pins_of_direction, b]
  · rw [fold_lower_pin_map_other d hd _ _ _ _ a, map_of_direction_with_gate_types]
    simp [a]

theorem lower_cell_pin_types (d : Str) (hd : d ∈ directions) (lib : gate_library) (c : cell)
    (x : Str) :
    x ∈ pin_types_of_direction d (lower_cell lib c) ↔
      x ∈ pin_types_of_direction d lib ∨ x ∈ pins_of_direction d c := by
  unfold lower_cell
  rw [fold_lower_pin_pin_types d hd, pin_types_with_gate_types]
  simp [pins_of_direction, and_assoc]

/-! ### All cells -/

theorem fold_lower_cell_gnd (cells : List cell) (lib : gate_library) (n : Str) :
    n ∈ (cells.foldl lower_cell lib).global_gnd_gate_types ↔
      n ∈ lib.global_gnd_gate_types ∨
        ∃ c ∈ cells, c.name = n ∧ has_output_function "0".toList c = true := by
  induction cells generalizing lib with
  | nil => simp
  | cons c cs ih =>
    rw [List.foldl_cons, ih, lower_cell_gnd]
    simp only [List.mem_cons, exists_eq_or_imp]
    constructor
    · rintro ((h | ⟨h, h2⟩) | h)
      · exact Or.inl h
      · exact Or.inr (Or.inl ⟨h.symm, h2⟩)
      · exact Or.inr (Or.inr h)
    · rintro (h | ⟨h, h2⟩ | h)
      · exact Or.inl (Or.inl h)
      · exact Or.inl (Or.inr ⟨h.symm, h2⟩)
      · exact Or.inr h

theorem fold_lower_cell_vcc (cells : List cell) (lib : gate_library) (n : Str) :
    n ∈ (cells.foldl lower_cell lib).global_vcc_gate_types ↔
      n ∈ lib.global_vcc_gate_types ∨
        ∃ c ∈ cells, c.name = n ∧ has_output_function "1".toList c = true := by
  induction cells generalizing lib with
  | nil => simp
  | cons c cs ih =>
    rw [List.foldl_cons, ih, lower_cell_vcc]
    simp only [List.mem_cons, exists_eq_or_imp]
    constructor
    · rintro ((h | ⟨h, h2⟩) | h)
      · exact Or.inl h
      · exact Or.inr (Or.inl ⟨h.symm, h2⟩)
      · exact Or.inr (Or.inr h)
    · rintro (h | ⟨h, h2⟩ | h)
      · exact Or.inl (Or.inl h)
      · exact Or.inl (Or.inr ⟨h.symm, h2⟩)
      · exact Or.inr h

theorem fold_lower_cell_name (cells : List cell) (lib : gate_library) :
    (cells.foldl lower_cell lib).name = lib.name := by
  induction cells generalizing lib with
  | nil => rfl
  | cons c cs ih => rw [List.foldl_cons, ih, lower_cell_name]

theorem fold_lower_cell_gate_types (cells : List cell) (lib : gate_library) (n : Str) :
    n ∈ (cells.foldl lower_cell lib).gate_types ↔
      n ∈ lib.gate_types ∨ n ∈ cells.map cell.name := by
  induction cells generalizing lib with
  | nil => simp
  | cons c cs ih =>
    rw [List.foldl_cons, ih, lower_cell_gate_types]
    simp only [Finset.mem_insert, List.map_cons, List.mem_cons]
    tauto

theorem fold_lower_cell_map (d : Str) (hd : d ∈ directions) (cells : List cell)
    (lib : gate_library) (n : Str) :
    map_of_direction d (cells.foldl lower_cell lib) n =
      if pins_collected d n cells = [] then map_of_direction d lib n
      else some ((map_of_direction d lib n).getD [] ++ pins_collected d n cells) := by
  induction cells generalizing lib with
  | nil => simp [pins_collected]
  | cons c cs ih =>
    rw [List.foldl_cons, ih, lower_cell_map d hd]
    by_cases a : c.name = n
    · subst a
      by_cases b : pins_of_direction d c = []
      · simp [pins_collected, b]
      · by_cases e : pins_collected d c.name cs = []
        · have e2 : (List.filter (fun x => decide (x.name = c.name)) cs).flatMap
              (pins_of_direction d) = [] := e
          simp [pins_collected, b, e, e2]
        · have e2 : ¬ (List.filter (fun x => decide (x.name = c.name)) cs).flatMap
              (pins_of_direction d) = [] := e
          simp [pins_collected, b, e, e2]
    · have a2 : ¬ n = c.name := fun h => a h.symm
      simp [pins_collected, a, a2]

theorem fold_lower_cell_pin_types (d : Str) (hd : d ∈ directions) (cells : List cell)
    (lib : gate_library) (x : Str) :
    x ∈ pin_types_of_direction d (cells.foldl lower_cell lib) ↔
      x ∈ pin_types_of_direction d lib ∨ ∃ c ∈ cells, x ∈ pins_of_direction d c := by
  induction cells generalizing lib with
  | nil => simp
  | cons c cs ih =>
    rw [List.foldl_cons, ih, lower_cell_pin_types d hd]
    simp only [List.mem_cons, exists_eq_or_imp]
    tauto

/-! ### The loop from a fresh catalog -/

theorem mem_tie_cells (f : Str) (il : intermediate_library) (n : Str) :
    n ∈ tie_cells f il ↔ ∃ c ∈ il.cells, c.name = n ∧ has_output_function f c = true := by
  simp [tie_cells, and_comm, and_assoc]

theorem tie_cells_eq_empty (f : Str) (il : intermediate_library) :
    tie_cells f il = ∅ ↔ ¬ ∃ c ∈ il.cells, has_output_function f c = true := by
  rw [Finset.eq_empty_iff_forall_not_mem]
  simp only [mem_tie_cells]
  constructor
  · rintro h ⟨c, hc, hf⟩
    exact h c.name ⟨c, hc, rfl, hf⟩
  · rintro h n ⟨c, hc, _, hf⟩
    exact h ⟨c, hc, hf⟩

theorem lowered_gnd (il : intermediate_library) :
    (il.cells.foldl lower_cell (new_gate_library il.name)).global_gnd_gate_types =
      tie_cells "0".toList il := by
  ext n
  rw [fold_lower_cell_gnd, mem_tie_cells]
  simp [new_gate_library]

theorem lowered_vcc (il : intermediate_library) :
    (il.cells.foldl lower_cell (new_gate_library il.name)).global_vcc_gate_types =
      tie_cells "1".toList il := by
  ext n
  rw [fold_lower_cell_vcc, mem_tie_cells]
  simp [new_gate_library]

theorem map_of_direction_new (d name n : Str) :
    map_of_direction d (new_gate_library name) n = none := by
  unfold map_of_direction new_gate_library
  split_ifs <;> rfl

theorem pin_types_of_direction_new (d name : Str) :
    pin_types_of_direction d (new_gate_library name) = ∅ := by
  unfold pin_types_of_direction new_gate_library
  split_ifs <;> rfl

theorem lowered_map (d : Str) (hd : d ∈ directions) (il : intermediate_library) (n : Str) :
    map_of_direction d (il.cells.foldl lower_cell (new_gate_library il.name)) n =
      if pins_collected d n il.cells = [] then none
      else some (pins_collected d n il.cells) := by
  rw [fold_lower_cell_map d hd, map_of_direction_new]
  simp

theorem lowered_map_getD (d : Str) (hd : d ∈ directions) (il : intermediate_library)
    (n : Str) :
    (map_of_direction d (il.cells.foldl lower_cell (new_gate_library il.name)) n).getD [] =
      pins_collected d n il.cells := by
  rw [lowered_map d hd]
  split_ifs with h
  · simp [h]
  · simp

theorem mem_pins_collected (d n : Str) (cells : List cell) (x : Str) :
    x ∈ pins_collected d n cells ↔ ∃ c ∈ cells, c.name = n ∧ x ∈ pins_of_direction d c := by
  simp [pins_collected, and_assoc]

theorem lowered_invariant (d : Str) (hd : d ∈ directions) (il : intermediate_library)
    (n : Str) :
    (map_of_direction d (il.cells.foldl lower_cell (new_gate_library il.name)) n ≠ none →
      n ∈ (il.cells.foldl lower_cell (new_gate_library il.name)).gate_types) ∧
    ∀ p ∈ (map_of_direction d (il.cells.foldl lower_cell (new_gate_library il.name)) n).getD [],
      p ∈ pin_types_of_direction d (il.cells.foldl lower_cell (new_gate_library il.name)) := by
  constructor
  · rw [lowered_map d hd, fold_lower_cell_gate_types]
    split_ifs with h
    · intro h2; exact absurd rfl h2
    · intro _
      obtain ⟨x, hx⟩ := List.exists_mem_of_ne_nil _ h
      obtain ⟨c, hc, hn, _⟩ := (mem_pins_collected d n il.cells x).1 hx
      exact Or.inr (List.mem_map.2 ⟨c, hc, hn⟩)
  · intro p hp
    rw [lowered_map_getD d hd] at hp
    obtain ⟨c, hc, _, hx⟩ := (mem_pins_collected d n il.cells p).1 hp
    rw [fold_lower_cell_pin_types d hd]
    exact Or.inr ⟨c, hc, hx⟩

theorem lowered_catalog_invariant (il : intermediate_library) :
    catalog_invariant (il.cells.foldl lower_cell (new_gate_library il.name)) := by
  intro c
  have h1 := lowered_invariant "input".toList (by simp [directions]) il c
  have h2 := lowered_invariant "inout".toList (by simp [directions]) il c
  have h3 := lowered_invariant "output".toList (by simp [directions]) il c
  rw [map_of_direction_input, pin_types_of_direction_input] at h1
  rw [map_of_direction_inout, pin_types_of_direction_inout] at h2
  rw [map_of_direction_output, pin_types_of_direction_output] at h3
  exact ⟨h1.1, h2.1, h3.1, h1.2, h2.2, h3.2⟩

/-! ### Default synthesis -/

theorem catalog_invariant_push_output (lib : gate_library) (h : catalog_invariant lib)
    (g o : Str) (gnd vcc : Finset Str) :
    catalog_invariant
      { lib with
        global_gnd_gate_types := gnd
        global_vcc_gate_types := vcc
        gate_types := insert g lib.gate_types
        output_pin_types := insert o lib.output_pin_types
        gate_to_output_map := map_push_back lib.gate_to_output_map g o } := by
  intro c
  obtain ⟨h1, h2, h3, h4, h5, h6⟩ := h c
  refine ⟨fun a => Finset.mem_insert_of_mem (h1 a), fun a => Finset.mem_insert_of_mem (h2 a),
    ?_, h4, h5, ?_⟩
  · intro a
    by_cases e : c = g
    · simp [e]
    · simp only [map_push_back, e, if_false] at a
      exact Finset.mem_insert_of_mem (h3 a)
  · intro p hp
    by_cases e : c = g
    · subst e
      obtain ⟨_, _, _, _, _, h6⟩ := h c
      simp only [map_push_back, if_true, Option.getD_some, List.mem_append,
        List.mem_singleton] at hp
      rcases hp with hp | hp
      · exact Finset.mem_insert_of_mem (h6 p hp)
      · simp [hp]
    · simp only [map_push_back, e, if_false] at hp
      exact Finset.mem_insert_of_mem (h6 p hp)

theorem synthesize_defaults_invariant (lib : gate_library) (h : catalog_invariant lib) :
    catalog_invariant (synthesize_defaults lib) := by
  unfold synthesize_defaults
  split_ifs
  · exact catalog_invariant_push_output lib h _ _ _ _
  · exact catalog_invariant_push_output lib h _ _ _ _
  · exact h

theorem nodup_filter_name (cells : List cell) (hd : (cells.map cell.name).Nodup) (c : cell)
    (hc : c ∈ cells) : cells.filter (fun x => x.name = c.name) = [c] := by
  induction cells with
  | nil => cases hc
  | cons x xs ih =>
    rw [List.map_cons, List.nodup_cons] at hd
    rcases List.mem_cons.1 hc with rfl | hmem
    · have hnone : xs.filter (fun x => x.name = c.name) = [] := by
        rw [List.filter_eq_nil_iff]
        intro y hy hyn
        exact hd.1 (List.mem_map.2 ⟨y, hy, by simpa using hyn⟩)
      simp [List.filter_cons, hnone]
    · have hx : x.name ≠ c.name := by
        intro e
        exact hd.1 (e ▸ List.mem_map.2 ⟨c, hmem, rfl⟩)
      simp [List.filter_cons, hx, ih hd.2 hmem]

theorem pins_collected_of_nodup (d : Str) (cells : List cell)
    (hd : (cells.map cell.name).Nodup) (c : cell) (hc : c ∈ cells) :
    pins_collected d c.name cells = pins_of_direction d c := by
  unfold pins_collected
  rw [nodup_filter_name cells hd c hc]
  simp

theorem synthesize_defaults_map (d : Str) (lib : gate_library) (n : Str)
    (hg : n ≠ "GLOBAL_GND".toList) (hv : n ≠ "GLOBAL_VCC".toList) :
    map_of_direction d (synthesize_defaults lib) n = map_of_direction d lib n := by
  simp only [String.toList] at hg hv
  unfold synthesize_defaults map_of_direction
  split_ifs <;> simp [map_push_back, hg, hv]

theorem synthesize_defaults_gnd (lib : gate_library) :
    (synthesize_defaults lib).global_gnd_gate_types =
      if lib.global_gnd_gate_types = ∅ then {"GLOBAL_GND".toList}
      else lib.global_gnd_gate_types := by
  unfold synthesize_defaults
  split_ifs with h0 h1
  · show insert "GLOBAL_GND".toList lib.global_gnd_gate_types = _
    rw [h0]; rfl
  · rfl
  · rfl

theorem synthesize_defaults_vcc (lib : gate_library) :
    (synthesize_defaults lib).global_vcc_gate_types =
      if lib.global_gnd_gate_types = ∅ then lib.global_vcc_gate_types
      else if lib.global_vcc_gate_types = ∅ then {"GLOBAL_VCC".toList}
      else lib.global_vcc_gate_types := by
  unfold synthesize_defaults
  split_ifs with h0 h1
  · rfl
  · show insert "GLOBAL_VCC".toList lib.global_vcc_gate_types = _
    rw [h1]; rfl
  · rfl

theorem synthesize_defaults_of_gnd_empty (lib : gate_library)
    (h : lib.global_gnd_gate_types = ∅) :
    (synthesize_defaults lib).gate_to_output_map "GLOBAL_GND".toList =
        some ((lib.gate_to_output_map "GLOBAL_GND".toList).getD [] ++ ["O".toList]) ∧
      "GLOBAL_GND".toList ∈ (synthesize_defaults lib).gate_types ∧
      "O".toList ∈ (synthesize_defaults lib).output_pin_types := by
  unfold synthesize_defaults
  rw [if_pos h]
  refine ⟨?_, Finset.mem_insert_self _ _, Finset.mem_insert_self _ _⟩
  show map_push_back lib.gate_to_output_map "GLOBAL_GND".toList "O".toList
    "GLOBAL_GND".toList = _
  unfold map_push_back
  rw [if_pos rfl]

theorem synthesize_defaults_name (lib : gate_library) :
    (synthesize_defaults lib).name = lib.name := by
  unfold synthesize_defaults
  split_ifs <;> rfl

theorem mem_gate_to_map (d : Str) (hd : d ∈ directions) (il : intermediate_library) (c : cell)
    (hc : c ∈ il.cells) (p : pin) (hp : p ∈ c.pins) (hdir : p.direction = d) :
    p.name ∈ (map_of_direction d (synthesize_defaults
      (il.cells.foldl lower_cell (new_gate_library il.name))) c.name).getD [] := by
  have hmem : p.name ∈ (map_of_direction d
      (il.cells.foldl lower_cell (new_gate_library il.name)) c.name).getD [] := by
    rw [lowered_map_getD d hd, mem_pins_collected]
    refine ⟨c, hc, rfl, ?_⟩
    simp only [pins_of_direction, List.mem_map, List.mem_filter, decide_eq_true_eq]
    exact ⟨p, ⟨hp, hdir⟩, rfl⟩
  rw [mem_directions] at hd
  unfold synthesize_defaults
  rcases hd with rfl | rfl | rfl
  · rw [map_of_direction_input] at hmem ⊢
    split_ifs <;> exact hmem
  · rw [map_of_direction_inout] at hmem ⊢
    split_ifs <;> exact hmem
  · rw [map_of_direction_output] at hmem ⊢
    split_ifs
    · show p.name ∈ (map_push_back _ _ _ c.name).getD []
      unfold map_push_back
      split_ifs with e
      · rw [e] at hmem
        simp only [Option.getD_some, List.mem_append]
        exact Or.inl hmem
      · exact hmem
    · show p.name ∈ (map_push_back _ _ _ c.name).getD []
      unfold map_push_back
      split_ifs with e
      · rw [e] at hmem
        simp only [Option.getD_some, List.mem_append]
        exact Or.inl hmem
      · exact hmem
    · exact hmem

/-! ## Quote stripping -/

theorem eq_append_cons_of_mem_last (c : Char) (l : Str) (h : c ∈ l) :
    ∃ m b, l = m ++ c :: b ∧ c ∉ b := by
  have hr : c ∈ l.reverse := List.mem_reverse.2 h
  obtain ⟨a, b, e, ha⟩ := List.eq_append_cons_of_mem hr
  refine ⟨b.reverse, a.reverse, ?_, fun hm => ha (List.mem_reverse.1 hm)⟩
  have := congrArg List.reverse e
  simpa using this

theorem prepare_string_no_quote (s : Str) (hl : s.length < npos) (h : dquote ∉ s) :
    prepare_string s = .ok s := by
  unfold prepare_string
  have e1 : rfind s [dquote] = npos := by
    simp [rfind, last_occurrence_single_of_not_mem dquote s h]
  have e2 : find s [dquote] = npos := find_single_of_not_mem dquote s h
  rw [e1, e2, substr_zero, List.take_of_length_le (by omega)]
  simp only [Except.bind]
  have e3 : size_add npos 1 = 0 := by decide
  rw [e3, substr_zero, List.take_of_length_le (by omega)]

theorem prepare_string_one_quote (a b : Str) (ha : dquote ∉ a) (hb : dquote ∉ b)
    (hl : (a ++ dquote :: b).length < npos) :
    prepare_string (a ++ dquote :: b) = .error .out_of_range := by
  unfold prepare_string
  have e1 : rfind (a ++ dquote :: b) [dquote] = a.length := by
    simp [rfind, last_occurrence_single_append dquote a b hb]
  have e2 : find (a ++ dquote :: b) [dquote] = a.length := find_single_append dquote a b ha
  simp only [List.length_append, List.length_cons] at hl
  rw [e1, e2, substr_zero, List.take_left' rfl]
  simp only [Except.bind]
  rw [size_add_small _ _ (by omega)]
  unfold substr
  rw [if_pos (by omega)]

theorem prepare_string_two_quotes (a m b : Str) (ha : dquote ∉ a) (hb : dquote ∉ b)
    (hl : (a ++ dquote :: (m ++ dquote :: b)).length < npos) :
    prepare_string (a ++ dquote :: (m ++ dquote :: b)) = .ok m := by
  unfold prepare_string
  have e0 : a ++ dquote :: (m ++ dquote :: b) = (a ++ dquote :: m) ++ dquote :: b := by simp
  have e1 : rfind (a ++ dquote :: (m ++ dquote :: b)) [dquote] = a.length + m.length + 1 := by
    rw [rfind, e0, last_occurrence_single_append dquote (a ++ dquote :: m) b hb]
    simp
    omega
  have e2 : find (a ++ dquote :: (m ++ dquote :: b)) [dquote] = a.length :=
    find_single_append dquote a _ ha
  simp only [List.length_append, List.length_cons] at hl
  rw [e1, e2, substr_zero]
  have e3 : (a ++ dquote :: (m ++ dquote :: b)).take (a.length + m.length + 1) =
      a ++ dquote :: m := by
    rw [e0]
    exact List.take_left' (by simp; omega)
  rw [e3]
  simp only [Except.bind]
  rw [size_add_small _ _ (by omega), substr_npos _ _ (by simp) (by simp; omega)]
  have e4 : a ++ dquote :: m = (a ++ [dquote]) ++ m := by simp
  rw [e4]
  congr 1
  exact List.drop_left' (by simp)

/-- The three shapes of a string by its double quotes, with what `prepare_string` does
for each. -/
theorem prepare_string_cases (s : Str) (hl : s.length < npos) :
    (s.count dquote = 0 ∧ prepare_string s = .ok s) ∨
    (s.count dquote = 1 ∧ prepare_string s = .error .out_of_range) ∨
    (2 ≤ s.count dquote ∧ ∃ a m b, s = a ++ dquote :: (m ++ dquote :: b) ∧
      dquote ∉ a ∧ dquote ∉ b ∧ prepare_string s = .ok m) := by
  by_cases h : dquote ∈ s
  · obtain ⟨a, rest, e, ha⟩ := List.eq_append_cons_of_mem h
    subst e
    have ca : a.count dquote = 0 := List.count_eq_zero.2 ha
    by_cases h2 : dquote ∈ rest
    · obtain ⟨m, b, e, hb⟩ := eq_append_cons_of_mem_last dquote rest h2
      subst e
      refine Or.inr (Or.inr ⟨?_, a, m, b, rfl, ha, hb, prepare_string_two_quotes a m b ha hb hl⟩)
      simp [List.count_append, List.count_cons, ca]
      omega
    · refine Or.inr (Or.inl ⟨?_, prepare_string_one_quote a rest ha h2 hl⟩)
      simp [List.count_append, List.count_cons, ca, List.count_eq_zero.2 h2]
  · exact Or.inl ⟨List.count_eq_zero.2 h, prepare_string_no_quote s hl h⟩

/-! ## Facts about the scrubber -/

theorem first_occurrence_bound (pat : Str) (l : Str) (i : Nat)
    (h : first_occurrence pat l = some i) : i + pat.length ≤ l.length := by
  induction l generalizing i with
  | nil =>
    simp only [first_occurrence] at h
    split_ifs at h with e
    cases h
    simp [e]
  | cons x xs ih =>
    simp only [first_occurrence] at h
    split_ifs at h with e
    · cases h
      have := (List.isPrefixOf_iff_prefix.1 e).length_le
      omega
    · cases hxs : first_occurrence pat xs with
      | none => simp [hxs] at h
      | some j =>
        simp only [hxs, Option.map_some', Option.some.injEq] at h
        have := ih j hxs
        simp only [List.length_cons]
        omega

theorem first_occurrence_take (pat : Str) (l : Str) (n : Nat) :
    first_occurrence pat (l.take n) = none ∨
      first_occurrence pat (l.take n) = first_occurrence pat l := by
  induction l generalizing n with
  | nil => right; simp
  | cons x xs ih =>
    cases n with
    | zero =>
      simp only [List.take_zero, first_occurrence]
      by_cases e : pat = []
      · right
        simp [e, List.isPrefixOf]
      · left
        simp [e]
    | succ n =>
      simp only [List.take_succ_cons, first_occurrence]
      by_cases e1 : pat.isPrefixOf (x :: xs.take n) = true
      · have e2 : pat.isPrefixOf (x :: xs) = true := by
          rw [List.isPrefixOf_iff_prefix] at e1 ⊢
          have : x :: xs.take n = (x :: xs).take (n + 1) := rfl
          rw [this] at e1
          exact (List.prefix_take_iff.1 e1).1
        right
        simp [e1, e2]
      · simp only [e1]
        rcases ih n with h | h
        · left
          simp [h]
        · by_cases e2 : pat.isPrefixOf (x :: xs) = true
          · cases hxs : first_occurrence pat (xs.take n) with
            | none => left; simp
            | some j =>
              exfalso
              have hb := first_occurrence_bound pat _ j hxs
              apply e1
              rw [List.isPrefixOf_iff_prefix] at e2 ⊢
              have : x :: xs.take n = (x :: xs).take (n + 1) := rfl
              rw [this, List.prefix_take_iff]
              refine ⟨e2, ?_⟩
              have := List.length_take_le n xs
              omega
          · right
            simp [e2, h]

theorem find_take_of_npos (pat : Str) (l : Str) (n : Nat) (h : find l pat = npos) :
    find (l.take n) pat = npos := by
  unfold find at h ⊢
  rcases first_occurrence_take pat l n with e | e
  · simp [e]
  · rw [e]
    exact h

theorem find_take_self (pat : Str) (hp : pat ≠ []) (l : Str) (h : find l pat ≠ npos) :
    find (l.take (find l pat)) pat = npos := by
  unfold find at h ⊢
  cases hfo : first_occurrence pat l with
  | none => simp [hfo] at h
  | some b =>
    simp only
    rcases first_occurrence_take pat l b with e | e
    · simp [e]
    · exfalso
      rw [hfo] at e
      have hb := first_occurrence_bound pat _ b e
      have hl := List.length_take_le b l
      have : 0 < pat.length := List.length_pos.2 hp
      omega

/-- A line on which one iteration of the loop, outside a block comment, changes
nothing: it is empty, or has no marker, or has a `//` with a `/*` before it. -/
theorem remove_comments_of_stable (k : Nat) (l : Str)
    (h : l = [] ∨ (find l ['/', '/'] = npos ∧ find l ['/', '*'] = npos) ∨
      (find l ['/', '/'] ≠ npos ∧ find l ['/', '*'] ≠ npos ∧
        ¬ find l ['/', '*'] > find l ['/', '/'])) :
    remove_comments (k + 1) l false = .ok (l, false) := by
  unfold remove_comments
  rcases h with h | ⟨h1, h2⟩ | ⟨h1, h2, h3⟩
  · simp [h]
  · by_cases e : l = []
    · simp [e]
    · simp [e, h1, h2]
  · by_cases e : l = []
    · simp [e]
    · simp [e, h1, h2, h3]

theorem remove_comments_result_stable (fuel : Nat) (line : Str) (flag : Bool)
    (r : Str × Bool) (h : remove_comments fuel line flag = .ok r) :
    r.1 = [] ∨ (find r.1 ['/', '/'] = npos ∧ find r.1 ['/', '*'] = npos) ∨
      (find r.1 ['/', '/'] ≠ npos ∧ find r.1 ['/', '*'] ≠ npos ∧
        ¬ find r.1 ['/', '*'] > find r.1 ['/', '/']) := by
  induction fuel generalizing line flag with
  | zero => simp [remove_comments] at h
  | succ fuel ih =>
    unfold remove_comments at h
    by_cases e : line = []
    · rw [if_pos e] at h
      cases h
      exact Or.inl e
    rw [if_neg e] at h
    simp only at h
    by_cases hf : flag = true
    · rw [if_pos hf] at h
      by_cases he : find line ['*', '/'] ≠ npos
      · rw [if_pos he, bind_eq_ok] at h
        obtain ⟨l, _, h⟩ := h
        exact ih l false h
      · rw [if_neg he] at h
        cases h
        exact Or.inl rfl
    · rw [if_neg hf] at h
      by_cases hs : find line ['/', '/'] ≠ npos
      · rw [if_pos hs] at h
        by_cases hc : find line ['/', '*'] = npos ∨
            (find line ['/', '*'] ≠ npos ∧ find line ['/', '*'] > find line ['/', '/'])
        · rw [if_pos hc, bind_eq_ok] at h
          obtain ⟨l, _, h⟩ := h
          exact ih l flag h
        · rw [if_neg hc] at h
          cases h
          rw [not_or, not_and] at hc
          exact Or.inr (Or.inr ⟨hs, hc.1, hc.2 hc.1⟩)
      · rw [if_neg hs] at h
        by_cases hb : find line ['/', '*'] ≠ npos
        · rw [if_pos hb] at h
          by_cases he : find line ['*', '/'] ≠ npos
          · rw [if_pos he] at h
            simp only [bind_eq_ok] at h
            obtain ⟨a, _, b, _, h⟩ := h
            exact ih _ flag h
          · rw [if_neg he, bind_eq_ok] at h
            obtain ⟨a, ha, h⟩ := h
            cases h
            rw [substr_zero] at ha
            cases ha
            rw [not_not] at hs
            exact Or.inr (Or.inl ⟨find_take_of_npos _ _ _ hs,
              find_take_self _ (by simp) _ hb⟩)
        · rw [if_neg hb] at h
          cases h
          rw [not_not] at hs hb
          exact Or.inr (Or.inl ⟨hs, hb⟩)

theorem remove_comments_idempotent (fuel k : Nat) (line : Str) (flag : Bool) (r : Str × Bool)
    (h : remove_comments fuel line flag = .ok r) :
    remove_comments (k + 1) r.1 false = .ok (r.1, false) :=
  remove_comments_of_stable k r.1 (remove_comments_result_stable fuel line flag r h)

theorem process_line_of_scrubbed (fuel : Nat) (st : tokenizer_state) (flag : Bool)
    (line : Str) (r : Str × Bool) (h : remove_comments fuel line flag = .ok r) :
    process_line fuel st flag line =
      (if trim r.1 = [] then .ok st else process_statement st (trim r.1)).bind
        fun st1 => .ok (st1, r.2) := by
  unfold process_line
  rw [h]
  simp only [Except.bind]
  split_ifs
  · rfl
  · cases process_statement st (trim r.1) with
    | error f => rfl
    | ok st1 => rfl

theorem run_lines_flag_irrelevant (fuel : Nat) (lines : List Str) :
    ∀ (st : tokenizer_state) (flag : Bool) (scrubbed : List Str),
      scrub_lines fuel flag lines = .ok scrubbed →
      (run_lines fuel st false scrubbed).bind (fun x => .ok x.1) =
        ((run_lines fuel st flag lines).bind (fun x => .ok x.1) :
          Except Fault tokenizer_state) := by
  induction lines with
  | nil =>
    intro st flag scrubbed h
    simp only [scrub_lines] at h
    cases h
    rfl
  | cons l ls ih =>
    intro st flag scrubbed h
    simp only [scrub_lines, bind_eq_ok] at h
    obtain ⟨r, hr, rest, hrest, h⟩ := h
    cases h
    cases fuel with
    | zero => simp [remove_comments] at hr
    | succ k =>
      have hi := remove_comments_idempotent (k + 1) k l flag r hr
      simp only [run_lines]
      rw [process_line_of_scrubbed (k + 1) st flag l r hr,
        process_line_of_scrubbed (k + 1) st false r.1 (r.1, false) hi]
      cases (if trim r.1 = [] then Except.ok st else process_statement st (trim r.1)) with
      | error f => rfl
      | ok st1 => exact ih st1 r.2 rest hrest

theorem get_statements_scrubbed (fuel : Nat) (ss scrubbed : List Str)
    (h : scrub_lines fuel false ss = .ok scrubbed) :
    get_statements fuel scrubbed = get_statements fuel ss := by
  have key := run_lines_flag_irrelevant fuel ss initial_state false scrubbed h
  unfold get_statements
  cases h1 : run_lines fuel initial_state false scrubbed with
  | error f =>
    cases h2 : run_lines fuel initial_state false ss with
    | error g =>
      rw [h1, h2] at key
      simp only [Except.bind] at key ⊢
      cases key
      rfl
    | ok y =>
      rw [h1, h2] at key
      simp [Except.bind] at key
  | ok x =>
    cases h2 : run_lines fuel initial_state false ss with
    | error g =>
      rw [h1, h2] at key
      simp [Except.bind] at key
    | ok y =>
      rw [h1, h2] at key
      simp only [Except.bind, Except.ok.injEq] at key ⊢
      rw [key]

/-! ### A `*/` before the `/*` -/

theorem first_occurrence_replicate (c : Char) (p : Str) (hc : c ≠ ' ') (m : Nat) (t : Str) :
    first_occurrence (c :: p) (List.replicate m ' ' ++ t) =
      (first_occurrence (c :: p) t).map (· + m) := by
  induction m with
  | zero => simp
  | succ m ih =>
    rw [List.replicate_succ, List.cons_append, first_occurrence]
    have e : (c :: p).isPrefixOf (' ' :: (List.replicate m ' ' ++ t)) = false := by
      simp [List.isPrefixOf, hc]
    rw [e, ih]
    cases first_occurrence (c :: p) t with
    | none => rfl
    | some i => simp; omega

theorem star_line_find (n : Nat) :
    find (star_line (n + 1)) ['/', '/'] = npos ∧
      find (star_line (n + 1)) ['/', '*'] = n + 3 ∧
      find (star_line (n + 1)) ['*', '/'] = 0 := by
  have t1 : first_occurrence ['/', '/'] ['/', '*'] = none := by decide
  have t2 : first_occurrence ['/', '*'] ['/', '*'] = some 0 := by decide
  have r1 := first_occurrence_replicate '/' ['/'] (by decide) n ['/', '*']
  have r2 := first_occurrence_replicate '/' ['*'] (by decide) n ['/', '*']
  rw [t1] at r1
  rw [t2] at r2
  refine ⟨?_, ?_, ?_⟩
  · simp only [find, star_line, List.replicate_succ, List.cons_append, first_occurrence]
    simp [List.isPrefixOf, r1]
  · simp only [find, star_line, List.replicate_succ, List.cons_append, first_occurrence]
    simp [List.isPrefixOf, r2]
  · simp [find, star_line, first_occurrence, List.isPrefixOf]

theorem star_line_length (m : Nat) : (star_line m).length = m + 4 := by
  simp [star_line]

theorem star_line_step (fuel n : Nat) (h : n + 5 < npos) :
    remove_comments (fuel + 1) (star_line (n + 1)) false =
      remove_comments fuel (star_line (2 * (n + 1))) false := by
  obtain ⟨f1, f2, f3⟩ := star_line_find n
  have hn : star_line (n + 1) ≠ [] := by simp [star_line]
  have e1 : (star_line (n + 1)).take (n + 3) = '*' :: '/' :: List.replicate (n + 1) ' ' := by
    have e : star_line (n + 1) = ('*' :: '/' :: List.replicate (n + 1) ' ') ++ ['/', '*'] := by
      simp [star_line]
    rw [e]
    exact List.take_left' (by simp)
  have e2 : substr (star_line (n + 1)) (size_add 0 2) npos =
      .ok (List.replicate (n + 1) ' ' ++ ['/', '*']) := by
    have hl := star_line_length (n + 1)
    rw [size_add_small _ _ (by unfold npos; omega), substr_npos _ _ (by omega) (by omega)]
    rfl
  have e3 : ∀ m : Nat, ('*' :: '/' :: List.replicate m ' ') ++
      (List.replicate m ' ' ++ ['/', '*']) = star_line (2 * m) := by
    intro m
    rw [star_line, Nat.two_mul, List.replicate_add]
    simp only [List.cons_append, List.append_assoc]
  conv_lhs => unfold remove_comments
  rw [if_neg hn]
  simp only [f1, f2, f3, substr_zero, e1, e2, Except.bind, e3]
  rw [if_neg (by simp), if_neg (by simp), if_pos (by omega), if_pos (by unfold npos; omega)]

theorem star_line_grows (k : Nat) (hk : k ≤ 63) (fuel : Nat) :
    remove_comments (fuel + k) (star_line 1) false =
      remove_comments fuel (star_line (2 ^ k)) false := by
  induction k generalizing fuel with
  | zero => rfl
  | succ k ih =>
    have hpow : 2 ^ k ≤ 2 ^ 62 := Nat.pow_le_pow_right (by decide) (by omega)
    have hpos : 0 < 2 ^ k := Nat.two_pow_pos k
    have e : fuel + (k + 1) = (fuel + 1) + k := by omega
    rw [e, ih (by omega) (fuel + 1)]
    obtain ⟨n, hn⟩ : ∃ n, 2 ^ k = n + 1 := ⟨2 ^ k - 1, by omega⟩
    have h62 : (2 : Nat) ^ 62 = 4611686018427387904 := by norm_num
    rw [hn, star_line_step fuel n (by unfold npos; omega), ← hn, Nat.pow_succ, Nat.mul_comm]

/-! ## Scrubbed lines -/

/-- Every line that `remove_comments` returns is a scrubbed line. -/
theorem scrubbed_of_result (fuel : Nat) (line : Str) (flag : Bool) (r : Str × Bool)
    (h : remove_comments fuel line flag = .ok r) : scrubbed r.1 = true := by
  unfold scrubbed
  exact decide_eq_true (remove_comments_idempotent fuel 0 line flag r h)

theorem remove_comments_of_scrubbed (fuel : Nat) (l : Str) (h : scrubbed l = true) :
    remove_comments (fuel + 1) l false = .ok (l, false) := by
  unfold scrubbed at h
  exact remove_comments_idempotent 1 fuel l false (l, false) (of_decide_eq_true h)

theorem scrubbed_of_clean (l : Str) (h : clean l = true) : scrubbed l = true := by
  unfold scrubbed
  exact decide_eq_true (remove_comments_of_clean 0 l h)

theorem process_line_of_scrubbed_line (fuel : Nat) (st : tokenizer_state) (line : Str)
    (h : scrubbed line = true) :
    process_line (fuel + 1) st false line =
      if trim line = [] then .ok (st, false)
      else (process_statement st (trim line)).bind fun st1 => .ok (st1, false) := by
  unfold process_line
  rw [remove_comments_of_scrubbed fuel line h]
  rfl

theorem run_lines_of_scrubbed (fuel : Nat) (lines : List Str)
    (h : ∀ l ∈ lines, scrubbed l = true) (st : tokenizer_state) :
    run_lines (fuel + 1) st false lines = run_lines 1 st false lines := by
  induction lines generalizing st with
  | nil => rfl
  | cons l ls ih =>
    have hl := h l (List.mem_cons_self _ _)
    have hls : ∀ x ∈ ls, scrubbed x = true := fun x hx => h x (List.mem_cons_of_mem _ hx)
    simp only [run_lines]
    rw [process_line_of_scrubbed_line fuel st l hl, process_line_of_scrubbed_line 0 st l hl]
    by_cases e : trim l = []
    · simp only [e, if_true]
      exact ih hls st
    · simp only [e, if_false]
      cases process_statement st (trim l) with
      | error f => rfl
      | ok st1 => exact ih hls st1

theorem get_statements_of_scrubbed (fuel : Nat) (lines : List Str)
    (h : ∀ l ∈ lines, scrubbed l = true) :
    get_statements (fuel + 1) lines = get_statements 1 lines := by
  unfold get_statements
  rw [run_lines_of_scrubbed fuel lines h]

theorem parse_of_scrubbed (fuel : Nat) (lines : List Str)
    (h : ∀ l ∈ lines, scrubbed l = true) :
    parse (fuel + 1) lines = parse 1 lines := by
  unfold parse
  rw [get_statements_of_scrubbed fuel lines h]

/-- On the line `/*/ library (x) {` `*/` the first `*/` found is the one that overlaps
the opening `/*`, and the splice keeps the text of the comment. -/
theorem remove_comments_overlapping_marker (fuel : Nat) :
    remove_comments (fuel + 2) "/*/ library (x) \x7b */".toList false =
      .ok (" library (x) \x7b */".toList, false) := by
  have e : remove_comments (fuel + 2) "/*/ library (x) \x7b */".toList false =
      remove_comments (fuel + 1) " library (x) \x7b */".toList false := by
    conv_lhs => unfold remove_comments
    rw [if_neg (by decide)]
    have e1 : find "/*/ library (x) \x7b */".toList ['/', '/'] = npos := by decide
    have e2 : find "/*/ library (x) \x7b */".toList ['/', '*'] = 0 := by decide
    have e3 : find "/*/ library (x) \x7b */".toList ['*', '/'] = 1 := by decide
    simp only [e1, e2, e3]
    rfl
  rw [e]
  exact remove_comments_of_clean fuel _ (by decide)

/-! ## Streams without a root -/

theorem run_lines_of_blank (fuel : Nat) (lines : List Str) :
    ∀ (st : tokenizer_state) (flag : Bool) (scrubbed : List Str),
      scrub_lines fuel flag lines = .ok scrubbed → (∀ l ∈ scrubbed, trim l = []) →
      ∃ f, run_lines fuel st flag lines = .ok (st, f) := by
  induction lines with
  | nil =>
    intro st flag scrubbed _ _
    exact ⟨flag, rfl⟩
  | cons l ls ih =>
    intro st flag scrubbed h hb
    simp only [scrub_lines, bind_eq_ok] at h
    obtain ⟨r, hr, rest, hrest, h⟩ := h
    cases h
    have h1 : trim r.1 = [] := hb r.1 (List.mem_cons_self _ _)
    obtain ⟨f, hf⟩ := ih st r.2 rest hrest (fun x hx => hb x (List.mem_cons_of_mem _ hx))
    refine ⟨f, ?_⟩
    simp only [run_lines]
    rw [process_line_of_scrubbed fuel st flag l r hr, if_pos h1]
    exact hf

/-- A stream that the scrubber reduces to blank lines has no root. -/
theorem get_statements_of_blank (fuel : Nat) (ss scrubbed : List Str)
    (h : scrub_lines fuel false ss = .ok scrubbed) (hb : ∀ l ∈ scrubbed, trim l = []) :
    get_statements fuel ss = .ok ([], none) := by
  obtain ⟨f, hf⟩ := run_lines_of_blank fuel ss initial_state false scrubbed h hb
  unfold get_statements
  rw [hf]
  rfl

/-- Whenever `get_statements` produces no root, `parse` returns the null result. -/
theorem parse_of_no_root (fuel : Nat) (ss : List Str) (heap : List statement)
    (h : get_statements fuel ss = .ok (heap, none)) : parse fuel ss = .ok none := by
  unfold parse
  rw [h]
  rfl

/-- A stream that the scrubber reduces to blank lines is parsed to the null result. -/
theorem parse_of_blank (fuel : Nat) (ss scrubbed : List Str)
    (h : scrub_lines fuel false ss = .ok scrubbed) (hb : ∀ l ∈ scrubbed, trim l = []) :
    parse fuel ss = .ok none :=
  parse_of_no_root fuel ss [] (get_statements_of_blank fuel ss scrubbed h hb)

/-! ## Lines inside an ignored group -/

theorem deref_ok_iff (heap : List statement) (p : Option Nat) (s : statement)
    (h : deref heap p = .ok s) : ∃ i, p = some i ∧ heap[i]? = some s := by
  cases p with
  | none => simp [deref] at h
  | some i =>
    refine ⟨i, rfl, ?_⟩
    simp only [deref] at h
    split at h
    · rename_i x hx
      cases h
      exact hx
    · cases h

theorem move_back_none (heap : List statement) (n : Nat) (cg : Option Nat)
    (h : move_back heap n none = .ok cg) : cg = none := by
  cases n with
  | zero =>
    simp only [move_back] at h
    cases h
    rfl
  | succ n => simp [move_back, deref, Except.bind] at h

theorem move_back_cur (heap : List statement)
    (hup : ∀ (i : Nat) (s : statement) (p : Nat), heap[i]? = some s → s.parent = some p →
      ∃ ps : statement, heap[p]? = some ps ∧ ps.is_group = true) :
    ∀ (n : Nat) (cur cg : Option Nat), move_back heap n cur = .ok cg →
      (∀ g : Nat, cur = some g → ∃ gs : statement, heap[g]? = some gs ∧ gs.is_group = true) →
      ∀ g : Nat, cg = some g → ∃ gs : statement, heap[g]? = some gs ∧ gs.is_group = true := by
  intro n
  induction n with
  | zero =>
    intro cur cg h hc
    simp only [move_back] at h
    cases h
    exact hc
  | succ n ih =>
    intro cur cg h _
    simp only [move_back] at h
    rw [bind_eq_ok] at h
    obtain ⟨s, hd, h⟩ := h
    obtain ⟨i, _, hi⟩ := deref_ok_iff _ _ _ hd
    exact ih s.parent cg h (fun g hg => hup i s g hi hg)

theorem tree_inv_move (st : tokenizer_state) (n : Nat) (cg : Option Nat) (d : Int)
    (h : tree_inv st) (hm : move_back st.heap n st.current_group = .ok cg) :
    tree_inv ⟨st.heap, cg, st.root, d⟩ where
  leaf := h.leaf
  up := h.up
  inner := h.inner
  cur := move_back_cur st.heap h.up n st.current_group cg hm h.cur
  fresh := fun hr => by
    obtain ⟨hc, hh⟩ := h.fresh hr
    rw [hc] at hm
    exact ⟨move_back_none _ _ _ hm, hh⟩

theorem tree_inv_depth (st : tokenizer_state) (d : Int) (h : tree_inv st) :
    tree_inv ⟨st.heap, st.current_group, st.root, d⟩ :=
  ⟨h.leaf, h.up, h.inner, h.cur, h.fresh⟩

theorem getElem?_with_child (heap : List statement) (g i c : Nat) (s : statement)
    (h : (heap.modify (with_child c) g)[i]? = some s) :
    ∃ s0, heap[i]? = some s0 ∧ s.parent = s0.parent ∧ s.is_group = s0.is_group ∧
      (i ≠ g → s = s0) := by
  by_cases e : i = g
  · subst e
    rw [List.getElem?_modify_eq] at h
    cases h0 : heap[i]? with
    | none => simp [h0] at h
    | some s0 =>
      rw [h0] at h
      simp only [Option.map_some, Option.some.injEq] at h
      subst h
      exact ⟨s0, rfl, rfl, rfl, fun hn => absurd rfl hn⟩
  · rw [List.getElem?_modify_ne _ _ (Ne.symm e)] at h
    exact ⟨s, h, rfl, rfl, fun _ => rfl⟩

theorem with_child_getElem? (heap : List statement) (g p c : Nat) (ps : statement)
    (h : heap[p]? = some ps) :
    ∃ ps1, (heap.modify (with_child c) g)[p]? = some ps1 ∧ ps1.is_group = ps.is_group := by
  by_cases e : p = g
  · subst e
    rw [List.getElem?_modify_eq, h]
    exact ⟨_, rfl, rfl⟩
  · rw [List.getElem?_modify_ne _ _ (Ne.symm e)]
    exact ⟨ps, h, rfl⟩

theorem getElem?_append_singleton {α : Type} (l : List α) (x s : α) (i : Nat)
    (h : (l ++ [x])[i]? = some s) : l[i]? = some s ∨ (i = l.length ∧ s = x) := by
  by_cases hi : i < l.length
  · rw [List.getElem?_append_left hi] at h
    exact Or.inl h
  · rw [List.getElem?_append_right (by omega)] at h
    have : i - l.length = 0 := by
      by_contra hne
      rw [List.getElem?_eq_none (by simp; omega)] at h
      cases h
    rw [this] at h
    simp only [List.getElem?_cons_zero, Option.some.injEq] at h
    exact Or.inr ⟨by omega, h.symm⟩

theorem getElem?_append_of_some {α : Type} (l r : List α) (s : α) (i : Nat)
    (h : l[i]? = some s) : (l ++ r)[i]? = some s := by
  have hlt : i < l.length := by
    by_contra hn
    rw [List.getElem?_eq_none (by omega)] at h
    cases h
  rw [List.getElem?_append_left hlt, h]

/-- Appending a node under the group `current_group` keeps the shape of the store. -/
theorem tree_inv_grow (st : tokenizer_state) (g : Nat) (node : statement) (cg : Option Nat)
    (h : tree_inv st) (hg : st.current_group = some g) (hp : node.parent = some g)
    (hleaf : node.is_group = false → node.statements = [])
    (hcg : cg = some g ∨ (cg = some st.heap.length ∧ node.is_group = true))
    (hroot : st.root ≠ none) :
    tree_inv ⟨st.heap.modify (with_child st.heap.length) g ++ [node], cg, st.root,
      st.ignore_depth⟩ := by
  obtain ⟨gs, hgs, hgg⟩ := h.cur g hg
  have hlen : (st.heap.modify (with_child st.heap.length) g).length = st.heap.length := by
    simp
  have hkeep : ∀ (p : Nat) (ps : statement), st.heap[p]? = some ps → ∃ ps1 : statement,
      (st.heap.modify (with_child st.heap.length) g ++ [node])[p]? = some ps1 ∧
        ps1.is_group = ps.is_group := by
    intro p ps hps
    obtain ⟨ps1, h1, h2⟩ := with_child_getElem? st.heap g p st.heap.length ps hps
    exact ⟨ps1, getElem?_append_of_some _ _ _ _ h1, h2⟩
  constructor
  · intro s hs hsg
    simp only at hs
    rcases List.mem_append.1 hs with h1 | h1
    · obtain ⟨i, hi⟩ := List.getElem?_of_mem h1
      obtain ⟨s0, h0, _, hig, hne⟩ := getElem?_with_child _ _ _ _ _ hi
      have hig2 : i ≠ g := by
        intro e
        subst e
        rw [hgs] at h0
        cases h0
        rw [hig, hgg] at hsg
        cases hsg
      rw [hne hig2]
      rw [hne hig2] at hsg
      exact h.leaf s0 (List.getElem?_mem h0) hsg
    · rw [List.mem_singleton.1 h1] at hsg ⊢
      exact hleaf hsg
  · intro i s p hi hsp
    simp only at hi ⊢
    rcases getElem?_append_singleton _ _ _ _ hi with h1 | ⟨_, h1⟩
    · obtain ⟨s0, h0, hpar, _, _⟩ := getElem?_with_child _ _ _ _ _ h1
      rw [hpar] at hsp
      obtain ⟨ps, hps, hpg⟩ := h.up i s0 p h0 hsp
      obtain ⟨ps1, hps1, hpg1⟩ := hkeep p ps hps
      exact ⟨ps1, hps1, by rw [hpg1, hpg]⟩
    · rw [h1, hp] at hsp
      cases hsp
      obtain ⟨ps1, hps1, hpg1⟩ := hkeep g gs hgs
      exact ⟨ps1, hps1, by rw [hpg1, hgg]⟩
  · intro i s hi hne
    simp only at hi hne
    rcases getElem?_append_singleton _ _ _ _ hi with h1 | ⟨_, h1⟩
    · obtain ⟨s0, h0, hpar, _, _⟩ := getElem?_with_child _ _ _ _ _ h1
      rw [hpar]
      exact h.inner i s0 h0 hne
    · rw [h1, hp]
      simp
  · intro g1 hg1
    simp only at hg1 ⊢
    rcases hcg with e | ⟨e, hn⟩
    · rw [e] at hg1
      cases hg1
      obtain ⟨ps1, hps1, hpg1⟩ := hkeep g gs hgs
      exact ⟨ps1, hps1, by rw [hpg1, hgg]⟩
    · rw [e] at hg1
      cases hg1
      refine ⟨node, ?_, hn⟩
      rw [List.getElem?_append_right (by omega), hlen]
      simp
  · intro hr
    exact absurd hr hroot

theorem push_back_child_ok (heap heap1 : List statement) (cg : Option Nat) (c : Nat)
    (h : push_back_child heap cg c = .ok heap1) :
    ∃ g, cg = some g ∧ heap1 = heap.modify (with_child c) g := by
  unfold push_back_child at h
  rw [bind_eq_ok] at h
  obtain ⟨s, hd, h⟩ := h
  obtain ⟨g, hg, _⟩ := deref_ok_iff _ _ _ hd
  subst hg
  cases h
  exact ⟨g, rfl, rfl⟩

theorem tree_inv_initial : tree_inv initial_state where
  leaf := fun s hs => by simp [initial_state] at hs
  up := fun i s p hi => by simp [initial_state] at hi
  inner := fun i s hi => by simp [initial_state] at hi
  cur := fun g hg => by simp [initial_state] at hg
  fresh := fun _ => ⟨rfl, rfl⟩

theorem tree_inv_root (st : tokenizer_state) (h : tree_inv st) (hr : st.root = none)
    (group_name name : Str) :
    tree_inv ⟨st.heap ++ [⟨st.current_group, true, group_name, name, []⟩], some st.heap.length,
      some st.heap.length, st.ignore_depth⟩ := by
  obtain ⟨hc, hh⟩ := h.fresh hr
  rw [hc, hh]
  constructor
  · intro s hs hsg
    simp only [List.nil_append, List.mem_singleton] at hs
    rw [hs] at hsg
    cases hsg
  · intro i s p hi hsp
    simp only [List.nil_append] at hi
    cases i with
    | zero =>
      simp only [List.getElem?_cons_zero, Option.some.injEq] at hi
      rw [← hi] at hsp
      cases hsp
    | succ i => simp at hi
  · intro i s hi hne
    simp only [List.nil_append] at hi
    cases i with
    | zero => simp at hne
    | succ i => simp at hi
  · intro g hg
    simp only [List.length_nil, Option.some.injEq] at hg
    subst hg
    exact ⟨_, rfl, rfl⟩
  · intro hr2
    cases hr2

theorem group_statement_tree_inv (st st1 : tokenizer_state) (line : Str)
    (h : group_statement st line = .ok st1) (hi : tree_inv st) : tree_inv st1 := by
  unfold group_statement at h
  simp only [bind_eq_ok] at h
  obtain ⟨s1, _, s2, _, s3, _, h⟩ := h
  by_cases hg : trim s1 ∈ groups_of_interest
  · rw [if_pos hg] at h
    by_cases hr : st.root ≠ none
    · rw [if_pos hr, bind_eq_ok] at h
      obtain ⟨heap1, hp, h⟩ := h
      obtain ⟨g, hcg, he⟩ := push_back_child_ok _ _ _ _ hp
      subst he
      cases h
      exact tree_inv_grow st g _ (some st.heap.length) hi hcg hcg (fun hn => rfl)
        (Or.inr ⟨rfl, rfl⟩) hr
    · rw [if_neg hr] at h
      cases h
      exact tree_inv_root st hi (not_not.1 hr) _ _
  · rw [if_neg hg] at h
    cases h
    exact tree_inv_depth st _ hi

theorem attribute_statement_tree_inv (st st1 : tokenizer_state) (line : Str)
    (h : attribute_statement st line = .ok st1) (hi : tree_inv st) : tree_inv st1 := by
  unfold attribute_statement at h
  simp only at h
  by_cases hc : find line [':'] ≠ npos
  · rw [if_pos hc] at h
    simp only [bind_eq_ok] at h
    obtain ⟨s1, _, s2, _, s3, _, h⟩ := h
    by_cases ha : trim s1 ∈ attributes_of_interest
    · rw [if_pos ha] at h
      by_cases hn : st.current_group ≠ none
      · rw [if_pos hn, bind_eq_ok] at h
        obtain ⟨heap1, hp, h⟩ := h
        obtain ⟨g, hcg, he⟩ := push_back_child_ok _ _ _ _ hp
        subst he
        cases h
        have hroot : st.root ≠ none := fun hr => hn (hi.fresh hr).1
        have := tree_inv_grow st g ⟨st.current_group, false, trim s1, trim s3, []⟩
          st.current_group hi hcg hcg (fun _ => rfl) (Or.inl hcg) hroot
        exact this
      · rw [if_neg hn] at h
        cases h; exact hi
    · rw [if_neg ha] at h
      cases h; exact hi
  · rw [if_neg hc] at h
    cases h; exact hi

theorem close_brackets_tree_inv (st st1 : tokenizer_state) (line : Str)
    (h : close_brackets st line = .ok st1) (hi : tree_inv st) : tree_inv st1 := by
  unfold close_brackets at h
  rw [bind_eq_ok] at h
  obtain ⟨cg, hm, h⟩ := h
  cases h
  exact tree_inv_move st _ cg st.ignore_depth hi hm

theorem ignored_line_tree_inv (st st1 : tokenizer_state) (line : Str)
    (h : ignored_line st line = .ok st1) (hi : tree_inv st) : tree_inv st1 := by
  unfold ignored_line at h
  simp only at h
  split_ifs at h
  · rw [bind_eq_ok] at h
    obtain ⟨cg, hm, h⟩ := h
    cases h
    exact tree_inv_move st _ cg 0 hi hm
  · cases h
    exact tree_inv_depth st _ hi

theorem process_statement_tree_inv (st st1 : tokenizer_state) (line : Str)
    (h : process_statement st line = .ok st1) (hi : tree_inv st) : tree_inv st1 := by
  unfold process_statement at h
  simp only at h
  split_ifs at h
  · exact ignored_line_tree_inv _ _ _ h hi
  · rw [bind_eq_ok] at h
    obtain ⟨st2, h2, h⟩ := h
    exact close_brackets_tree_inv _ _ _ h (group_statement_tree_inv _ _ _ h2 hi)
  · rw [bind_eq_ok] at h
    obtain ⟨st2, h2, h⟩ := h
    exact close_brackets_tree_inv _ _ _ h (attribute_statement_tree_inv _ _ _ h2 hi)
  · exact close_brackets_tree_inv _ _ _ h hi

theorem process_line_tree_inv (fuel : Nat) (st : tokenizer_state) (mlc : Bool) (raw : Str)
    (r : tokenizer_state × Bool) (h : process_line fuel st mlc raw = .ok r)
    (hi : tree_inv st) : tree_inv r.1 := by
  unfold process_line at h
  rw [bind_eq_ok] at h
  obtain ⟨x, _, h⟩ := h
  simp only at h
  split_ifs at h
  · cases h; exact hi
  · rw [bind_eq_ok] at h
    obtain ⟨st2, h2, h⟩ := h
    cases h
    exact process_statement_tree_inv _ _ _ h2 hi

theorem run_lines_tree_inv (fuel : Nat) (lines : List Str) (st : tokenizer_state)
    (mlc : Bool) (r : tokenizer_state × Bool) (h : run_lines fuel st mlc lines = .ok r)
    (hi : tree_inv st) : tree_inv r.1 := by
  induction lines generalizing st mlc with
  | nil =>
    simp only [run_lines] at h
    cases h
    exact hi
  | cons l ls ih =>
    simp only [run_lines] at h
    rw [bind_eq_ok] at h
    obtain ⟨x, h1, h⟩ := h
    exact ih x.1 x.2 h (process_line_tree_inv _ _ _ _ _ h1 hi)

theorem get_statements_tree_inv (fuel : Nat) (ss : List Str) (heap : List statement)
    (root : Option Nat) (h : get_statements fuel ss = .ok (heap, root)) :
    ∃ cg d, tree_inv ⟨heap, cg, root, d⟩ := by
  unfold get_statements at h
  rw [bind_eq_ok] at h
  obtain ⟨r, h1, h⟩ := h
  cases h
  exact ⟨r.1.current_group, r.1.ignore_depth, run_lines_tree_inv _ _ _ _ _ h1 tree_inv_initial⟩

/-! ## The last write to a field of a cell -/

/-- C5: for every intermediate library `get_gate_library` returns a catalog in which every
key of `gate_to_input_map`, `gate_to_inout_map` and `gate_to_output_map` is a member of
`gate_types` and every pin listed under a key is a member of the global pin set of the
same direction; the universally quantified key covers the synthesized `GLOBAL_GND` and
`GLOBAL_VCC` entries. -/
theorem catalog_invariant_holds (il : intermediate_library) :
    ∃ lib, get_gate_library (some il) = .ok lib ∧ catalog_invariant lib :=
  ⟨_, rfl, synthesize_defaults_invariant _ (lowered_catalog_invariant il)⟩

/-- C6: when the cell names of an intermediate library are pairwise distinct and none is
`GLOBAL_GND` or `GLOBAL_VCC`, then for every cell `c` of the library and every direction
the entry of `c.name` in the map of that direction (an absent key read as the empty
sequence) is the sequence of names of the pins of `c` with exactly that direction, in the
order of `c.pins`. -/
theorem gate_to_map_is_pins_in_order (il : intermediate_library)
    (hd : (il.cells.map cell.name).Nodup)
    (hg : "GLOBAL_GND".toList ∉ il.cells.map cell.name)
    (hv : "GLOBAL_VCC".toList ∉ il.cells.map cell.name)
    (c : cell) (hc : c ∈ il.cells) :
    ∃ lib, get_gate_library (some il) = .ok lib ∧
      (lib.gate_to_input_map c.name).getD [] = pins_of_direction "input".toList c ∧
      (lib.gate_to_inout_map c.name).getD [] = pins_of_direction "inout".toList c ∧
      (lib.gate_to_output_map c.name).getD [] = pins_of_direction "output".toList c := by
  have hcg : c.name ≠ "GLOBAL_GND".toList := fun e => hg (e ▸ List.mem_map.2 ⟨c, hc, rfl⟩)
  have hcv : c.name ≠ "GLOBAL_VCC".toList := fun e => hv (e ▸ List.mem_map.2 ⟨c, hc, rfl⟩)
  have key : ∀ d ∈ directions,
      (map_of_direction d (synthesize_defaults
        (il.cells.foldl lower_cell (new_gate_library il.name))) c.name).getD [] =
        pins_of_direction d c := by
    intro d hdir
    rw [synthesize_defaults_map d _ _ hcg hcv, lowered_map_getD d hdir,
      pins_collected_of_nodup d il.cells hd c hc]
  have h1 := key "input".toList (by simp [directions])
  have h2 := key "inout".toList (by simp [directions])
  have h3 := key "output".toList (by simp [directions])
  rw [map_of_direction_input] at h1
  rw [map_of_direction_inout] at h2
  rw [map_of_direction_output] at h3
  exact ⟨_, rfl, h1, h2, h3⟩

/-- Witness for C6: the library of scenario S1, at its cell `BUF`. -/
theorem gate_to_map_is_pins_in_order_witness :
    (buffer_library.cells.map cell.name).Nodup ∧
    "GLOBAL_GND".toList ∉ buffer_library.cells.map cell.name ∧
    "GLOBAL_VCC".toList ∉ buffer_library.cells.map cell.name ∧
    ∃ lib, get_gate_library (some buffer_library) = .ok lib ∧
      (lib.gate_to_input_map "BUF".toList).getD [] = ["A".toList] ∧
      (lib.gate_to_inout_map "BUF".toList).getD [] = [] ∧
      (lib.gate_to_output_map "BUF".toList).getD [] = ["Y".toList] :=
  ⟨by decide, by decide, by decide,
    gate_to_map_is_pins_in_order buffer_library (by decide) (by decide) (by decide)
      { new_cell "BUF".toList with
          pins := [{ new_pin "A".toList with direction := "input".toList },
                   { new_pin "Y".toList with
                      direction := "output".toList, function := "A".toList }] }
      (by decide)⟩

/-- C7: a name is in `global_gnd_gate_types` of the returned catalog if and only if some
cell with that name has an output pin with function `0`, or the name is `GLOBAL_GND` and
no cell of the library has such a pin; so the set is never empty. -/
theorem global_gnd_gate_types_iff (il : intermediate_library) :
    ∃ lib, get_gate_library (some il) = .ok lib ∧
      (∀ n, n ∈ lib.global_gnd_gate_types ↔
        (∃ c ∈ il.cells, c.name = n ∧ has_output_function "0".toList c = true) ∨
        (n = "GLOBAL_GND".toList ∧
          ¬ ∃ c ∈ il.cells, has_output_function "0".toList c = true)) ∧
      lib.global_gnd_gate_types ≠ ∅ := by
  refine ⟨_, rfl, ?_, ?_⟩
  · intro n
    rw [synthesize_defaults_gnd, lowered_gnd]
    by_cases h0 : tie_cells "0".toList il = ∅
    · have hno := (tie_cells_eq_empty _ il).1 h0
      have hnone : ¬ ∃ c ∈ il.cells, c.name = n ∧ has_output_function "0".toList c = true :=
        fun ⟨c, hc, _, hf⟩ => hno ⟨c, hc, hf⟩
      rw [if_pos h0, Finset.mem_singleton]
      constructor
      · intro hn; exact Or.inr ⟨hn, hno⟩
      · rintro (hn | hn)
        · exact absurd hn hnone
        · exact hn.1
    · have hsome : ∃ c ∈ il.cells, has_output_function "0".toList c = true := by
        by_contra hcon
        exact h0 ((tie_cells_eq_empty _ il).2 hcon)
      rw [if_neg h0, mem_tie_cells]
      constructor
      · intro hn; exact Or.inl hn
      · rintro (hn | hn)
        · exact hn
        · exact absurd hsome hn.2
  · rw [synthesize_defaults_gnd, lowered_gnd]
    split_ifs with h0
    · exact Finset.singleton_ne_empty _
    · exact h0

/-- C8: the VCC default is coupled to the GND default by the else-if: in the returned
catalog `global_vcc_gate_types` is the set of names of the cells having an output pin with
function `1` when that set is not empty; it is `GLOBAL_VCC` alone when there is no such
cell but some cell has an output pin with function `0`; and it is empty when there is
neither, in which case only `GLOBAL_GND` is synthesized. -/
theorem global_vcc_gate_types_else_if (il : intermediate_library) :
    ∃ lib, get_gate_library (some il) = .ok lib ∧
      lib.global_vcc_gate_types =
        (if tie_cells "1".toList il ≠ ∅ then tie_cells "1".toList il
         else if tie_cells "0".toList il ≠ ∅ then {"GLOBAL_VCC".toList}
         else ∅) ∧
      lib.global_gnd_gate_types =
        (if tie_cells "0".toList il ≠ ∅ then tie_cells "0".toList il
         else {"GLOBAL_GND".toList}) := by
  refine ⟨_, rfl, ?_, ?_⟩
  · rw [synthesize_defaults_vcc, lowered_gnd, lowered_vcc]
    by_cases h1 : tie_cells "1".toList il = ∅
    · by_cases h0 : tie_cells "0".toList il = ∅
      · rw [if_pos h0, if_neg (not_not.2 h1), if_neg (not_not.2 h0), h1]
      · rw [if_neg h0, if_pos h1, if_neg (not_not.2 h1), if_pos h0]
    · by_cases h0 : tie_cells "0".toList il = ∅
      · rw [if_pos h0, if_pos h1]
      · rw [if_neg h0, if_neg h1, if_pos h1]
  · rw [synthesize_defaults_gnd, lowered_gnd]
    by_cases h0 : tie_cells "0".toList il = ∅
    · rw [if_pos h0, if_neg (not_not.2 h0)]
    · rw [if_neg h0, if_pos h0]

/-- C9, amended: when no cell has an output pin with function `0`, the returned catalog
has `GLOBAL_GND` in `gate_types` and `O` in `output_pin_types`, and the entry of
`GLOBAL_GND` in `gate_to_output_map` is the output pins of the cells of the library that
are themselves named `GLOBAL_GND`, in order, followed by `O`; it is `O` alone when no
cell named `GLOBAL_GND` has an output pin. -/
theorem global_gnd_entry (il : intermediate_library)
    (h : ∀ c ∈ il.cells, has_output_function "0".toList c = false) :
    ∃ lib, get_gate_library (some il) = .ok lib ∧
      lib.gate_to_output_map "GLOBAL_GND".toList =
        some (pins_collected "output".toList "GLOBAL_GND".toList il.cells ++ ["O".toList]) ∧
      ((∀ c ∈ il.cells, c.name = "GLOBAL_GND".toList →
          pins_of_direction "output".toList c = []) →
        lib.gate_to_output_map "GLOBAL_GND".toList = some ["O".toList]) ∧
      "GLOBAL_GND".toList ∈ lib.gate_types ∧ "O".toList ∈ lib.output_pin_types := by
  have h0 : (il.cells.foldl lower_cell (new_gate_library il.name)).global_gnd_gate_types = ∅ := by
    rw [lowered_gnd, tie_cells_eq_empty]
    rintro ⟨c, hc, hf⟩
    rw [h c hc] at hf
    cases hf
  obtain ⟨h1, h2, h3⟩ := synthesize_defaults_of_gnd_empty _ h0
  have h4 := lowered_map_getD "output".toList (by simp [directions]) il "GLOBAL_GND".toList
  rw [map_of_direction_output] at h4
  rw [h4] at h1
  refine ⟨_, rfl, h1, ?_, h2, h3⟩
  intro hnone
  have e : pins_collected "output".toList "GLOBAL_GND".toList il.cells = [] := by
    unfold pins_collected
    rw [List.flatMap_eq_nil_iff]
    intro c hc
    rw [List.mem_filter] at hc
    exact hnone c hc.1 (by simpa using hc.2)
  rw [h1, e]
  rfl

/-- Witness for C9: the library of scenario S1, which has no cell named `GLOBAL_GND`. -/
theorem global_gnd_entry_witness :
    (∀ c ∈ buffer_library.cells, has_output_function "0".toList c = false) ∧
    ∃ lib, get_gate_library (some buffer_library) = .ok lib ∧
      lib.gate_to_output_map "GLOBAL_GND".toList = some ["O".toList] ∧
      "GLOBAL_GND".toList ∈ lib.gate_types ∧ "O".toList ∈ lib.output_pin_types := by
  refine ⟨by decide, ?_⟩
  obtain ⟨lib, h1, _, h3, h4, h5⟩ := global_gnd_entry buffer_library (by decide)
  exact ⟨lib, h1, h3 (by decide), h4, h5⟩

/-- C9, counterexample: in a library whose only cell is named `GLOBAL_GND` and has the
output pin `X` with no function, no cell has an output pin with function `0`, yet the
entry of `GLOBAL_GND` in `gate_to_output_map` is `X` followed by `O`, not `O` alone. -/
theorem global_gnd_entry_counterexample :
    (∀ c ∈ clash_library.cells, has_output_function "0".toList c = false) ∧
    ∃ lib, get_gate_library (some clash_library) = .ok lib ∧
      lib.gate_to_output_map "GLOBAL_GND".toList = some ["X".toList, "O".toList] ∧
      lib.gate_to_output_map "GLOBAL_GND".toList ≠ some ["O".toList] :=
  ⟨by decide, _, rfl, by decide, by decide⟩

/-! ## Properties of the entry point and the scrubber -/

/-- C2: on the stream `cell (X) {` the tokenizer returns a root named `cell`, the lifter
returns the null pointer for it, and `parse` then reads the name of the absent
intermediate library instead of returning the null result. -/
theorem parse_wrong_root_faults (fuel : Nat) :
    get_statements (fuel + 1) wrong_root_text =
        .ok ([⟨none, true, "cell".toList, "X".toList, []⟩], some 0) ∧
      get_intermediate_library [⟨none, true, "cell".toList, "X".toList, []⟩] (some 0) =
        .ok none ∧
      parse (fuel + 1) wrong_root_text = .error .null_dereference := by
  have h : get_statements (fuel + 1) wrong_root_text =
      .ok ([⟨none, true, "cell".toList, "X".toList, []⟩], some 0) := by
    rw [get_statements_of_clean fuel _ (by decide)]
    decide
  exact ⟨h, by decide, parse_of_wrong_root _ _ _ 0 _ h rfl (by decide)⟩

/-- C3: on the line `a /* b */ // c`, outside a block comment, the scrubber returns the
line unchanged, so the returned line still contains both comment markers. -/
theorem remove_comments_keeps_markers (fuel : Nat) :
    remove_comments (fuel + 1) block_then_line_comment false =
        .ok (block_then_line_comment, false) ∧
      find block_then_line_comment ['/', '/'] = 10 ∧
      find block_then_line_comment ['/', '*'] = 2 :=
  ⟨remove_comments_block_before_line fuel _ (by decide) (by decide) (by decide),
    by decide, by decide⟩

/-- C4: with a `timing` block that opens and closes on one line placed before the pin of
a cell, the tokenizer returns a tree without the pin (the library and the cell only),
while for the text without the block it returns the tree with the pin and its
direction. -/
theorem single_line_block_drops_pin (fuel : Nat) :
    get_statements (fuel + 1) timing_text =
        .ok ([⟨none, true, "library".toList, "demo".toList, [1]⟩,
              ⟨some 0, true, "cell".toList, "BUF".toList, []⟩], some 0) ∧
      get_statements (fuel + 1) timing_removed_text =
        .ok ([⟨none, true, "library".toList, "demo".toList, [1]⟩,
              ⟨some 0, true, "cell".toList, "BUF".toList, [2]⟩,
              ⟨some 1, true, "pin".toList, "A".toList, [3]⟩,
              ⟨some 2, false, "direction".toList, "input".toList, []⟩], some 0) := by
  rw [get_statements_of_clean fuel _ (by decide), get_statements_of_clean fuel _ (by decide)]
  exact ⟨by decide, by decide⟩

/-- C1, counterexample: parsing the six-line text of scenario S1 yields a catalog named
`demo` with `BUF` among its gate types, but `BUF` is a key of neither
`gate_to_input_map` nor `gate_to_output_map`: the attributes written on the line that
opens a pin are not read. -/
theorem s1_text_counterexample :
    ∃ lib, parse 1 s1_text = .ok (some lib) ∧ lib.name = "demo".toList ∧
      "BUF".toList ∈ lib.gate_types ∧
      lib.gate_to_input_map "BUF".toList = none ∧
      lib.gate_to_output_map "BUF".toList = none ∧
      lib.gate_to_input_map "BUF".toList ≠ some ["A".toList] ∧
      lib.gate_to_output_map "BUF".toList ≠ some ["Y".toList] :=
  ⟨_, rfl, by decide, by decide, by decide, by decide, by decide, by decide⟩

/-- C10, counterexample: for the text of scenario S3 the lifter returns the cell `DFF`
with `is_ff` false and `clocked_on` and `next_state` unset. -/
theorem s3_text_counterexample :
    (get_statements 1 s3_text).bind (fun tree => get_intermediate_library tree.1 tree.2) =
      .ok (some ⟨"demo".toList, [new_cell "DFF".toList]⟩) ∧
    (new_cell "DFF".toList).is_ff = false ∧
    (new_cell "DFF".toList).clocked_on = [] ∧
    (new_cell "DFF".toList).next_state = [] := by
  decide

/-- C10, amended: for every library text, every cell of the intermediate library obtained
by `get_intermediate_library` from the tree of `get_statements` has `is_ff` false and
`clocked_on` and `next_state` unset: `ff` is not a group of interest, so the tree never
holds an `ff` group. -/
theorem lifted_cell_is_never_ff (fuel : Nat) (ss : List Str) (heap : List statement)
    (root : Option Nat) (il : intermediate_library)
    (h1 : get_statements fuel ss = .ok (heap, root))
    (h2 : get_intermediate_library heap root = .ok (some il)) :
    ∀ c ∈ il.cells, c.is_ff = false ∧ c.clocked_on = [] ∧ c.next_state = [] := by
  intro c hc
  have h := get_intermediate_library_sequential heap
    (get_statements_well_named fuel ss heap root h1) root il h2 c hc
  simp only [sequential_part, new_cell, Prod.mk.injEq] at h
  exact ⟨h.1, h.2.2.1, h.2.2.2.1⟩

/-- Witness for C10: the library of scenario S3 with the `ff` group laid out one
statement per line. -/
theorem lifted_cell_is_never_ff_witness :
    get_statements 1 s3_lines_text =
        .ok ([⟨none, true, "library".toList, "demo".toList, [1]⟩,
              ⟨some 0, true, "cell".toList, "DFF".toList, []⟩], some 0) ∧
      get_intermediate_library
          [⟨none, true, "library".toList, "demo".toList, [1]⟩,
           ⟨some 0, true, "cell".toList, "DFF".toList, []⟩] (some 0) =
        .ok (some ⟨"demo".toList, [new_cell "DFF".toList]⟩) ∧
      ∀ c ∈ [new_cell "DFF".toList], c.is_ff = false ∧ c.clocked_on = [] ∧ c.next_state = [] :=
  ⟨by decide, by decide,
    lifted_cell_is_never_ff 1 s3_lines_text
      [⟨none, true, "library".toList, "demo".toList, [1]⟩,
       ⟨some 0, true, "cell".toList, "DFF".toList, []⟩] (some 0)
      ⟨"demo".toList, [new_cell "DFF".toList]⟩ (by decide) (by decide)⟩

/-- C1, amended: a library whose names, directions and functions are free of special
characters, written one statement per line (each `pin (P) {`, `direction : D ;`,
`function : "F" ;` and `}` on a line of its own), is parsed into the catalog that
`get_gate_library` builds from it: the catalog carries the library name, and every pin
is listed in the map of its direction under the name of its cell. -/
theorem parse_one_statement_per_line (fuel : Nat) (il : intermediate_library)
    (h : renderable il = true) :
    ∃ lib, parse (fuel + 1) (render_library il) = .ok (some lib) ∧
      get_gate_library (some il) = .ok lib ∧ lib.name = il.name ∧
      ∀ c ∈ il.cells, ∀ p ∈ c.pins,
        (p.direction = "input".toList →
          p.name ∈ (lib.gate_to_input_map c.name).getD []) ∧
        (p.direction = "inout".toList →
          p.name ∈ (lib.gate_to_inout_map c.name).getD []) ∧
        (p.direction = "output".toList →
          p.name ∈ (lib.gate_to_output_map c.name).getD []) := by
  refine ⟨_, parse_render_library fuel il h, rfl, ?_, ?_⟩
  · rw [synthesize_defaults_name, fold_lower_cell_name]
    rfl
  · intro c hc p hp
    have k1 := mem_gate_to_map "input".toList (by simp [directions]) il c hc p hp
    have k2 := mem_gate_to_map "inout".toList (by simp [directions]) il c hc p hp
    have k3 := mem_gate_to_map "output".toList (by simp [directions]) il c hc p hp
    rw [map_of_direction_input] at k1
    rw [map_of_direction_inout] at k2
    rw [map_of_direction_output] at k3
    exact ⟨k1, k2, k3⟩

/-- Witness for C1: scenario S1 written one statement per line yields the catalog
named `demo` in which the inputs of `BUF` are `A` and its outputs are `Y`. -/
theorem parse_one_statement_per_line_witness :
    renderable buffer_library = true ∧ render_library buffer_library = s1_lines_text ∧
    ∃ lib, parse 1 s1_lines_text = .ok (some lib) ∧ lib.name = "demo".toList ∧
      lib.gate_to_input_map "BUF".toList = some ["A".toList] ∧
      lib.gate_to_output_map "BUF".toList = some ["Y".toList] := by
  refine ⟨by decide, by decide, ?_⟩
  obtain ⟨lib, h1, h2, h3, _⟩ := parse_one_statement_per_line 0 buffer_library (by decide)
  have e : render_library buffer_library = s1_lines_text := by decide
  rw [e] at h1
  refine ⟨lib, h1, h3, ?_, ?_⟩
  · cases h2
    decide
  · cases h2
    decide

/-! ## Properties of quote stripping -/

/-- C11: for every string with at least two double quotes, `prepare_string` returns
exactly the characters strictly between the first and the last double quote: the string
is `a`, a quote, `m`, a quote, `b` with no quote in `a` nor in `b`, and the result is
`m`. -/
theorem prepare_string_between_quotes (s : Str) (hl : s.length < npos)
    (h : 2 ≤ s.count dquote) :
    ∃ a m b, s = a ++ dquote :: (m ++ dquote :: b) ∧ dquote ∉ a ∧ dquote ∉ b ∧
      prepare_string s = .ok m := by
  rcases prepare_string_cases s hl with ⟨h0, _⟩ | ⟨h1, _⟩ | ⟨_, h2⟩
  · omega
  · omega
  · exact h2

/-- Witness for C11: `prepare_string` of `"A"` is `A`. -/
theorem prepare_string_between_quotes_witness :
    quoted_a.length < npos ∧ 2 ≤ quoted_a.count dquote ∧
      prepare_string quoted_a = .ok ['A'] ∧
      ∃ a m b, quoted_a = a ++ dquote :: (m ++ dquote :: b) ∧ dquote ∉ a ∧ dquote ∉ b ∧
        prepare_string quoted_a = .ok m :=
  ⟨by decide, by decide, by decide,
    prepare_string_between_quotes quoted_a (by decide) (by decide)⟩

/-- C20: `prepare_string` fails, with the out-of-range substring position, if and only
if its input contains exactly one double quote; on an input without a double quote it
returns the input unchanged. -/
theorem prepare_string_fails_iff (s : Str) (hl : s.length < npos) :
    (prepare_string s = .error .out_of_range ↔ s.count dquote = 1) ∧
    (∀ f, prepare_string s = .error f → f = .out_of_range) ∧
    (s.count dquote = 0 → prepare_string s = .ok s) := by
  rcases prepare_string_cases s hl with ⟨h0, e⟩ | ⟨h1, e⟩ | ⟨h2, a, m, b, _, _, _, e⟩
  · refine ⟨⟨fun h => ?_, fun h => ?_⟩, fun f h => ?_, fun _ => e⟩
    · rw [e] at h; cases h
    · omega
    · rw [e] at h; cases h
  · refine ⟨⟨fun _ => h1, fun _ => e⟩, fun f h => ?_, fun h => ?_⟩
    · rw [e] at h; cases h; rfl
    · omega
  · refine ⟨⟨fun h => ?_, fun h => ?_⟩, fun f h => ?_, fun h => ?_⟩
    · rw [e] at h; cases h
    · omega
    · rw [e] at h; cases h
    · omega

/-- Witness for C20: a value with one double quote. -/
theorem prepare_string_fails_iff_witness :
    one_quote.length < npos ∧ one_quote.count dquote = 1 ∧
      prepare_string one_quote = .error .out_of_range :=
  ⟨by decide, by decide,
    ((prepare_string_fails_iff one_quote (by decide)).1).2 (by decide)⟩

/-! ## Properties of the scrubber -/

/-- C12: a line processed with the block-comment flag set comes back empty, with the flag
still set, when it contains no `*/`; when its first `*/` is at index `j`, the loop goes on
with the suffix of the line starting at `j + 2` and the flag cleared, so the result is the
result of `remove_comments` on that suffix. -/
theorem block_comment_continuation (fuel : Nat) (line : Str) (hl : line.length < npos) :
    (first_occurrence ['*', '/'] line = none →
      remove_comments (fuel + 1) line true = .ok ([], true)) ∧
    (∀ j, first_occurrence ['*', '/'] line = some j →
      remove_comments (fuel + 1) line true = remove_comments fuel (line.drop (j + 2)) false) := by
  constructor
  · intro h
    have e : find line ['*', '/'] = npos := by simp [find, h]
    unfold remove_comments
    by_cases hn : line = []
    · simp [hn]
    · simp [hn, e]
  · intro j h
    have hb := first_occurrence_bound _ _ _ h
    simp only [List.length_cons, List.length_nil] at hb
    have e : find line ['*', '/'] = j := by simp [find, h]
    have hn : line ≠ [] := by
      intro e0
      rw [e0] at hb
      simp at hb
    conv_lhs => unfold remove_comments
    rw [if_neg hn]
    simp only [e, if_true]
    rw [if_pos (by omega), size_add_small _ _ (by omega),
      substr_npos _ _ (by omega) (by omega)]
    rfl

/-- Witness for C12: the line `hidden */ shown // gone` inside a block comment. -/
theorem block_comment_continuation_witness :
    comment_end_line.length < npos ∧
      first_occurrence ['*', '/'] comment_end_line = some 7 ∧
      remove_comments 3 comment_end_line true =
        remove_comments 2 (comment_end_line.drop 9) false ∧
      remove_comments 3 comment_end_line true = .ok (" shown ".toList, false) :=
  ⟨by decide, by decide,
    (block_comment_continuation 2 comment_end_line (by decide)).2 7 (by decide), by decide⟩

/-- C13: scrubbing is idempotent: a line that `remove_comments` returns is returned
unchanged, with the flag cleared, when `remove_comments` is applied to it with the flag
cleared; hence `get_statements` returns the same tree for the stream of scrubbed lines as
for the original stream. -/
theorem scrubbing_is_idempotent (fuel k : Nat) (line : Str) (flag : Bool) (r : Str × Bool)
    (ss scrubbed : List Str) (h1 : remove_comments fuel line flag = .ok r)
    (h2 : scrub_lines fuel false ss = .ok scrubbed) :
    remove_comments (k + 1) r.1 false = .ok (r.1, false) ∧
      get_statements fuel scrubbed = get_statements fuel ss :=
  ⟨remove_comments_idempotent fuel k line flag r h1, get_statements_scrubbed fuel ss scrubbed h2⟩

/-- Witness for C13: a stream with a line comment and block comments. -/
theorem scrubbing_is_idempotent_witness :
    remove_comments 3 comment_end_line true = .ok (" shown ".toList, false) ∧
      scrub_lines 3 false commented_text = .ok commented_text_scrubbed ∧
      remove_comments 1 " shown ".toList false = .ok (" shown ".toList, false) ∧
      get_statements 3 commented_text_scrubbed = get_statements 3 commented_text ∧
      get_statements 3 commented_text =
        .ok ([⟨none, true, "library".toList, "demo".toList, []⟩], some 0) :=
  ⟨by decide, by decide,
    (scrubbing_is_idempotent 3 0 comment_end_line true (" shown ".toList, false)
      commented_text commented_text_scrubbed (by decide) (by decide)).1,
    (scrubbing_is_idempotent 3 0 comment_end_line true (" shown ".toList, false)
      commented_text commented_text_scrubbed (by decide) (by decide)).2,
    by decide⟩

/-- C17: on the line `*/ /*` the loop of `remove_comments` lengthens the line at every
iteration: after `k` iterations, for every `k` up to 63, it is still running, on the line
`*/`, `2 ^ k` blanks, `/*`; no budget of up to 63 iterations lets it return. -/
theorem remove_comments_lengthens (k : Fin 64) (fuel : Nat) :
    remove_comments (fuel + k) "*/ /*".toList false =
        remove_comments fuel (star_line (2 ^ k.val)) false ∧
      (star_line (2 ^ k.val)).length = 2 ^ k.val + 4 ∧
      remove_comments k "*/ /*".toList false = .error .out_of_fuel := by
  have e : "*/ /*".toList = star_line 1 := by decide
  have hk : k.val ≤ 63 := by omega
  refine ⟨?_, star_line_length _, ?_⟩
  · rw [e]
    exact star_line_grows k.val hk fuel
  · have h := star_line_grows k.val hk 0
    rw [Nat.zero_add] at h
    rw [e, h]
    rfl

/-! ## Properties of the tokenizer -/

/-- C14: a stream made only of a comment is not always parsed to the null result. On
the one-line stream `/*/ library (x) {` `*/`, a single block comment, the scrubber keeps
the text of the comment, the tokenizer returns a root, and `parse` builds a catalog named
`x`; on the one-line stream `/* }` `*/ // c` the scrubber returns the line unchanged and
the tokenizer moves to the parent of the null `current_group`. -/
theorem parse_of_comment_only_stream (fuel : Nat) :
    remove_comments (fuel + 2) "/*/ library (x) \x7b */".toList false =
      .ok (" library (x) \x7b */".toList, false) ∧
    get_statements (fuel + 2) comment_library_text =
      .ok ([⟨none, true, "library".toList, "x".toList, []⟩], some 0) ∧
    (∃ lib, parse (fuel + 2) comment_library_text = .ok (some lib) ∧
      lib.name = "x".toList) ∧
    remove_comments (fuel + 1) "/* \x7d */ // c".toList false =
      .ok ("/* \x7d */ // c".toList, false) ∧
    get_statements (fuel + 1) comment_close_text = .error .null_dereference ∧
    parse (fuel + 1) comment_close_text = .error .null_dereference := by
  have hs : scrub_lines (fuel + 2) false comment_library_text =
      .ok [" library (x) \x7b */".toList] := by
    simp only [comment_library_text, scrub_lines, remove_comments_overlapping_marker fuel]
    rfl
  have hg : get_statements (fuel + 2) comment_library_text =
      get_statements 1 [" library (x) \x7b */".toList] := by
    rw [← get_statements_scrubbed (fuel + 2) _ _ hs,
      get_statements_of_clean (fuel + 1) _ (by decide)]
  have hp : parse (fuel + 2) comment_library_text =
      parse 1 [" library (x) \x7b */".toList] := by
    unfold parse
    rw [hg]
  have hc : ∀ l ∈ comment_close_text, scrubbed l = true := by decide
  refine ⟨remove_comments_overlapping_marker fuel, ?_, ?_, ?_, ?_, ?_⟩
  · rw [hg]
    decide
  · rw [hp]
    exact ⟨_, rfl, by decide⟩
  · exact remove_comments_of_scrubbed fuel _ (by decide)
  · rw [get_statements_of_scrubbed fuel _ hc]
    decide
  · have hget : get_statements (fuel + 1) comment_close_text = .error .null_dereference := by
      rw [get_statements_of_scrubbed fuel _ hc]
      decide
    unfold parse
    rw [hget]
    rfl

/-- C18: on a stream whose only line is `}` the tokenizer moves to the parent of the null
`current_group`, and on a stream with a second group of interest after the root group has
been closed it appends a child to the null `current_group`. -/
theorem get_statements_null_current_group (fuel : Nat) :
    get_statements (fuel + 1) stray_close_text = .error .null_dereference ∧
      get_statements (fuel + 1) reopened_text = .error .null_dereference := by
  rw [get_statements_of_clean fuel _ (by decide), get_statements_of_clean fuel _ (by decide)]
  exact ⟨by decide, by decide⟩

/-! ## Unknown blocks over several lines -/

/-- C15: when `get_statements` returns a root, every node of the store is well formed: a
group node has a name among `library`, `cell`, `pin`; an attribute node has a name among
`direction`, `function`, `three_state`, `x_function` and has no children; and every node
other than the root has a parent that is a group node. Consequently every cell that
`get_intermediate_library` lifts from that tree has `is_ff` and `is_latch` false. -/
theorem returned_tree_shape (fuel : Nat) (ss : List Str) (heap : List statement) (r : Nat)
    (h : get_statements fuel ss = .ok (heap, some r)) :
    (∀ (i : Nat) (s : statement), heap[i]? = some s →
      (s.is_group = true → s.name ∈ groups_of_interest) ∧
      (s.is_group = false → s.name ∈ attributes_of_interest ∧ s.statements = []) ∧
      (i ≠ r → ∃ (p : Nat) (ps : statement),
        s.parent = some p ∧ heap[p]? = some ps ∧ ps.is_group = true)) ∧
    (∀ il : intermediate_library, get_intermediate_library heap (some r) = .ok (some il) →
      ∀ c ∈ il.cells, c.is_ff = false ∧ c.is_latch = false) := by
  have hw := get_statements_well_named fuel ss heap (some r) h
  obtain ⟨cg, d, hi⟩ := get_statements_tree_inv fuel ss heap (some r) h
  constructor
  · intro i s hs
    have hws := hw s (List.getElem?_mem hs)
    unfold well_named at hws
    refine ⟨?_, ?_, ?_⟩
    · intro hg
      rw [if_pos hg] at hws
      exact of_decide_eq_true hws
    · intro hg
      rw [if_neg (by simp [hg])] at hws
      exact ⟨of_decide_eq_true hws, hi.leaf s (List.getElem?_mem hs) hg⟩
    · intro hne
      have hp := hi.inner i s hs (by simpa using hne)
      cases hpar : s.parent with
      | none => exact absurd hpar hp
      | some p =>
        obtain ⟨ps, hps, hpg⟩ := hi.up i s p hs hpar
        exact ⟨p, ps, rfl, hps, hpg⟩
  · intro il hil c hc
    have hseq := get_intermediate_library_sequential heap hw (some r) il hil c hc
    simp only [sequential_part, new_cell, Prod.mk.injEq] at hseq
    exact ⟨hseq.1, hseq.2.1⟩

/-- Witness for C15: a library with one cell and one input pin. -/
theorem returned_tree_shape_witness :
    get_statements 1 pin_text = .ok (pin_text_tree, some 0) ∧
    get_intermediate_library pin_text_tree (some 0) =
      .ok (some ⟨"demo".toList,
        [{ new_cell "BUF".toList with
            pins := [{ new_pin "A".toList with direction := "input".toList }] }]⟩) ∧
    (∀ (i : Nat) (s : statement), pin_text_tree[i]? = some s →
      (s.is_group = true → s.name ∈ groups_of_interest) ∧
      (s.is_group = false → s.name ∈ attributes_of_interest ∧ s.statements = []) ∧
      (i ≠ 0 → ∃ (p : Nat) (ps : statement),
        s.parent = some p ∧ pin_text_tree[p]? = some ps ∧ ps.is_group = true)) ∧
    (∀ il : intermediate_library,
      get_intermediate_library pin_text_tree (some 0) = .ok (some il) →
      ∀ c ∈ il.cells, c.is_ff = false ∧ c.is_latch = false) :=
  ⟨by decide, by decide, returned_tree_shape 1 pin_text pin_text_tree 0 (by decide)⟩

/-! ## Sequential cells in the intermediate lifter -/

end Liberty
